import Mathlib

/-!
# tiny_dmrg: a verification development

Shallow embedding of `src/Heis_FSA.cpp` (the DMRG driver `main`) and of
`src/tred3.cpp` (Householder tridiagonalisation), with theorems about them.

Conventions of the embedding.

* A blitz `Array<double,2>` is an `Arr2`: its two extents and its entries as
  a function of the two indices.  `resize` changes the extents, an
  assignment `A = expr` changes the entries and keeps the extents.
* Arithmetic is exact: `double` is a field `K` (`ℚ` for evaluation, `ℝ` for
  `tred3`, which takes a square root).  Where rounding decides a property,
  `double` is `Dbl`, IEEE 754 binary64 with rounding to nearest, ties to even.
* C++ `int` is `Nat`: every `int` of `main` is a dimension or a counter that
  starts non-negative and only grows, and the arrays of extent `2*m`
  allocated up front bound `m` far below the overflow range.
* The collaborators declared in `lanczosDMRG.h`, `matrixManipulation.h` and
  `block.h` are parameters (`Ext`), except `reduceM2M2`, modelled from the
  spec.
-/

namespace TinyDMRG

/-! ## Arrays -/

/-- Blitz `Array<double,2>`: extents `n1 × n2` and the entries. -/
structure Arr2 (K : Type) where
  n1 : Nat
  n2 : Nat
  v : Nat → Nat → K

/-- Blitz `Array<double,4>`: four extents and the entries. -/
structure Arr4 (K : Type) where
  e1 : Nat
  e2 : Nat
  e3 : Nat
  e4 : Nat
  v : Nat → Nat → Nat → Nat → K

/-- `A.resize(r,c)`: new extents; the entries are overwritten before they are read. -/
def Arr2.resize {K : Type} (A : Arr2 K) (r c : Nat) : Arr2 K :=
  { A with n1 := r, n2 := c }

/-- `A = expr`: the extents stay, the entries are those of the expression. -/
def Arr2.assign {K : Type} (A : Arr2 K) (f : Nat → Nat → K) : Arr2 K :=
  { A with v := f }

/-- `T.resize(a,b,c,d)` for a rank-4 array. -/
def Arr4.resize {K : Type} (T : Arr4 K) (a b c d : Nat) : Arr4 K :=
  { T with e1 := a, e2 := b, e3 := c, e4 := d }

/-- `T = expr` for a rank-4 array. -/
def Arr4.assign {K : Type} (T : Arr4 K) (f : Nat → Nat → Nat → Nat → K) : Arr4 K :=
  { T with v := f }

/-- The block of entries `[0,r) × [0,c)` of an index function, as a matrix. -/
def toMatrix {K : Type} (r c : Nat) (f : Nat → Nat → K) : Matrix (Fin r) (Fin c) K :=
  fun i j => f i.val j.val

/-- `I = 0.0; for (b1=0; b1<n; b1++) I(b1,b1) = 1.0;` on an `n × n` array. -/
def identArr {K : Type} [Field K] (n : Nat) : Arr2 K :=
  { n1 := n, n2 := n, v := fun i j => if i = j ∧ i < n then 1 else 0 }

/-- Modelled from the spec: `reduceM2M2` of `matrixManipulation.h`, which is not among the
sources; it "writes a rank-4 tensor as a 2D matrix in the combined basis": the pair
`(i,j)` with `i < a`, `j < b` becomes the row `i*b + j`, the pair `(k,l)` the column
`k*b + l`. -/
def reduceM2M2 {K : Type} (T : Arr4 K) (a b : Nat) : Arr2 K :=
  { n1 := a * b, n2 := a * b, v := fun r c => T.v (r / b) (r % b) (c / b) (c % b) }

/-! ## Constants of `main` (lines 63-98) -/

section Constants
variable {K : Type} [Field K]

/-- `Sz = 0.5, 0, 0, -0.5;` -/
def Sz : Arr2 K :=
  { n1 := 2, n2 := 2,
    v := fun i j => if i = 0 ∧ j = 0 then 1 / 2 else if i = 1 ∧ j = 1 then -(1 / 2) else 0 }

/-- `Sp = 0, 1.0, 0, 0;` -/
def Sp : Arr2 K :=
  { n1 := 2, n2 := 2, v := fun i j => if i = 0 ∧ j = 1 then 1 else 0 }

/-- `Sm = 0, 0, 1.0, 0;` -/
def Sm : Arr2 K :=
  { n1 := 2, n2 := 2, v := fun i j => if i = 1 ∧ j = 0 then 1 else 0 }

/-- `I2`, the 2 × 2 identity. -/
def I2 : Arr2 K := identArr 2

/-- `I4`, the 4 × 4 identity. -/
def I4 : Arr2 K := identArr 4

/-- `I2m`, the `2m × 2m` identity. -/
def I2m (m : Nat) : Arr2 K := identArr (2 * m)

/-- `TSR = Sz(i,k)*Sz(j,l) + 0.5*Sp(i,k)*Sm(j,l) + 0.5*Sm(i,k)*Sp(j,l)` on `TSR(2,2,2,2)`. -/
def TSR12 : Arr4 K :=
  { e1 := 2, e2 := 2, e3 := 2, e4 := 2,
    v := fun i j k l =>
      (Sz : Arr2 K).v i k * (Sz : Arr2 K).v j l
        + 1 / 2 * (Sp : Arr2 K).v i k * (Sm : Arr2 K).v j l
        + 1 / 2 * (Sm : Arr2 K).v i k * (Sp : Arr2 K).v j l }

/-- `H12 = reduceM2M2(TSR,2,2)`, the two-site Hamiltonian. -/
def H12 : Arr2 K := reduceM2M2 TSR12 2 2

/-- `TSR = Sz(i,k)*I2(j,l); SzAB = reduceM2M2(TSR,2,2)` and its two siblings: the
operator `S` on the first site of the initial two-site block. -/
def firstSiteOp (S : Arr2 K) : Arr2 K :=
  reduceM2M2
    { e1 := 2, e2 := 2, e3 := 2, e4 := 2,
      v := fun i j k l => S.v i k * (I2 : Arr2 K).v j l } 2 2

end Constants

/-! ## State of `main` and its collaborators -/

/-- One persistence call on a `BLOCK` (`block.h`), in the order made. -/
inductive IOEvent (K : Type) where
  | ISAwrite (sites : Nat) (HAB : Arr2 K)
  | FSAwrite (sites iter : Nat) (HAB : Arr2 K)
  | FSAread (sites iter : Nat)

/-- The site count an event writes a snapshot for, if it is a write. -/
def IOEvent.written {K : Type} : IOEvent K → Option Nat
  | .ISAwrite s _ => some s
  | .FSAwrite s _ _ => some s
  | .FSAread _ _ => none

/-- The site count an event reads a snapshot of, if it is a read. -/
def IOEvent.readAt {K : Type} : IOEvent K → Option Nat
  | .FSAread s _ => some s
  | _ => none

/-- The site counts for which a list of events writes a snapshot. -/
def writtenSites {K : Type} (log : List (IOEvent K)) : List Nat :=
  log.filterMap IOEvent.written

/-- On a list of events with the latest first: every read is at a site count written by an
earlier event. -/
def coveredRev {K : Type} : List (IOEvent K) → Prop
  | [] => True
  | e :: earlier => (∀ s, e.readAt = some s → s ∈ writtenSites earlier) ∧ coveredRev earlier

/-- Every snapshot read of the log is at a site count for which a snapshot was written
earlier in the log: the read does not hit a missing snapshot. -/
structure ReadsCovered {K : Type} (log : List (IOEvent K)) : Prop where
  covered : coveredRev log.reverse

/-- Every site count from 3 to `B` has a snapshot written in the log. -/
def WrittenUpTo {K : Type} (B : Nat) (log : List (IOEvent K)) : Prop :=
  ∀ k, 3 ≤ k → k ≤ B → k ∈ writtenSites log

/-- The collaborators of `main` that are declared outside the sources: the ground-state
solver (`lanczosDMRG.h`: the energy and the new `Psi`, from `Habcd`, the old `Psi` and the
dimension), the reduced density matrix, the density-matrix eigenvectors (`HHtridi8.h`: the
new entries of `OO`, from `rhoTSR`, the old `OO`, the dimension and the number to keep),
and the snapshot read of `block.h` (the block read, from the calls made so far, the site
count and the tag). -/
structure Ext (K : Type) where
  calculateGroundState : Arr4 K → Arr2 K → Nat → K × (Nat → Nat → K)
  calculateReducedDensityMatrix : Arr2 K → Nat → Nat → K
  DMlargeEigen : Arr2 K → Arr2 K → Nat → Nat → Nat → Nat → K
  FSAread : List (IOEvent K) → Nat → Nat → Arr2 K

/-- The variables of `main` that change, plus what it prints (`out`), the persistence calls
it makes (`log`) and the `(dimension, number kept)` arguments of its `DMlargeEigen` calls
(`dmCalls`).  `blkS.size` is left out: `main` sets it to `sites` before each write and never
reads it, and the write events carry that site count. -/
structure MainState (K : Type) where
  st : Nat
  truncflag : Nat
  sites : Nat
  blkS_HAB : Arr2 K
  blkE_HAB : Arr2 K
  TSR : Arr4 K
  Habcd : Arr4 K
  Psi : Arr2 K
  rhoTSR : Arr2 K
  OO : Arr2 K
  OT : Arr2 K
  Hl : Arr2 K
  HAp : Arr2 K
  SzB : Arr2 K
  SpB : Arr2 K
  SmB : Arr2 K
  I2st : Arr2 K
  SzAB : Arr2 K
  SpAB : Arr2 K
  SmAB : Arr2 K
  Eval : K
  out : List (K × K × K)
  log : List (IOEvent K)
  dmCalls : List (Nat × Nat)

section Main
variable {K : Type} [Field K]

/-- The state of `main` on entering the growth loop (lines 49-109). -/
def initState (m : Nat) : MainState K :=
  { st := 2
    truncflag := 0
    sites := 2
    blkS_HAB := (H12 : Arr2 K)
    blkE_HAB := { n1 := 0, n2 := 0, v := fun _ _ => 0 }
    TSR := { e1 := 2, e2 := 2, e3 := 2, e4 := 2,
             v := fun i j k l => (Sp : Arr2 K).v i k * (I2 : Arr2 K).v j l }
    Habcd := { e1 := 4, e2 := 4, e3 := 4, e4 := 4, v := fun _ _ _ _ => 0 }
    Psi := { n1 := 4, n2 := 4, v := fun _ _ => 0 }
    rhoTSR := { n1 := 4, n2 := 4, v := fun _ _ => 0 }
    OO := { n1 := m, n2 := 4, v := fun _ _ => 0 }
    OT := { n1 := 4, n2 := m, v := fun _ _ => 0 }
    Hl := { n1 := 4, n2 := m, v := fun _ _ => 0 }
    HAp := { n1 := 0, n2 := 0, v := fun _ _ => 0 }
    SzB := { n1 := 0, n2 := 0, v := fun _ _ => 0 }
    SpB := { n1 := 0, n2 := 0, v := fun _ _ => 0 }
    SmB := { n1 := 0, n2 := 0, v := fun _ _ => 0 }
    I2st := (I4 : Arr2 K)
    SzAB := firstSiteOp Sz
    SpAB := firstSiteOp Sp
    SmAB := firstSiteOp Sm
    Eval := 0
    out := []
    log := []
    dmCalls := [] }

/-- `sum(A(i,k)*B(k,j),k)`: the contraction over the shared index, whose range is the
second extent of `A`. -/
def contract (A B : Arr2 K) : Nat → Nat → K :=
  fun i j => ∑ k in Finset.range A.n2, A.v i k * B.v k j

/-- `for (i1=0; i1<r; i1++) for (i2=0; i2<c; i2++) OT(i1,i2) = OO(i2,i1);` -/
def transposeInto (OT OO : Arr2 K) (r c : Nat) : Arr2 K :=
  OT.assign (fun i1 i2 => if i1 < r ∧ i2 < c then OO.v i2 i1 else OT.v i1 i2)

/-- The superblock expression of lines 113-115 and 244-245:
`A(i,k)*I2st(j,l) + I2st(i,k)*B(j,l) + SzAB(i,k)*SzAB(j,l) + 0.5*SpAB(i,k)*SmAB(j,l)
+ 0.5*SmAB(i,k)*SpAB(j,l)`. -/
def superblock (A B : Arr2 K) (s : MainState K) : Nat → Nat → Nat → Nat → K :=
  fun i j k l =>
    A.v i k * s.I2st.v j l + s.I2st.v i k * B.v j l
      + s.SzAB.v i k * s.SzAB.v j l
      + 1 / 2 * s.SpAB.v i k * s.SmAB.v j l
      + 1 / 2 * s.SmAB.v i k * s.SpAB.v j l

/-- Lines 113-125 of the growth loop: superblock of the block with itself, ground state,
diagnostic line, reduced density matrix. -/
def growSolve (ext : Ext K) (s : MainState K) : MainState K :=
  let Habcd := s.Habcd.assign (superblock s.blkS_HAB s.blkS_HAB s)
  let r := ext.calculateGroundState Habcd s.Psi (4 * s.st * s.st)
  let Psi := s.Psi.assign r.2
  { s with
    Habcd := Habcd
    Eval := r.1
    Psi := Psi
    out := s.out ++ [(2 * (s.sites : K), 1 / (2 * (s.sites : K)), r.1 / (2 * (s.sites : K)))]
    rhoTSR := s.rhoTSR.assign (ext.calculateReducedDensityMatrix Psi) }

/-- Lines 127-153: the truncation decision and the call of `DMlargeEigen`. -/
def growTruncate (ext : Ext K) (m : Nat) (s : MainState K) : MainState K :=
  if 2 * s.st ≤ m then
    let OO := s.OO.resize (2 * s.st) (2 * s.st)
    let OT := s.OT.resize (2 * s.st) (2 * s.st)
    let OO := OO.assign (ext.DMlargeEigen s.rhoTSR OO (2 * s.st) (2 * s.st))
    { s with
      OO := OO
      OT := transposeInto OT OO (2 * s.st) (2 * s.st)
      Hl := s.Hl.resize (2 * s.st) (2 * s.st)
      HAp := s.HAp.resize (2 * s.st) (2 * s.st)
      SzB := s.SzB.resize (2 * s.st) (2 * s.st)
      SpB := s.SpB.resize (2 * s.st) (2 * s.st)
      SmB := s.SmB.resize (2 * s.st) (2 * s.st)
      dmCalls := s.dmCalls ++ [(2 * s.st, 2 * s.st)]
      st := s.st * 2 }
  else
    let s1 : MainState K :=
      if s.truncflag = 0 ∨ s.truncflag = 3 then
        { s with
          OO := s.OO.resize m (2 * s.st)
          OT := s.OT.resize (2 * s.st) m
          Hl := s.Hl.resize (2 * s.st) m
          truncflag := s.truncflag + 1 }
      else s
    let OO := s1.OO.assign (ext.DMlargeEigen s1.rhoTSR s1.OO (2 * s1.st) m)
    { s1 with
      OO := OO
      OT := transposeInto s1.OT OO (2 * s1.st) m
      dmCalls := s1.dmCalls ++ [(2 * s1.st, m)] }

/-- Lines 155-165: the first truncation fixes `st = m` and the extents of the transformed
operators; `TSR` follows `st` until then. -/
def growClamp (m : Nat) (s : MainState K) : MainState K :=
  if s.truncflag < 2 then
    let s1 : MainState K :=
      if s.truncflag = 1 then
        { s with
          truncflag := 2
          st := m
          HAp := s.HAp.resize m m
          SzB := s.SzB.resize m m
          SpB := s.SpB.resize m m
          SmB := s.SmB.resize m m }
      else s
    { s1 with TSR := s1.TSR.resize s1.st 2 s1.st 2 }
  else s

/-- Lines 168-178 and 261-271: `Hl = sum(X(i,k)*OT(k,j),k); Y = sum(OO(i,k)*Hl(k,j),k)`
for the block Hamiltonian and the three boundary operators in turn. -/
def transformOps (s : MainState K) : MainState K :=
  let Hl1 := s.Hl.assign (contract s.blkS_HAB s.OT)
  let HAp := s.HAp.assign (contract s.OO Hl1)
  let Hl2 := Hl1.assign (contract s.SzAB s.OT)
  let SzB := s.SzB.assign (contract s.OO Hl2)
  let Hl3 := Hl2.assign (contract s.SpAB s.OT)
  let SpB := s.SpB.assign (contract s.OO Hl3)
  let Hl4 := Hl3.assign (contract s.SmAB s.OT)
  let SmB := s.SmB.assign (contract s.OO Hl4)
  { s with Hl := Hl4, HAp := HAp, SzB := SzB, SpB := SpB, SmB := SmB }

/-- The enlargement expression of lines 180-181 and 274-275:
`HAp(i,k)*I2(j,l) + SzB(i,k)*Sz(j,l) + 0.5*SpB(i,k)*Sm(j,l) + 0.5*SmB(i,k)*Sp(j,l)`. -/
def enlarged (s : MainState K) : Nat → Nat → Nat → Nat → K :=
  fun i j k l =>
    s.HAp.v i k * (I2 : Arr2 K).v j l + s.SzB.v i k * (Sz : Arr2 K).v j l
      + 1 / 2 * s.SpB.v i k * (Sm : Arr2 K).v j l
      + 1 / 2 * s.SmB.v i k * (Sp : Arr2 K).v j l

/-- Lines 180-183: the block Hamiltonian of the next iteration. -/
def growEnlarge (s : MainState K) : MainState K :=
  let TSR := s.TSR.assign (enlarged s)
  { s with
    TSR := TSR
    blkS_HAB := (s.blkS_HAB.resize (2 * s.st) (2 * s.st)).assign (reduceM2M2 TSR s.st 2).v }

/-- `X.resize(2*st,2*st); TSR = I2st(i,k)*S(j,l); X = reduceM2M2(TSR,st,2);` -/
def lastSiteOp (X I2st S : Arr2 K) (TSR : Arr4 K) (st : Nat) : Arr4 K × Arr2 K :=
  let T := TSR.assign (fun i j k l => I2st.v i k * S.v j l)
  (T, (X.resize (2 * st) (2 * st)).assign (reduceM2M2 T st 2).v)

/-- Lines 186-212: the identity and the boundary operators of the next iteration, while
`truncflag < 3`. -/
def growOps (m : Nat) (s : MainState K) : MainState K :=
  if s.truncflag < 3 then
    let s1 : MainState K :=
      if s.truncflag = 2 then
        { s with truncflag := 3, I2st := (s.I2st.resize (2 * m) (2 * m)).assign (I2m m : Arr2 K).v }
      else
        { s with I2st := (s.I2st.resize (4 * s.st) (4 * s.st)).assign (identArr (4 * s.st) : Arr2 K).v }
    let z := lastSiteOp s1.SzAB s1.I2st Sz s1.TSR s1.st
    let p := lastSiteOp s1.SpAB s1.I2st Sp z.1 s1.st
    let q := lastSiteOp s1.SmAB s1.I2st Sm p.1 s1.st
    { s1 with
      SzAB := z.2
      SpAB := p.2
      SmAB := q.2
      TSR := q.1
      Habcd := s1.Habcd.resize (2 * s1.st) (2 * s1.st) (2 * s1.st) (2 * s1.st)
      Psi := s1.Psi.resize (2 * s1.st) (2 * s1.st)
      rhoTSR := s1.rhoTSR.resize (2 * s1.st) (2 * s1.st) }
  else s

/-- Lines 214-217: `sites++; blkS.size = sites; blkS.ISAwrite(sites);` -/
def growAdvance (s : MainState K) : MainState K :=
  { s with
    sites := s.sites + 1
    log := s.log ++ [IOEvent.ISAwrite (s.sites + 1) s.blkS_HAB] }

/-- The state before the transform block of a growth iteration (lines 113-165). -/
def growPre (ext : Ext K) (m : Nat) (s : MainState K) : MainState K :=
  growClamp m (growTruncate ext m (growSolve ext s))

/-- The state after the transform block of a growth iteration (lines 113-178). -/
def growTransformed (ext : Ext K) (m : Nat) (s : MainState K) : MainState K :=
  transformOps (growPre ext m s)

/-- One iteration of the growth loop (lines 113-217). -/
def growStep (ext : Ext K) (m : Nat) (s : MainState K) : MainState K :=
  growAdvance (growOps m (growEnlarge (growTransformed ext m s)))

/-- `while (sites <= NumS/2) { ... }` with at most `fuel` iterations. -/
def growLoop (ext : Ext K) (m NumS : Nat) : Nat → MainState K → MainState K
  | 0, s => s
  | fuel + 1, s => if s.sites ≤ NumS / 2 then growLoop ext m NumS fuel (growStep ext m s) else s

/-- The state at the start of growth iteration number `n` (counted from 0), if the loop
gets that far. -/
def growIter (ext : Ext K) (m : Nat) : Nat → MainState K
  | 0 => initState m
  | n + 1 => growStep ext m (growIter ext m n)

/-! ## The finite-system sweeps (lines 227-289) -/

/-- `for (FSAend = 3; FSAend < NumS; FSAend++) if (powf(2.0,FSAend) >= 2.0*m) break;`
with at most `fuel` iterations, from the current value `f`.  `powf(2.0,f)` is the exact
power of two, or `+inf` from `f = 128` on, where the exact power also exceeds twice any
`int`. -/
def fsaEndLoop (m NumS : Nat) : Nat → Nat → Nat
  | 0, f => f
  | fuel + 1, f =>
    if f < NumS then
      if 2 ^ f ≥ 2 * m then f else fsaEndLoop m NumS fuel (f + 1)
    else f

/-- The value of `FSAend` after the loop of lines 228-229. -/
def FSAend (m NumS : Nat) : Nat := fsaEndLoop m NumS NumS 3

/-- `sites = n; blkS.FSAread(sites, tag);` -/
def readSystem (ext : Ext K) (n tag : Nat) (s : MainState K) : MainState K :=
  { s with
    sites := n
    blkS_HAB := ext.FSAread s.log n tag
    log := s.log ++ [IOEvent.FSAread n tag] }

/-- Lines 241-253 of a sweep step: the environment block is read, the superblock is built
with `blkE.HAB` on the first pair of indices and `blkS.HAB` on the second, then ground
state, output line and reduced density matrix. -/
def sweepSolve (ext : Ext K) (m NumS iter : Nat) (s : MainState K) : MainState K :=
  let Esites := NumS - s.sites
  let blkE := ext.FSAread s.log Esites iter
  let Habcd := s.Habcd.assign (superblock blkE s.blkS_HAB s)
  let r := ext.calculateGroundState Habcd s.Psi (4 * m * m)
  let Psi := s.Psi.assign r.2
  { s with
    blkE_HAB := blkE
    log := s.log ++ [IOEvent.FSAread Esites iter]
    Habcd := Habcd
    Eval := r.1
    Psi := Psi
    out := s.out ++
      [if iter % 2 = 0 then ((s.sites : K), (Esites : K), r.1 / ((Esites + s.sites : Nat) : K))
       else ((Esites : K), (s.sites : K), r.1 / ((Esites + s.sites : Nat) : K))]
    rhoTSR := s.rhoTSR.assign (ext.calculateReducedDensityMatrix Psi) }

/-- Lines 255-258: `DMlargeEigen(rhoTSR, OO, 2*m, m)` and the transposition loops. -/
def sweepTruncate (ext : Ext K) (m : Nat) (s : MainState K) : MainState K :=
  let OO := s.OO.assign (ext.DMlargeEigen s.rhoTSR s.OO (2 * m) m)
  { s with
    OO := OO
    OT := transposeInto s.OT OO (2 * m) m
    dmCalls := s.dmCalls ++ [(2 * m, m)] }

/-- The state after the transform block of a sweep step (lines 241-271). -/
def sweepTransformed (ext : Ext K) (m NumS iter : Nat) (s : MainState K) : MainState K :=
  transformOps (sweepTruncate ext m (sweepSolve ext m NumS iter s))

/-- Lines 274-281: the system block gets one more site and is written. -/
def sweepEnlarge (iter m : Nat) (s : MainState K) : MainState K :=
  let TSR := s.TSR.assign (enlarged s)
  let HAB := s.blkS_HAB.assign (reduceM2M2 TSR m 2).v
  { s with
    TSR := TSR
    blkS_HAB := HAB
    sites := s.sites + 1
    log := s.log ++ [IOEvent.FSAwrite (s.sites + 1) iter HAB] }

/-- One step of a sweep (lines 241-281). -/
def sweepStep (ext : Ext K) (m NumS iter : Nat) (s : MainState K) : MainState K :=
  sweepEnlarge iter m (sweepTransformed ext m NumS iter s)

/-- `while (sites <= NumS-FSAend) { ... }` with at most `fuel` iterations; the comparison
of the two `int`s is written without the subtraction. -/
def sweepLoop (ext : Ext K) (m NumS F iter : Nat) : Nat → MainState K → MainState K
  | 0, s => s
  | fuel + 1, s =>
    if s.sites + F ≤ NumS then sweepLoop ext m NumS F iter fuel (sweepStep ext m NumS iter s)
    else s

/-- `for (iter=...; iter<NumI; iter++) { while ... ; sites = FSAend; blkS.FSAread(sites,iter); }`
with `n` sweeps left, the next one being number `iter`. -/
def sweeps (ext : Ext K) (m NumS F : Nat) : Nat → Nat → MainState K → MainState K
  | 0, _, s => s
  | n + 1, iter, s =>
    sweeps ext m NumS F n (iter + 1)
      (readSystem ext F iter (sweepLoop ext m NumS F iter (NumS + 1) s))

/-- The whole of `main` for the inputs `m`, `NumS`, `NumI`. -/
def mainRun (ext : Ext K) (m NumS NumI : Nat) : MainState K :=
  sweeps ext m NumS (FSAend m NumS) NumI 0
    (readSystem ext (NumS / 2) 1 (growLoop ext m NumS NumS (initState m)))

/-- The state of `main` on entering sweep number `iter` (lines 231-287): the system block
is read at `NumS/2` before the first sweep and at `FSAend` after each sweep. -/
def sweepStart (ext : Ext K) (m NumS : Nat) : Nat → MainState K
  | 0 => readSystem ext (NumS / 2) 1 (growLoop ext m NumS NumS (initState m))
  | iter + 1 =>
    readSystem ext (FSAend m NumS) iter
      (sweepLoop ext m NumS (FSAend m NumS) iter (NumS + 1) (sweepStart ext m NumS iter))

/-- The number of times the body of `while (sites <= NumS-FSAend)` runs from a state with
the given site count: the sizes `sites, ..., NumS - F`. -/
def sweepCount (NumS F sites : Nat) : Nat := NumS + 1 - (sites + F)

/-- The state of `main` after `k` steps of sweep number `iter`. -/
def sweepAt (ext : Ext K) (m NumS iter k : Nat) : MainState K :=
  (sweepStep ext m NumS iter)^[k] (sweepStart ext m NumS iter)

/-! ## Dimension bookkeeping of the growth loop -/

/-- What holds of the extents at the start of every growth iteration: the block Hamiltonian
and the three boundary operators are `2*st` square; `truncflag` is 0 before the first
truncation and 3 or 4 after it, when `st = m` and the transformed operators are `m`
square; from the second truncation on the truncation matrix is `m × 2m`; `I2st` is the identity on the indices below
`2*st`. -/
structure DimInv (m : Nat) (s : MainState K) : Prop where
  hab1 : s.blkS_HAB.n1 = 2 * s.st
  hab2 : s.blkS_HAB.n2 = 2 * s.st
  sz1 : s.SzAB.n1 = 2 * s.st
  sz2 : s.SzAB.n2 = 2 * s.st
  sp1 : s.SpAB.n1 = 2 * s.st
  sp2 : s.SpAB.n2 = 2 * s.st
  sm1 : s.SmAB.n1 = 2 * s.st
  sm2 : s.SmAB.n2 = 2 * s.st
  flag : s.truncflag = 0 ∨
    ((s.truncflag = 3 ∨ s.truncflag = 4) ∧ s.st = m ∧
      s.HAp.n1 = m ∧ s.HAp.n2 = m ∧ s.SzB.n1 = m ∧ s.SzB.n2 = m ∧
      s.SpB.n1 = m ∧ s.SpB.n2 = m ∧ s.SmB.n1 = m ∧ s.SmB.n2 = m)
  steady : s.truncflag = 4 →
    s.OO.n1 = m ∧ s.OO.n2 = 2 * m ∧ s.OT.n1 = 2 * m ∧ s.OT.n2 = m
  ident : ∀ a b, a < 2 * s.st → b < 2 * s.st → s.I2st.v a b = if a = b then 1 else 0

/-- Symmetry of the operators of a block on the indices below `d`: `blkS.HAB` and `SzAB`
are symmetric and `SpAB` is the transpose of `SmAB`. -/
structure SymInv (d : Nat) (s : MainState K) : Prop where
  hab : ∀ a b, a < d → b < d → s.blkS_HAB.v a b = s.blkS_HAB.v b a
  sz : ∀ a b, a < d → b < d → s.SzAB.v a b = s.SzAB.v b a
  spm : ∀ a b, a < d → b < d → s.SpAB.v a b = s.SmAB.v b a

/-- `Y = O · X · Oᵗ` for the `k × d` block of `O`, the `d × d` block of `X` and the `k × k`
block of `Y`. -/
def SimilarBy (k d : Nat) (O X Y : Nat → Nat → K) : Prop :=
  toMatrix k k Y = toMatrix k d O * toMatrix d d X * (toMatrix k d O).transpose

/-- The superblock tensor as the spec writes it, for a block `A` on the first tensor factor
and a block `B` on the second: `A(i,k)·δ(j,l) + δ(i,k)·B(j,l) + Sz(i,k)·Sz(j,l)
+ ½·Sp(i,k)·Sm(j,l) + ½·Sm(i,k)·Sp(j,l)`. -/
def specSuperblock (A B Sz Sp Sm : Nat → Nat → K) : Nat → Nat → Nat → Nat → K :=
  fun i j k l =>
    A i k * (if j = l then 1 else 0) + (if i = k then 1 else 0) * B j l
      + Sz i k * Sz j l + 1 / 2 * Sp i k * Sm j l + 1 / 2 * Sm i k * Sp j l

/-- `E` is an eigenvalue of the rank-4 tensor `H`, read as an operator on the `d × d` arrays
`Ψ` (as the solver reads `Habcd`), with eigenvector `Ψ`: `Ψ` is not zero and
`Σ_{k,l} H(i,j,k,l)·Ψ(k,l) = E·Ψ(i,j)`. -/
def IsEigenpair (d : Nat) (H : Nat → Nat → Nat → Nat → K) (E : K) (Ψ : Nat → Nat → K) : Prop :=
  (∃ i j, i < d ∧ j < d ∧ Ψ i j ≠ 0) ∧
  ∀ i j, i < d → j < d →
    ∑ k in Finset.range d, ∑ l in Finset.range d, H i j k l * Ψ k l = E * Ψ i j

/-- The number of rows of `OO` a growth iteration asks `DMlargeEigen` for. -/
def keepCount (m : Nat) (s : MainState K) : Nat := if 2 * s.st ≤ m then 2 * s.st else m

end Main

/-! ## Persistence and the bookkeeping of the sweep phase -/

/-- The block a write event stores, if the event is a write. -/
def IOEvent.block {K : Type} : IOEvent K → Option (Arr2 K)
  | .ISAwrite _ X => some X
  | .FSAwrite _ _ X => some X
  | .FSAread _ _ => none

/-- Modelled from the spec: the persistence of `block.h`, which is not among the sources,
is a store of block snapshots "keyed by site count and a phase/iteration tag"; a read
under a site count for which a snapshot was written returns a block written earlier in the
run under that site count (which of them, the tag decides). -/
def ReadsWritten {K : Type} (ext : Ext K) : Prop :=
  ∀ (log : List (IOEvent K)) (n tag : Nat), n ∈ writtenSites log →
    ∃ e ∈ log, e.written = some n ∧ e.block = some (ext.FSAread log n tag)

/-- The block of the latest write under the site count `n` in a list of events. -/
def lastWritten {K : Type} : List (IOEvent K) → Nat → Option (Arr2 K)
  | [], _ => none
  | e :: rest, n =>
    match lastWritten rest n with
    | some X => some X
    | none => if e.written = some n then e.block else none

/-- Every block written under a site count `n` has the extents `2*min(2^(n-1), m)`. -/
def LogDims {K : Type} (m : Nat) (log : List (IOEvent K)) : Prop :=
  ∀ e ∈ log, ∀ n X, e.written = some n → e.block = some X →
    X.n1 = 2 * min (2 ^ (n - 1)) m ∧ X.n2 = 2 * min (2 ^ (n - 1)) m

/-- Every block written is symmetric on the indices inside its extents. -/
def LogSym {K : Type} (log : List (IOEvent K)) : Prop :=
  ∀ e ∈ log, ∀ X, e.block = some X → ∀ a b, a < X.n1 → b < X.n1 → X.v a b = X.v b a

/-- What the sweep phase leaves as the growth phase made it: `st`, the boundary operators,
`I2st` and the extents of `OO`. -/
structure SweepFrame {K : Type} (g s : MainState K) : Prop where
  st : s.st = g.st
  sz : s.SzAB = g.SzAB
  sp : s.SpAB = g.SpAB
  sm : s.SmAB = g.SmAB
  ident : s.I2st = g.I2st
  oo1 : s.OO.n1 = g.OO.n1
  oo2 : s.OO.n2 = g.OO.n2

/-- The bookkeeping of the sweep phase in a run whose snapshots fit: the system block is
`2m` square, the site count `s` of the system block has `m ≤ 2^(s-1)`, every block written
so far has the extents of `LogDims`, and the site counts `3, ..., NumS/2+1` are written. -/
structure SweepDims {K : Type} (m NumS : Nat) (s : MainState K) : Prop where
  hab1 : s.blkS_HAB.n1 = 2 * m
  hab2 : s.blkS_HAB.n2 = 2 * m
  sites1 : 1 ≤ s.sites
  sites2 : m ≤ 2 ^ (s.sites - 1)
  dims : LogDims m s.log
  written : WrittenUpTo (NumS / 2 + 1) s.log

/-- Collaborators for evaluating `main` on concrete inputs: a solver that returns energy 0
and the zero vector, a zero density matrix, unit row vectors for `OO`, an empty block for
every read. -/
def zeroExt {K : Type} [Field K] : Ext K :=
  { calculateGroundState := fun _ _ _ => (0, fun _ _ => 0)
    calculateReducedDensityMatrix := fun _ _ _ => 0
    DMlargeEigen := fun _ _ _ _ i j => if i = j then 1 else 0
    FSAread := fun _ _ _ => { n1 := 0, n2 := 0, v := fun _ _ => 0 } }

/-- The collaborators `zeroExt` over the rationals. -/
def sampleExt : Ext ℚ := zeroExt

/-- Collaborators like `zeroExt`, with a snapshot read that returns the block of the latest
write under the site count asked for (an empty block when there is none). -/
def echoExt {K : Type} [Field K] : Ext K :=
  { (zeroExt : Ext K) with
    FSAread := fun log n _ => (lastWritten log n).getD { n1 := 0, n2 := 0, v := fun _ _ => 0 } }

/-- Collaborators whose solver returns the energy 3/4 and the vector with a single 1 at
(0,0), the state of the first superblock with all four spins up. -/
def allUpExt {K : Type} [Field K] : Ext K :=
  { (zeroExt : Ext K) with
    calculateGroundState := fun _ _ _ => (3 / 4, fun k l => if k = 0 ∧ l = 0 then 1 else 0) }

/-- Collaborators whose snapshot read returns the 2 × 2 block with a single 1 at (0,0). -/
def unitReadExt : Ext ℚ :=
  { sampleExt with
    FSAread := fun _ _ _ => { n1 := 2, n2 := 2, v := fun i j => if i = 0 ∧ j = 0 then 1 else 0 } }

/-- A state at the start of a sweep step for `m = 1`: a zero system block of dimension
`2m = 2`, the `2m × 2m` identity in `I2st`, and the boundary operators of the last site. -/
def sweepState1 : MainState ℚ :=
  { (initState 1 : MainState ℚ) with
    st := 1
    truncflag := 4
    sites := 3
    blkS_HAB := { n1 := 2, n2 := 2, v := fun _ _ => 0 }
    I2st := I2m 1
    SzAB := { n1 := 2, n2 := 2, v := (Sz : Arr2 ℚ).v }
    SpAB := { n1 := 2, n2 := 2, v := (Sp : Arr2 ℚ).v }
    SmAB := { n1 := 2, n2 := 2, v := (Sm : Arr2 ℚ).v }
    OO := { n1 := 1, n2 := 2, v := fun _ _ => 0 }
    OT := { n1 := 2, n2 := 1, v := fun _ _ => 0 } }

/-! ## The exact open chain (for the no-truncation exactness) -/

section Chain
variable {K : Type} [Field K]

end Chain

/-! ## tred3 (src/tred3.cpp) -/

/-- `for (k = 0; k < n; k++) body`: the state after the `n` iterations. -/
def forLoop {σ : Type} (body : Nat → σ → σ) : Nat → σ → σ
  | 0, s => s
  | n + 1, s => body n (forLoop body n s)

/-- `for (i = c; i > 0; i--) body`: the iterations `i = c, c-1, ..., 1`. -/
def forDown {σ : Type} (body : Nat → σ → σ) : Nat → σ → σ
  | 0, s => s
  | c + 1, s => forDown body c (body (c + 1) s)

/-- `v(i) = x` on a rank-1 array. -/
def set1 {K : Type} (v : Nat → K) (i : Nat) (x : K) : Nat → K :=
  fun p => if p = i then x else v p

/-- `a(i,j) = x` on a rank-2 array. -/
def set2 {K : Type} (a : Nat → Nat → K) (i j : Nat) (x : K) : Nat → Nat → K :=
  fun p q => if p = i ∧ q = j then x else a p q

/-- The arrays `a`, `d`, `e` of `tred3`, and the divisors of the divisions executed so
far (`divs`). -/
structure TredState (K : Type) where
  a : Nat → Nat → K
  d : Nat → K
  e : Nat → K
  divs : List K

section Tred3
variable {K : Type} [LinearOrderedField K]

/-- `for (k=0;k<=l;k++) scale+=fabs(a(i,k));` from `scale = 0`. -/
def rowScale (a : Nat → Nat → K) (i l : Nat) : K :=
  forLoop (fun k scale => scale + |a i k|) (l + 1) 0

/-- `for (k=0;k<=l;k++) { a(i,k)/=scale; h+=a(i,k)*a(i,k); }` from `h = 0`. -/
def scaleRow (a : Nat → Nat → K) (i l : Nat) (scale : K) : (Nat → Nat → K) × K :=
  forLoop (fun k (s : (Nat → Nat → K) × K) =>
    let a1 := set2 s.1 i k (s.1 i k / scale)
    (a1, s.2 + a1 i k * a1 i k)) (l + 1) (a, 0)

/-- The body of the first `j` loop (lines 56-60): `a(j,i)=a(i,j)/h`, the two sums into `g`,
`e(j)=g/h`, `f += e(j)*a(i,j)`. The state is `(a, e, f)`. -/
def formP (i l : Nat) (h : K) (j : Nat) (s : (Nat → Nat → K) × (Nat → K) × K) :
    (Nat → Nat → K) × (Nat → K) × K :=
  let a := set2 s.1 j i (s.1 i j / h)
  let g := forLoop (fun k g => g + a j k * a i k) (j + 1) 0
  let g := forLoop (fun t g => g + a (j + 1 + t) j * a i (j + 1 + t)) (l - j) g
  let e := set1 s.2.1 j (g / h)
  (a, e, s.2.2 + e j * a i j)

/-- The body of the second `j` loop (lines 64-65): `f=a(i,j); e(j)=g=e(j)-hh*f;` and
`a(j,k)-=(f*e(k)+g*a(i,k))` for `k ≤ j`. The state is `(a, e)`. -/
def reduceA (i : Nat) (hh : K) (j : Nat) (s : (Nat → Nat → K) × (Nat → K)) :
    (Nat → Nat → K) × (Nat → K) :=
  let f := s.1 i j
  let g := s.2 j - hh * f
  let e := set1 s.2 j g
  (forLoop (fun k a => set2 a j k (a j k - (f * e k + g * a i k))) (j + 1) s.1, e)

/-- The body of the reduction loop (lines 42-69) for the row `i ≥ 1`. The divisions it
executes are by `scale` (line 47), by `h` (lines 56 and 59) and by `h+h` (line 62). -/
def reduceRow (sqrt : K → K) (i : Nat) (s : TredState K) : TredState K :=
  let l := i - 1
  if 0 < l then
    let scale := rowScale s.a i l
    if scale = 0 then { s with e := set1 s.e i (s.a i l) }
    else
      let r := scaleRow s.a i l scale
      let f := r.1 i l
      let g := if f > 0 then -sqrt r.2 else sqrt r.2
      let e := set1 s.e i (scale * g)
      let h := r.2 - f * g
      let a := set2 r.1 i l (f - g)
      let p := forLoop (formP i l h) (l + 1) (a, e, 0)
      let hh := p.2.2 / (h + h)
      let q := forLoop (reduceA i hh) (l + 1) (p.1, p.2.1)
      { a := q.1, d := set1 s.d i h, e := q.2, divs := s.divs ++ [scale, h, h + h] }
  else { s with e := set1 s.e i (s.a i l), d := set1 s.d i 0 }

/-- The body of the accumulation loop (lines 75-85) for the row `i`; `j <= l` with
`l = i-1` is `j < i`. -/
def accumRow (i : Nat) (s : TredState K) : TredState K :=
  let a :=
    if s.d i ≠ 0 then
      forLoop (fun j a =>
        let g := forLoop (fun k g => g + a i k * a k j) i 0
        forLoop (fun k a => set2 a k j (a k j - g * a k i)) i a) i s.a
    else s.a
  let d := set1 s.d i (a i i)
  let a := set2 a i i 1
  { s with a := forLoop (fun j a => set2 (set2 a i j 0) j i 0) i a, d := d }

/-- The function `tred3(a, d, e, n)` with `EVECTS == 1`, over exact arithmetic with the
square root `sqrt`. -/
def tred3 (sqrt : K → K) (s : TredState K) (n : Nat) : TredState K :=
  let s := forDown (reduceRow sqrt) (n - 1) s
  let s := { s with d := set1 s.d 0 0, e := set1 s.e 0 0 }
  let s := forLoop accumRow n s
  let e := forLoop (fun i e => set1 e i (e (i + 1))) (n - 1) s.e
  { s with e := set1 e (n - 1) 0 }

/-- The sum `g` of lines 57-58 for the row `j`: the product of row `j` of the symmetric
matrix stored in the lower triangle of `a` with the row `i` of `a`. -/
def gsum (a : Nat → Nat → K) (i l j : Nat) : K :=
  ∑ k in Finset.range (j + 1), a j k * a i k + ∑ t in Finset.range (l - j), a (j + 1 + t) j * a i (j + 1 + t)



/-- `scale` of the row `l+1`. -/
def hScale (a : Nat → Nat → K) (l : Nat) : K := rowScale a (l + 1) l

/-- The scaled row entry `a(i,k)/scale`. -/
def hX (a : Nat → Nat → K) (l k : Nat) : K := a (l + 1) k / hScale a l

/-- `h` after the scaling loop: the sum of the squares of the scaled row. -/
def hH0 (a : Nat → Nat → K) (l : Nat) : K := ∑ k in Finset.range (l + 1), hX a l k * hX a l k

/-- `g` of lines 49-50. -/
def hG (sqrt : K → K) (a : Nat → Nat → K) (l : Nat) : K :=
  if hX a l l > 0 then -sqrt (hH0 a l) else sqrt (hH0 a l)

/-- `h` after line 52. -/
def hH (sqrt : K → K) (a : Nat → Nat → K) (l : Nat) : K := hH0 a l - hX a l l * hG sqrt a l

/-- The Householder vector left in the row `l+1`. -/
def hU (sqrt : K → K) (a : Nat → Nat → K) (l k : Nat) : K :=
  if k = l then hX a l l - hG sqrt a l else hX a l k

/-- The array after line 53. -/
def hA2 (sqrt : K → K) (a : Nat → Nat → K) (l : Nat) : Nat → Nat → K :=
  fun p q => if p = l + 1 ∧ q < l + 1 then hU sqrt a l q else a p q

/-- `e(j)` after the first `j` loop. -/
def hP (sqrt : K → K) (a : Nat → Nat → K) (l j : Nat) : K :=
  gsum (hA2 sqrt a l) (l + 1) l j / hH sqrt a l

/-- `hh` of line 62. -/
def hHH (sqrt : K → K) (a : Nat → Nat → K) (l : Nat) : K :=
  (∑ j in Finset.range (l + 1), hP sqrt a l j * hU sqrt a l j) / (hH sqrt a l + hH sqrt a l)

/-- `e(j)` after the second `j` loop. -/
def hQ (sqrt : K → K) (a : Nat → Nat → K) (l j : Nat) : K :=
  hP sqrt a l j - hHH sqrt a l * hU sqrt a l j

/-- The sum `g` of line 79 for the column `q`: `∑ k < i, a(i,k)·a(k,q)`. -/
def accG (a : Nat → Nat → K) (i q : Nat) : K := ∑ k in Finset.range i, a i k * a k q

/-- The array after the loops of lines 77-81 for the row `i`: the leading `i × i` block
`B` becomes `B - c·(r·B)`, with `c` the column `i` and `r` the row `i` of `a`. -/
def accUpd (a : Nat → Nat → K) (i : Nat) : Nat → Nat → K :=
  fun p q => if p < i ∧ q < i then a p q - accG a i q * a p i else a p q

/-- What the rows already processed by the reduction loop hand to the accumulation loop,
compared between two runs: for the row `r`, either the same `d(r)` and the same column `r`
above the diagonal, or a row that is zero left of the diagonal, or `d(r) = 0` in both. -/
def RowAgree (s t : TredState K) (r : Nat) : Prop :=
  (s.d r = t.d r ∧ ∀ p, p < r → s.a p r = t.a p r) ∨ (∀ k, k < r → s.a r k = 0) ∨
    (s.d r = 0 ∧ t.d r = 0)

/-- The coupling of two runs of the reduction loop when the rows above `i` are done. -/
def ReduceAgree (n i : Nat) (s t : TredState K) : Prop :=
  (∀ p q, q ≤ p → p < n → s.a p q = t.a p q) ∧
  ∀ r, i < r → r < n → s.e r = t.e r ∧ RowAgree s t r

/-- The coupling of two runs of the accumulation loop when the rows below `i` are done:
the leading `i × i` blocks agree, and so do the entries `d(r)` for `r < i`; the rows from
`i` on are as the reduction loop left them. -/
def AccAgree (n i : Nat) (s t : TredState K) : Prop :=
  (∀ p q, p < i → q < i → s.a p q = t.a p q) ∧
  (∀ r, i ≤ r → r < n → (∀ q, q ≤ r → s.a r q = t.a r q) ∧ RowAgree s t r) ∧
  (∀ r, r < i → s.d r = t.d r)

/-- The entries `[0,n) × [0,n)` of an index function, as a square matrix. -/
def toMat (n : Nat) (f : Nat → Nat → K) : Matrix (Fin n) (Fin n) K := fun p q => f p q

/-- The symmetric matrix the reduction loop holds when the rows above `i` are done: on the
indices up to `i` the symmetric matrix stored in the lower triangle of `a`, and beyond it
the tridiagonal matrix with the diagonal of `a` and the entry `e(p)` between `p-1` and
`p`. -/
def curM (a : Nat → Nat → K) (e : Nat → K) (i : Nat) : Nat → Nat → K := fun p q =>
  if p ≤ i ∧ q ≤ i then a (max p q) (min p q)
  else if p = q then a p p
  else if p = q + 1 then e p
  else if q = p + 1 then e q
  else 0

/-- The tridiagonal matrix `T` with `T(i,i) = d(i)` and `T(i+1,i) = T(i,i+1) = e(i)`. -/
def tridiag (d e : Nat → K) : Nat → Nat → K := fun p q =>
  if p = q then d p else if p = q + 1 then e q else if q = p + 1 then e p else 0

/-- The matrix `1 - c·rᵗ`. -/
def rankOne {n : Nat} (c r : Fin n → K) : Matrix (Fin n) (Fin n) K := 1 - Matrix.vecMulVec c r

/-- The part of the column `r` of `a` above the diagonal, as a vector. -/
def reflC (a : Nat → Nat → K) (r : Nat) : Nat → K := fun k => if k < r then a k r else 0

/-- The part of the row `r` of `a` left of the diagonal, as a vector. -/
def reflR (a : Nat → Nat → K) (r : Nat) : Nat → K := fun k => if k < r then a r k else 0

/-- The transformation the accumulation loop applies for the row `r` (lines 76-82):
`1 - c·rᵗ` with `c` the column and `r` the row stored at `r`, when `d(r) ≠ 0`. -/
def Rfl (n : Nat) (s : TredState K) (r : Nat) : Matrix (Fin n) (Fin n) K :=
  if s.d r ≠ 0 then rankOne (fun k : Fin n => reflC s.a r k) (fun k : Fin n => reflR s.a r k)
  else 1

/-- The product `Rfl(lo+k-1) · ... · Rfl(lo+1) · Rfl(lo)`. -/
def segUp (n : Nat) (s : TredState K) (lo : Nat) : Nat → Matrix (Fin n) (Fin n) K
  | 0 => 1
  | k + 1 => Rfl n s (lo + k) * segUp n s lo k

/-- The leading `i × i` block of `a`, completed by the identity. -/
def blockId (a : Nat → Nat → K) (i : Nat) : Nat → Nat → K := fun p q =>
  if p < i ∧ q < i then a p q else if p = q then 1 else 0

/-- The vector `w = M·u/H` of a Householder step on the row `l+1`. -/
def hW (sqrt : K → K) (a : Nat → Nat → K) (l q : Nat) : K :=
  if q < l + 1 then hP sqrt a l q else if q = l + 1 then hScale a l else 0

/-- The state of the reduction loop when the rows above `i` are done, for the symmetric
input `A`: the current symmetric matrix is `Xᵗ·A·X` for the product `X` of the
transformations stored for these rows, and `X` is orthogonal. -/
def RedInv (n : Nat) (A : Nat → Nat → K) (i : Nat) (s : TredState K) : Prop :=
  toMat n (curM s.a s.e i) =
    (segUp n s (i + 1) (n - 1 - i)).transpose * toMat n A * segUp n s (i + 1) (n - 1 - i) ∧
  (segUp n s (i + 1) (n - 1 - i)).transpose * segUp n s (i + 1) (n - 1 - i) = 1

end Tred3

/-! ## IEEE 754 double precision

The arithmetic of the program is that of the C type `double`. The definitions above take it
as exact; the ones below follow the IEEE 754 binary64 format, with every operation rounded
to nearest, ties to even, for the statements that depend on the rounding. -/

/-- A value of the C type `double` (IEEE 754 binary64): `fin m e` is the number `m·2^e`,
`inf neg` is `+∞` or `-∞`, `nan` is a NaN. The operations return a finite number with
`2^52 ≤ |m| < 2^53` and `-1074 ≤ e ≤ 971`, or with `|m| < 2^52` and `e = -1074`, or as
`fin 0 0` when it is zero. The sign of a zero is not kept. -/
inductive Dbl where
  | fin (m e : Int)
  | inf (neg : Bool)
  | nan
  deriving DecidableEq

/-- The number of binary digits of `n`, counting at most `fuel` of them. -/
def bitsAux : Nat → Nat → Nat
  | 0, _ => 0
  | fuel + 1, n => if n = 0 then 0 else bitsAux fuel (n / 2) + 1

/-- The number of binary digits of `n`. -/
def bits (n : Nat) : Nat := bitsAux n n

/-- The integer nearest to `n/d`, the even one of the two when `n/d` is half-way. -/
def roundHalfEven (n d : Nat) : Nat :=
  if 2 * (n % d) < d then n / d
  else if d < 2 * (n % d) then n / d + 1
  else if n / d % 2 = 0 then n / d else n / d + 1

/-- The result of an operation whose exact value is `(n/d)·2^e`, `d > 0`: rounded to the
nearest `double`, ties to even, with gradual underflow, and `±∞` on overflow. `lg` is the
integer part of the binary logarithm of `|n|/d` and `u` the exponent of the last binary
digit kept. -/
def Dbl.round (n : Int) (d : Nat) (e : Int) : Dbl :=
  if n = 0 then Dbl.fin 0 0
  else
    let a := n.natAbs
    let k : Int := (bits a : Int) - (bits d : Int)
    let lg : Int :=
      if (if 0 ≤ k then d * 2 ^ k.toNat ≤ a else d ≤ a * 2 ^ (-k).toNat) then k else k - 1
    let u : Int := max (lg + e - 52) (-1074)
    let s : Int := e - u
    let M : Nat :=
      if 0 ≤ s then roundHalfEven (a * 2 ^ s.toNat) d else roundHalfEven a (d * 2 ^ (-s).toNat)
    let M2 : Nat := if M = 2 ^ 53 then 2 ^ 52 else M
    let u2 : Int := if M = 2 ^ 53 then u + 1 else u
    if M2 = 0 then Dbl.fin 0 0
    else if 971 < u2 then Dbl.inf (decide (n < 0))
    else Dbl.fin (if n < 0 then -(M2 : Int) else (M2 : Int)) u2

/-- The `double` nearest to the rational `n/d`: the value of a decimal constant. -/
def Dbl.lit (n : Int) (d : Nat) : Dbl := Dbl.round n d 0

/-- `x + y` in double. -/
def Dbl.add : Dbl → Dbl → Dbl
  | .fin m1 e1, .fin m2 e2 =>
    Dbl.round (m1 * Int.ofNat (2 ^ (e1 - min e1 e2).toNat)
      + m2 * Int.ofNat (2 ^ (e2 - min e1 e2).toNat)) 1 (min e1 e2)
  | .fin _ _, .inf s => .inf s
  | .inf s, .fin _ _ => .inf s
  | .inf s, .inf t => if s = t then .inf s else .nan
  | _, _ => .nan

/-- `-x` in double. -/
def Dbl.neg : Dbl → Dbl
  | .fin m e => .fin (-m) e
  | .inf s => .inf (!s)
  | .nan => .nan

/-- `fabs(x)`. -/
def Dbl.abs : Dbl → Dbl
  | .fin m e => .fin (Int.ofNat m.natAbs) e
  | .inf _ => .inf false
  | .nan => .nan

/-- `x * y` in double. -/
def Dbl.mul : Dbl → Dbl → Dbl
  | .fin m1 e1, .fin m2 e2 => Dbl.round (m1 * m2) 1 (e1 + e2)
  | .fin m _, .inf s => if m = 0 then .nan else .inf (xor (decide (m < 0)) s)
  | .inf s, .fin m _ => if m = 0 then .nan else .inf (xor s (decide (m < 0)))
  | .inf s, .inf t => .inf (xor s t)
  | _, _ => .nan

/-- `x / y` in double: a nonzero number divided by zero is an infinity, `0/0` and `∞/∞`
are NaN. -/
def Dbl.div : Dbl → Dbl → Dbl
  | .fin m1 e1, .fin m2 e2 =>
    if m2 = 0 then (if m1 = 0 then .nan else .inf (decide (m1 < 0)))
    else Dbl.round (if m2 < 0 then -m1 else m1) m2.natAbs (e1 - e2)
  | .fin _ _, .inf _ => .fin 0 0
  | .inf s, .fin m _ => .inf (xor s (decide (m < 0)))
  | _, _ => .nan

instance : Add Dbl := ⟨Dbl.add⟩

instance : Mul Dbl := ⟨Dbl.mul⟩

instance : Div Dbl := ⟨Dbl.div⟩

instance : Neg Dbl := ⟨Dbl.neg⟩

instance : Sub Dbl := ⟨fun x y => Dbl.add x (Dbl.neg y)⟩

/-- `x == 0.0`. -/
def Dbl.isZero : Dbl → Bool
  | .fin m _ => decide (m = 0)
  | _ => false

/-- `x > 0.0`. -/
def Dbl.isPos : Dbl → Bool
  | .fin m _ => decide (0 < m)
  | .inf s => !s
  | .nan => false

/-- The largest `r` with `r² ≤ n`, found digit by digit from the digit `2^(i-1)` down. -/
def isqrtAux (n : Nat) : Nat → Nat → Nat
  | 0, r => r
  | i + 1, r => isqrtAux n i (if (r + 2 ^ i) * (r + 2 ^ i) ≤ n then r + 2 ^ i else r)

/-- The integer square root. -/
def isqrt (n : Nat) : Nat := isqrtAux n (bits n) 0

/-- `sqrt(x)`, correctly rounded: the root of `|m|·2^j`, `j = 110` or `111` with `e - j`
even, is taken to the integer below it, with one more digit that says whether it is
exact, and rounded. -/
def Dbl.sqrt : Dbl → Dbl
  | .fin m e =>
    if m < 0 then .nan
    else if m = 0 then .fin 0 0
    else
      let j : Int := 110 + e % 2
      let A : Nat := m.natAbs * 2 ^ j.toNat
      let s : Nat := isqrt A
      Dbl.round (Int.ofNat (2 * s + (if s * s = A then 0 else 1))) 1 ((e - j) / 2 - 1)
  | .inf s => if s then .nan else .inf false
  | .nan => .nan

/-! ## The first growth iteration in double precision (src/Heis_FSA.cpp, lines 74-101 and
131-183) -/

/-- `Sz = 0.5, 0, 0, -0.5;` as doubles. -/
def SzD : Arr2 Dbl :=
  { n1 := 2, n2 := 2,
    v := fun i j =>
      if i = 0 ∧ j = 0 then Dbl.lit 1 2 else if i = 1 ∧ j = 1 then Dbl.lit (-1) 2
      else Dbl.lit 0 1 }

/-- `Sp = 0, 1.0, 0, 0;` as doubles. -/
def SpD : Arr2 Dbl :=
  { n1 := 2, n2 := 2, v := fun i j => if i = 0 ∧ j = 1 then Dbl.lit 1 1 else Dbl.lit 0 1 }

/-- `Sm = 0, 0, 1.0, 0;` as doubles. -/
def SmD : Arr2 Dbl :=
  { n1 := 2, n2 := 2, v := fun i j => if i = 1 ∧ j = 0 then Dbl.lit 1 1 else Dbl.lit 0 1 }

/-- `I2`, the 2 × 2 identity, as doubles. -/
def I2D : Arr2 Dbl :=
  { n1 := 2, n2 := 2, v := fun i j => if i = j ∧ i < 2 then Dbl.lit 1 1 else Dbl.lit 0 1 }

/-- `H12 = reduceM2M2(TSR,2,2)` with
`TSR = Sz(i,k)*Sz(j,l) + 0.5*Sp(i,k)*Sm(j,l) + 0.5*Sm(i,k)*Sp(j,l)`, in double. -/
def H12D : Arr2 Dbl :=
  reduceM2M2
    { e1 := 2, e2 := 2, e3 := 2, e4 := 2,
      v := fun i j k l =>
        SzD.v i k * SzD.v j l + Dbl.lit 1 2 * SpD.v i k * SmD.v j l
          + Dbl.lit 1 2 * SmD.v i k * SpD.v j l } 2 2

/-- `TSR = S(i,k)*I2(j,l); SAB = reduceM2M2(TSR,2,2)` in double. -/
def firstSiteOpD (S : Arr2 Dbl) : Arr2 Dbl :=
  reduceM2M2
    { e1 := 2, e2 := 2, e3 := 2, e4 := 2, v := fun i j k l => S.v i k * I2D.v j l } 2 2

/-- `sum(A(i,k)*B(k,j),k)` in double: the products are added one after the other, for
`k = 0, 1, ...` below the second extent of `A`, to `0.0`. -/
def contractD (A B : Arr2 Dbl) : Nat → Nat → Dbl :=
  fun i j => forLoop (fun k acc => acc + A.v i k * B.v k j) A.n2 (Dbl.lit 0 1)

/-- `Hl = sum(X(i,k)*OT(k,j),k); Y = sum(OO(i,k)*Hl(k,j),k);` in double (lines 168-178),
`Hl` having the extents of `OT`. -/
def transformD (OO OT X : Arr2 Dbl) : Nat → Nat → Dbl :=
  contractD OO { n1 := OT.n1, n2 := OT.n2, v := contractD X OT }

/-- The enlargement expression of lines 180-181 in double:
`HAp(i,k)*I2(j,l) + SzB(i,k)*Sz(j,l) + 0.5*SpB(i,k)*Sm(j,l) + 0.5*SmB(i,k)*Sp(j,l)`. -/
def enlargedD (HAp SzB SpB SmB : Nat → Nat → Dbl) : Nat → Nat → Nat → Nat → Dbl :=
  fun i j k l =>
    HAp i k * I2D.v j l + SzB i k * SzD.v j l + Dbl.lit 1 2 * SpB i k * SmD.v j l
      + Dbl.lit 1 2 * SmB i k * SpD.v j l

/-- The block Hamiltonian written back by the first growth iteration (lines 131-183) in
double, when `DMlargeEigen` returned the `k × 4` matrix `OO`: the transposition loops, the
four transforms of the initial `H12`, `Sz⊗I`, `Sp⊗I`, `Sm⊗I`, and
`blkS.HAB = reduceM2M2(TSR,st,2)`. -/
def firstBlockD (k : Nat) (OO : Nat → Nat → Dbl) : Arr2 Dbl :=
  let O : Arr2 Dbl := { n1 := k, n2 := 4, v := OO }
  let OT : Arr2 Dbl := { n1 := 4, n2 := k, v := fun i1 i2 => OO i2 i1 }
  reduceM2M2
    { e1 := k, e2 := 2, e3 := k, e4 := 2,
      v := enlargedD (transformD O OT H12D) (transformD O OT (firstSiteOpD SzD))
        (transformD O OT (firstSiteOpD SpD)) (transformD O OT (firstSiteOpD SmD)) } k 2

/-- The truncation matrix with the rows `(0, 0.6, 0.8, 0)` and `(0, -0.8, 0.6, 0)`. -/
def sampleOOD : Nat → Nat → Dbl := fun i j =>
  if i = 0 ∧ j = 1 then Dbl.lit 6 10 else if i = 0 ∧ j = 2 then Dbl.lit 8 10
  else if i = 1 ∧ j = 1 then Dbl.lit (-8) 10 else if i = 1 ∧ j = 2 then Dbl.lit 6 10
  else Dbl.lit 0 1

/-! ## The reduction loop of `tred3` in double precision (src/tred3.cpp, lines 40-70) -/

/-- `for (k=0;k<=l;k++) scale+=fabs(a(i,k));` from `scale = 0.0`, in double. -/
def rowScaleD (a : Nat → Nat → Dbl) (i l : Nat) : Dbl :=
  forLoop (fun k scale => scale + Dbl.abs (a i k)) (l + 1) (Dbl.lit 0 1)

/-- `for (k=0;k<=l;k++) { a(i,k)/=scale; h+=a(i,k)*a(i,k); }` from `h = 0.0`, in double. -/
def scaleRowD (a : Nat → Nat → Dbl) (i l : Nat) (scale : Dbl) : (Nat → Nat → Dbl) × Dbl :=
  forLoop (fun k (s : (Nat → Nat → Dbl) × Dbl) =>
    let a1 := set2 s.1 i k (s.1 i k / scale)
    (a1, s.2 + a1 i k * a1 i k)) (l + 1) (a, Dbl.lit 0 1)

/-- The body of the first `j` loop (lines 56-60) in double; the state is `(a, e, f)`. -/
def formPD (i l : Nat) (h : Dbl) (j : Nat) (s : (Nat → Nat → Dbl) × (Nat → Dbl) × Dbl) :
    (Nat → Nat → Dbl) × (Nat → Dbl) × Dbl :=
  let a := set2 s.1 j i (s.1 i j / h)
  let g := forLoop (fun k g => g + a j k * a i k) (j + 1) (Dbl.lit 0 1)
  let g := forLoop (fun t g => g + a (j + 1 + t) j * a i (j + 1 + t)) (l - j) g
  let e := set1 s.2.1 j (g / h)
  (a, e, s.2.2 + e j * a i j)

/-- The body of the second `j` loop (lines 64-65) in double; the state is `(a, e)`. -/
def reduceAD (i : Nat) (hh : Dbl) (j : Nat) (s : (Nat → Nat → Dbl) × (Nat → Dbl)) :
    (Nat → Nat → Dbl) × (Nat → Dbl) :=
  let f := s.1 i j
  let g := s.2 j - hh * f
  let e := set1 s.2 j g
  (forLoop (fun k a => set2 a j k (a j k - (f * e k + g * a i k))) (j + 1) s.1, e)

/-- The body of the reduction loop (lines 42-69) for the row `i ≥ 1`, in double. As in
`reduceRow`, `divs` collects the divisors `scale` (line 47), `h` (lines 56 and 59) and
`h+h` (line 62) of the divisions executed. -/
def reduceRowD (i : Nat) (s : TredState Dbl) : TredState Dbl :=
  let l := i - 1
  if 0 < l then
    let scale := rowScaleD s.a i l
    if scale.isZero then { s with e := set1 s.e i (s.a i l) }
    else
      let r := scaleRowD s.a i l scale
      let f := r.1 i l
      let g := if f.isPos then -Dbl.sqrt r.2 else Dbl.sqrt r.2
      let e := set1 s.e i (scale * g)
      let h := r.2 - f * g
      let a := set2 r.1 i l (f - g)
      let p := forLoop (formPD i l h) (l + 1) (a, e, Dbl.lit 0 1)
      let hh := p.2.2 / (h + h)
      let q := forLoop (reduceAD i hh) (l + 1) (p.1, p.2.1)
      { a := q.1, d := set1 s.d i h, e := q.2, divs := s.divs ++ [scale, h, h + h] }
  else { s with e := set1 s.e i (s.a i l), d := set1 s.d i (Dbl.lit 0 1) }

/-- The symmetric 3 × 3 matrix with the finite entries `a(2,0) = a(0,2) = a(2,1) = a(1,2)
= 2^1023` and zeros elsewhere. -/
def hugeRowD : Nat → Nat → Dbl := fun i j =>
  if (i = 2 ∧ j < 2) ∨ (j = 2 ∧ i < 2) then Dbl.fin (2 ^ 52) 971 else Dbl.lit 0 1

/-! # Theorems -/

set_option linter.unusedSectionVars false

section MainTheorems
variable {K : Type} [Field K]

theorem identArr_apply (n a b : Nat) (ha : a < n) :
    (identArr n : Arr2 K).v a b = if a = b then 1 else 0 := by
  simp [identArr, ha]

theorem ident_of_identArr (f : Nat → Nat → K) (n k : Nat) (hf : f = (identArr n : Arr2 K).v)
    (hk : k ≤ n) (a b : Nat) (ha : a < k) : f a b = if a = b then 1 else 0 := by
  rw [hf]
  exact identArr_apply n a b (lt_of_lt_of_le ha hk)

theorem dimInv_init (m : Nat) : DimInv m (initState m : MainState K) := by
  constructor <;> simp [initState, H12, firstSiteOp, reduceM2M2]
  intro a b ha _
  exact identArr_apply 4 a b ha

/-- The extents and counters after the transform block of a growth iteration. -/
theorem growTransformed_dims (ext : Ext K) (m : Nat) (hm : 1 ≤ m) (s : MainState K)
    (h : DimInv m s) :
    let s' := growTransformed ext m s
    s'.st = keepCount m s ∧
    s'.HAp.n1 = s'.st ∧ s'.HAp.n2 = s'.st ∧ s'.SzB.n1 = s'.st ∧ s'.SzB.n2 = s'.st ∧
    s'.SpB.n1 = s'.st ∧ s'.SpB.n2 = s'.st ∧ s'.SmB.n1 = s'.st ∧ s'.SmB.n2 = s'.st ∧
    s'.OO.n1 = s'.st ∧ s'.OO.n2 = 2 * s.st ∧ s'.OT.n1 = 2 * s.st ∧ s'.OT.n2 = s'.st ∧
    s'.blkS_HAB = s.blkS_HAB ∧ s'.SzAB = s.SzAB ∧ s'.SpAB = s.SpAB ∧ s'.SmAB = s.SmAB ∧
    s'.I2st = s.I2st ∧ s'.sites = s.sites ∧ s'.log = s.log ∧
    ((2 * s.st ≤ m ∧ s'.truncflag = 0) ∨
      (m < 2 * s.st ∧ s'.st = m ∧ (s'.truncflag = 2 ∨ (s'.truncflag = 4 ∧ s.st = m)))) := by
  obtain ⟨h1, h2, -, -, -, -, -, -, hf, hs⟩ := h
  by_cases hle : 2 * s.st ≤ m
  · have h0 : s.truncflag = 0 := by
      rcases hf with h0 | ⟨-, hst, -⟩
      · exact h0
      · omega
    simp [growTransformed, growPre, transformOps, growClamp, growTruncate, growSolve, keepCount, hle, h0,
      Arr2.assign, Arr2.resize, transposeInto]
    omega
  · rcases hf with h0 | ⟨h34, hst, hd⟩
    · simp [growTransformed, growPre, transformOps, growClamp, growTruncate, growSolve, keepCount, hle, h0,
        Arr2.assign, Arr2.resize, transposeInto]
      omega
    · have hle' : ¬ 2 * m ≤ m := by omega
      rcases h34 with h3 | h4
      · simp [growTransformed, growPre, transformOps, growClamp, growTruncate, growSolve, keepCount, hle',
          h3, Arr2.assign, Arr2.resize, transposeInto, hst, hd]
        omega
      · have := hs h4
        simp [growTransformed, growPre, transformOps, growClamp, growTruncate, growSolve, keepCount, hle',
          h4, Arr2.assign, Arr2.resize, transposeInto, hst, hd, this]
        omega

/-- The extents and counters after the rest of a growth iteration (lines 180-217). -/
theorem growEnlarge_dims (t : MainState K) :
    let u := growEnlarge t
    u.st = t.st ∧ u.truncflag = t.truncflag ∧ u.sites = t.sites ∧ u.log = t.log ∧
    u.blkS_HAB.n1 = 2 * t.st ∧ u.blkS_HAB.n2 = 2 * t.st ∧
    u.SzAB = t.SzAB ∧ u.SpAB = t.SpAB ∧ u.SmAB = t.SmAB ∧ u.I2st = t.I2st ∧
    u.HAp = t.HAp ∧ u.SzB = t.SzB ∧ u.SpB = t.SpB ∧ u.SmB = t.SmB ∧
    u.OO = t.OO ∧ u.OT = t.OT ∧ u.dmCalls = t.dmCalls ∧ u.out = t.out := by
  simp [growEnlarge, Arr2.assign, Arr2.resize]

theorem growOps_dims (m : Nat) (u : MainState K) :
    let w := growOps m u
    w.st = u.st ∧ w.sites = u.sites ∧ w.log = u.log ∧ w.blkS_HAB = u.blkS_HAB ∧
    w.HAp = u.HAp ∧ w.SzB = u.SzB ∧ w.SpB = u.SpB ∧ w.SmB = u.SmB ∧
    w.OO = u.OO ∧ w.OT = u.OT ∧ w.dmCalls = u.dmCalls ∧ w.out = u.out ∧
    (u.truncflag < 2 → w.truncflag = u.truncflag ∧ w.I2st.v = (identArr (4 * u.st) : Arr2 K).v) ∧
    (u.truncflag = 2 → w.truncflag = 3 ∧ w.I2st.v = (identArr (2 * m) : Arr2 K).v) ∧
    (3 ≤ u.truncflag → w = u) ∧
    (u.truncflag < 3 →
      w.SzAB.n1 = 2 * u.st ∧ w.SzAB.n2 = 2 * u.st ∧ w.SpAB.n1 = 2 * u.st ∧
      w.SpAB.n2 = 2 * u.st ∧ w.SmAB.n1 = 2 * u.st ∧ w.SmAB.n2 = 2 * u.st) := by
  by_cases h3 : u.truncflag < 3
  · by_cases h2 : u.truncflag = 2
    · simp [growOps, h2, lastSiteOp, Arr2.assign, Arr2.resize, I2m]
    · have h2' : u.truncflag < 2 := by omega
      have h3' : ¬ 3 ≤ u.truncflag := by omega
      simp [growOps, h3, h2, h2', h3', lastSiteOp, Arr2.assign, Arr2.resize]
  · have h3' : 3 ≤ u.truncflag := by omega
    have h2 : ¬ u.truncflag < 2 := by omega
    have h2' : ¬ u.truncflag = 2 := by omega
    simp [growOps, h3, h3', h2, h2']

theorem growAdvance_dims (w : MainState K) :
    let x := growAdvance w
    x.st = w.st ∧ x.truncflag = w.truncflag ∧ x.sites = w.sites + 1 ∧
    x.log = w.log ++ [IOEvent.ISAwrite (w.sites + 1) w.blkS_HAB] ∧
    x.blkS_HAB = w.blkS_HAB ∧ x.SzAB = w.SzAB ∧ x.SpAB = w.SpAB ∧ x.SmAB = w.SmAB ∧
    x.I2st = w.I2st ∧ x.HAp = w.HAp ∧ x.SzB = w.SzB ∧ x.SpB = w.SpB ∧ x.SmB = w.SmB ∧
    x.OO = w.OO ∧ x.OT = w.OT ∧ x.dmCalls = w.dmCalls ∧ x.out = w.out := by
  simp [growAdvance]

/-- The invariant after an iteration, from what each part of the iteration does to the
extents: `t` is the state after the transform block, `u` after the enlargement, `w` after
the new boundary operators and `x` after the snapshot write. -/
theorem dimInv_chain (m : Nat) (s t u w x : MainState K) (h : DimInv m s)
    (hT : t.HAp.n1 = t.st ∧ t.HAp.n2 = t.st ∧ t.SzB.n1 = t.st ∧ t.SzB.n2 = t.st ∧
      t.SpB.n1 = t.st ∧ t.SpB.n2 = t.st ∧ t.SmB.n1 = t.st ∧ t.SmB.n2 = t.st ∧
      t.OO.n1 = t.st ∧ t.OO.n2 = 2 * s.st ∧ t.OT.n1 = 2 * s.st ∧ t.OT.n2 = t.st ∧
      t.SzAB = s.SzAB ∧ t.SpAB = s.SpAB ∧ t.SmAB = s.SmAB ∧ t.I2st = s.I2st ∧
      ((2 * s.st ≤ m ∧ t.truncflag = 0) ∨
        (m < 2 * s.st ∧ t.st = m ∧ (t.truncflag = 2 ∨ (t.truncflag = 4 ∧ s.st = m)))))
    (hE : u.st = t.st ∧ u.truncflag = t.truncflag ∧
      u.blkS_HAB.n1 = 2 * t.st ∧ u.blkS_HAB.n2 = 2 * t.st ∧
      u.SzAB = t.SzAB ∧ u.SpAB = t.SpAB ∧ u.SmAB = t.SmAB ∧ u.I2st = t.I2st ∧
      u.HAp = t.HAp ∧ u.SzB = t.SzB ∧ u.SpB = t.SpB ∧ u.SmB = t.SmB ∧
      u.OO = t.OO ∧ u.OT = t.OT)
    (hO : w.st = u.st ∧ w.blkS_HAB = u.blkS_HAB ∧
      w.HAp = u.HAp ∧ w.SzB = u.SzB ∧ w.SpB = u.SpB ∧ w.SmB = u.SmB ∧
      w.OO = u.OO ∧ w.OT = u.OT ∧
      (u.truncflag < 2 → w.truncflag = u.truncflag ∧ w.I2st.v = (identArr (4 * u.st) : Arr2 K).v) ∧
      (u.truncflag = 2 → w.truncflag = 3 ∧ w.I2st.v = (identArr (2 * m) : Arr2 K).v) ∧
      (3 ≤ u.truncflag → w = u) ∧
      (u.truncflag < 3 →
        w.SzAB.n1 = 2 * u.st ∧ w.SzAB.n2 = 2 * u.st ∧ w.SpAB.n1 = 2 * u.st ∧
        w.SpAB.n2 = 2 * u.st ∧ w.SmAB.n1 = 2 * u.st ∧ w.SmAB.n2 = 2 * u.st))
    (hA : x.st = w.st ∧ x.truncflag = w.truncflag ∧
      x.blkS_HAB = w.blkS_HAB ∧ x.SzAB = w.SzAB ∧ x.SpAB = w.SpAB ∧ x.SmAB = w.SmAB ∧
      x.I2st = w.I2st ∧ x.HAp = w.HAp ∧ x.SzB = w.SzB ∧ x.SpB = w.SpB ∧ x.SmB = w.SmB ∧
      x.OO = w.OO ∧ x.OT = w.OT) : DimInv m x := by
  obtain ⟨a1, a2, a3, a4, a5, a6, a7, a8, o1, o2, o3, o4, e2, e3, e4, e5, hc⟩ := hT
  obtain ⟨u1, u2, u5, u6, u7, u8, u9, u10, u11, u12, u13, u14, u15, u16⟩ := hE
  obtain ⟨w1, w4, w5, w6, w7, w8, w9, w10, w13, w14, w15, w16⟩ := hO
  obtain ⟨x1, x2, x5, x6, x7, x8, x9, x10, x11, x12, x13, x14, x15⟩ := hA
  have hsz := h.sz1
  have hsz2 := h.sz2
  have hsp := h.sp1
  have hsp2 := h.sp2
  have hsm1 := h.sm1
  have hsm2 := h.sm2
  have hident := h.ident
  clear h
  rw [u2] at w13 w14 w15 w16
  rw [u1] at w16 w1 w13
  rw [w1] at x1
  rcases hc with ⟨-, h0⟩ | ⟨-, hst, h2 | ⟨h4, hsm⟩⟩
  · obtain ⟨hw, hI⟩ := w13 (by omega)
    obtain ⟨z1, z2, z3, z4, z5, z6⟩ := w16 (by omega)
    have hid : ∀ a b, a < 2 * x.st → b < 2 * x.st → x.I2st.v a b = if a = b then 1 else 0 :=
      fun a b ha _ => ident_of_identArr _ (4 * t.st) (2 * x.st) (by rw [x9, hI])
        (by rw [x1]; exact Nat.mul_le_mul_right _ (by decide)) a b ha
    refine ⟨?_, ?_, ?_, ?_, ?_, ?_, ?_, ?_, ?_, ?_, hid⟩ <;> (simp only [x1, x2, x5, x6, x7, x8,
      x10, x11, x12, x13, x14, x15, w4, hw, h0, z1, z2, z3, z4, z5, z6, u5, u6] <;> simp)
  · obtain ⟨hw, hI⟩ := w14 h2
    obtain ⟨z1, z2, z3, z4, z5, z6⟩ := w16 (by omega)
    have hid : ∀ a b, a < 2 * x.st → b < 2 * x.st → x.I2st.v a b = if a = b then 1 else 0 :=
      fun a b ha _ => ident_of_identArr _ (2 * m) (2 * x.st) (by rw [x9, hI])
        (by rw [x1, hst]) a b ha
    refine ⟨?_, ?_, ?_, ?_, ?_, ?_, ?_, ?_, ?_, ?_, hid⟩ <;> (simp only [x1, x2, x5, x6, x7, x8,
      x10, x11, x12, x13, x14, x15, w4, hw, z1, z2, z3, z4, z5, z6, u5, u6, w5, w6, w7, w8, u11,
      u12, u13, u14, a1, a2, a3, a4, a5, a6, a7, a8, hst] <;> simp)
  · have hw := w15 (by omega)
    subst hw
    have hid : ∀ a b, a < 2 * x.st → b < 2 * x.st → x.I2st.v a b = if a = b then 1 else 0 := by
      intro a b ha hb
      rw [x9, u10, e5]
      rw [x1, hst, ← hsm] at ha hb
      exact hident a b ha hb
    refine ⟨?_, ?_, ?_, ?_, ?_, ?_, ?_, ?_, ?_, ?_, hid⟩ <;> (simp only [x1, x2, x5, x6, x7, x8,
      x10, x11, x12, x13, x14, x15, u5, u6, u7, u8, u9, u11, u12, u13, u14, u15, u16, a1, a2, a3,
      a4, a5, a6, a7, a8, hst, e2, e3, e4, hsz, hsz2, hsp, hsp2, hsm, hsm1, hsm2, o1, o2, o3, o4,
      u2, h4] <;> simp)

theorem dimInv_growStep (ext : Ext K) (m : Nat) (hm : 1 ≤ m) (s : MainState K)
    (h : DimInv m s) : DimInv m (growStep ext m s) := by
  have hT := growTransformed_dims ext m hm s h
  have hE := growEnlarge_dims (growTransformed ext m s)
  have hO := growOps_dims m (growEnlarge (growTransformed ext m s))
  have hA := growAdvance_dims (growOps m (growEnlarge (growTransformed ext m s)))
  simp only at hT hE hO hA
  obtain ⟨-, a1, a2, a3, a4, a5, a6, a7, a8, o1, o2, o3, o4, -, e2, e3, e4, e5, -, -, hc⟩ := hT
  obtain ⟨u1, u2, -, -, u5, u6, u7, u8, u9, u10, u11, u12, u13, u14, u15, u16, -, -⟩ := hE
  obtain ⟨w1, -, -, w4, w5, w6, w7, w8, w9, w10, -, -, w13, w14, w15, w16⟩ := hO
  obtain ⟨x1, x2, -, -, x5, x6, x7, x8, x9, x10, x11, x12, x13, x14, x15, -, -⟩ := hA
  exact dimInv_chain m s _ _ _ _ h
    ⟨a1, a2, a3, a4, a5, a6, a7, a8, o1, o2, o3, o4, e2, e3, e4, e5, hc⟩
    ⟨u1, u2, u5, u6, u7, u8, u9, u10, u11, u12, u13, u14, u15, u16⟩
    ⟨w1, w4, w5, w6, w7, w8, w9, w10, w13, w14, w15, w16⟩
    ⟨x1, x2, x5, x6, x7, x8, x9, x10, x11, x12, x13, x14, x15⟩

theorem dimInv_growIter (ext : Ext K) (m : Nat) (hm : 1 ≤ m) (n : Nat) :
    DimInv m (growIter ext m n) := by
  induction n with
  | zero => exact dimInv_init m
  | succ n ih => exact dimInv_growStep ext m hm _ ih

/-! ## The transform block -/

theorem growClamp_frame (m : Nat) (t : MainState K) :
    (growClamp m t).OO = t.OO ∧ (growClamp m t).OT = t.OT ∧
    (growClamp m t).dmCalls = t.dmCalls ∧ (growClamp m t).blkS_HAB = t.blkS_HAB ∧
    (growClamp m t).SzAB = t.SzAB ∧ (growClamp m t).SpAB = t.SpAB ∧
    (growClamp m t).SmAB = t.SmAB ∧ (growClamp m t).rhoTSR = t.rhoTSR := by
  unfold growClamp
  split_ifs <;> simp

theorem growTruncate_frame (ext : Ext K) (m : Nat) (t : MainState K) :
    (growTruncate ext m t).blkS_HAB = t.blkS_HAB ∧ (growTruncate ext m t).SzAB = t.SzAB ∧
    (growTruncate ext m t).SpAB = t.SpAB ∧ (growTruncate ext m t).SmAB = t.SmAB ∧
    (growTruncate ext m t).dmCalls = t.dmCalls ++ [(2 * t.st, keepCount m t)] ∧
    (∃ OOin : Arr2 K,
      (growTruncate ext m t).OO.v = ext.DMlargeEigen t.rhoTSR OOin (2 * t.st) (keepCount m t)) ∧
    ∀ a b, a < 2 * t.st → b < keepCount m t →
      (growTruncate ext m t).OT.v a b = (growTruncate ext m t).OO.v b a := by
  by_cases h1 : 2 * t.st ≤ m
  · simp only [growTruncate, keepCount, h1, if_true, Arr2.assign, Arr2.resize, transposeInto]
    refine ⟨trivial, trivial, trivial, trivial, trivial, ⟨_, rfl⟩, ?_⟩
    intro a b ha hb
    simp [ha, hb]
  · by_cases h2 : t.truncflag = 0 ∨ t.truncflag = 3
    · simp only [growTruncate, keepCount, h1, h2, if_true, if_false, Arr2.assign, Arr2.resize,
        transposeInto]
      refine ⟨trivial, trivial, trivial, trivial, trivial, ⟨_, rfl⟩, ?_⟩
      intro a b ha hb
      simp [ha, hb]
    · simp only [growTruncate, keepCount, h1, h2, if_true, if_false, Arr2.assign, Arr2.resize,
        transposeInto]
      refine ⟨trivial, trivial, trivial, trivial, trivial, ⟨_, rfl⟩, ?_⟩
      intro a b ha hb
      simp [ha, hb]

theorem contract_toMatrix (A B : Arr2 K) (r d c : Nat) (hA : A.n2 = d) :
    toMatrix r c (contract A B) = toMatrix r d A.v * toMatrix d c B.v := by
  ext i j
  simp only [toMatrix, contract, Matrix.mul_apply, hA]
  exact (Fin.sum_univ_eq_sum_range (fun k => A.v i.val k * B.v k j.val) d).symm

theorem similarBy_contract (O X OT Hl : Arr2 K) (k d : Nat) (hX : X.n2 = d) (hO : O.n2 = d)
    (hT : ∀ a b, a < d → b < k → OT.v a b = O.v b a) :
    SimilarBy k d O.v X.v (contract O (Hl.assign (contract X OT))) := by
  have hOT : toMatrix d k OT.v = (toMatrix k d O.v).transpose := by
    ext a b
    simp only [toMatrix, Matrix.transpose_apply]
    exact hT a.val b.val a.isLt b.isLt
  unfold SimilarBy
  rw [contract_toMatrix O _ k d k hO]
  simp only [Arr2.assign]
  rw [contract_toMatrix X OT d d k hX, hOT, Matrix.mul_assoc]

/-- After `transformOps`, each of the four operators is `OO · X · OOᵗ`, when the extents
agree and `OT` holds the transpose of `OO`. -/
theorem transformOps_similar (t : MainState K) (k d : Nat) (hH : t.blkS_HAB.n2 = d)
    (hz : t.SzAB.n2 = d) (hp : t.SpAB.n2 = d) (hm : t.SmAB.n2 = d) (hO : t.OO.n2 = d)
    (hT : ∀ a b, a < d → b < k → t.OT.v a b = t.OO.v b a) :
    SimilarBy k d t.OO.v t.blkS_HAB.v (transformOps t).HAp.v ∧
    SimilarBy k d t.OO.v t.SzAB.v (transformOps t).SzB.v ∧
    SimilarBy k d t.OO.v t.SpAB.v (transformOps t).SpB.v ∧
    SimilarBy k d t.OO.v t.SmAB.v (transformOps t).SmB.v :=
  ⟨similarBy_contract t.OO t.blkS_HAB t.OT _ k d hH hO hT,
   similarBy_contract t.OO t.SzAB t.OT _ k d hz hO hT,
   similarBy_contract t.OO t.SpAB t.OT _ k d hp hO hT,
   similarBy_contract t.OO t.SmAB t.OT _ k d hm hO hT⟩

theorem keepCount_eq_min (m : Nat) (s : MainState K) : keepCount m s = min m (2 * s.st) := by
  unfold keepCount
  split_ifs with h
  · exact (min_eq_right h).symm
  · exact (min_eq_left (le_of_lt (not_le.mp h))).symm

theorem growStep_st (ext : Ext K) (m : Nat) (s : MainState K) :
    (growStep ext m s).st = (growTransformed ext m s).st := by
  have hE := growEnlarge_dims (growTransformed ext m s)
  have hO := growOps_dims m (growEnlarge (growTransformed ext m s))
  have hA := growAdvance_dims (growOps m (growEnlarge (growTransformed ext m s)))
  simp only at hE hO hA
  show (growAdvance (growOps m (growEnlarge (growTransformed ext m s)))).st = _
  rw [hA.1, hO.1, hE.1]

theorem growSolve_frame (ext : Ext K) (s : MainState K) :
    (growSolve ext s).st = s.st ∧ (growSolve ext s).dmCalls = s.dmCalls ∧
    (growSolve ext s).blkS_HAB = s.blkS_HAB ∧ (growSolve ext s).SzAB = s.SzAB ∧
    (growSolve ext s).SpAB = s.SpAB ∧ (growSolve ext s).SmAB = s.SmAB :=
  ⟨rfl, rfl, rfl, rfl, rfl, rfl⟩

theorem transformOps_frame (t : MainState K) :
    (transformOps t).dmCalls = t.dmCalls ∧ (transformOps t).OO = t.OO ∧
    (transformOps t).OT = t.OT ∧ (transformOps t).st = t.st :=
  ⟨rfl, rfl, rfl, rfl⟩

theorem keepCount_congr (m : Nat) (s t : MainState K) (h : s.st = t.st) :
    keepCount m s = keepCount m t := by
  unfold keepCount
  rw [h]

theorem growStep_dmCalls (ext : Ext K) (m : Nat) (s : MainState K) :
    (growStep ext m s).dmCalls = s.dmCalls ++ [(2 * s.st, keepCount m s)] := by
  have hE := growEnlarge_dims (growTransformed ext m s)
  have hO := growOps_dims m (growEnlarge (growTransformed ext m s))
  have hA := growAdvance_dims (growOps m (growEnlarge (growTransformed ext m s)))
  simp only at hE hO hA
  have hC := growClamp_frame m (growTruncate ext m (growSolve ext s))
  have hTr := growTruncate_frame ext m (growSolve ext s)
  have hS := growSolve_frame ext s
  rw [growStep, hA.2.2.2.2.2.2.2.2.2.2.2.2.2.2.2.1, hO.2.2.2.2.2.2.2.2.2.2.1,
    hE.2.2.2.2.2.2.2.2.2.2.2.2.2.2.2.2.1, growTransformed, (transformOps_frame _).1, growPre,
    hC.2.2.1, hTr.2.2.2.2.1, hS.1, hS.2.1, keepCount_congr m _ s hS.1]

theorem sweepTransformed_similar (ext : Ext K) (m NumS iter : Nat) (s : MainState K)
    (hO : s.OO.n2 = 2 * m) (hH : s.blkS_HAB.n2 = 2 * m) (hz : s.SzAB.n2 = 2 * m)
    (hp : s.SpAB.n2 = 2 * m) (hs : s.SmAB.n2 = 2 * m) :
    (sweepTransformed ext m NumS iter s).OO.v =
      ext.DMlargeEigen (sweepSolve ext m NumS iter s).rhoTSR s.OO (2 * m) m ∧
    toMatrix (2 * m) m (sweepTransformed ext m NumS iter s).OT.v =
      (toMatrix m (2 * m) (sweepTransformed ext m NumS iter s).OO.v).transpose ∧
    SimilarBy m (2 * m) (sweepTransformed ext m NumS iter s).OO.v s.blkS_HAB.v
      (sweepTransformed ext m NumS iter s).HAp.v ∧
    SimilarBy m (2 * m) (sweepTransformed ext m NumS iter s).OO.v s.SzAB.v
      (sweepTransformed ext m NumS iter s).SzB.v ∧
    SimilarBy m (2 * m) (sweepTransformed ext m NumS iter s).OO.v s.SpAB.v
      (sweepTransformed ext m NumS iter s).SpB.v ∧
    SimilarBy m (2 * m) (sweepTransformed ext m NumS iter s).OO.v s.SmAB.v
      (sweepTransformed ext m NumS iter s).SmB.v := by
  have hT : ∀ a b, a < 2 * m → b < m →
      (sweepTruncate ext m (sweepSolve ext m NumS iter s)).OT.v a b =
        (sweepTruncate ext m (sweepSolve ext m NumS iter s)).OO.v b a := by
    intro a b ha hb
    simp [sweepTruncate, transposeInto, Arr2.assign, ha, hb]
  have h := transformOps_similar (sweepTruncate ext m (sweepSolve ext m NumS iter s)) m (2 * m)
    hH hz hp hs hO hT
  refine ⟨rfl, ?_, h⟩
  ext a b
  simp only [toMatrix, Matrix.transpose_apply]
  exact hT a.val b.val a.isLt b.isLt

theorem growTransformed_similar (ext : Ext K) (m : Nat) (hm : 1 ≤ m) (s : MainState K)
    (h : DimInv m s) :
    (∃ OOin : Arr2 K, (growTransformed ext m s).OO.v =
      ext.DMlargeEigen (growSolve ext s).rhoTSR OOin (2 * s.st) (keepCount m s)) ∧
    (growTransformed ext m s).OO.n1 = keepCount m s ∧
    (growTransformed ext m s).OO.n2 = 2 * s.st ∧
    toMatrix (2 * s.st) (keepCount m s) (growTransformed ext m s).OT.v =
      (toMatrix (keepCount m s) (2 * s.st) (growTransformed ext m s).OO.v).transpose ∧
    SimilarBy (keepCount m s) (2 * s.st) (growTransformed ext m s).OO.v s.blkS_HAB.v
      (growTransformed ext m s).HAp.v ∧
    SimilarBy (keepCount m s) (2 * s.st) (growTransformed ext m s).OO.v s.SzAB.v
      (growTransformed ext m s).SzB.v ∧
    SimilarBy (keepCount m s) (2 * s.st) (growTransformed ext m s).OO.v s.SpAB.v
      (growTransformed ext m s).SpB.v ∧
    SimilarBy (keepCount m s) (2 * s.st) (growTransformed ext m s).OO.v s.SmAB.v
      (growTransformed ext m s).SmB.v := by
  have hD := growTransformed_dims ext m hm s h
  simp only at hD
  obtain ⟨hk, -, -, -, -, -, -, -, -, o1, o2, -⟩ := hD
  have hC := growClamp_frame m (growTruncate ext m (growSolve ext s))
  have hTr := growTruncate_frame ext m (growSolve ext s)
  have hS := growSolve_frame ext s
  obtain ⟨c1, c2, -, c4, c5, c6, c7, -⟩ := hC
  obtain ⟨t1, t2, t3, t4, -, t6, t7⟩ := hTr
  obtain ⟨s1, -, s3, s4, s5, s6⟩ := hS
  rw [s1, keepCount_congr m _ s s1] at t6
  rw [s1, keepCount_congr m _ s s1] at t7
  have eO : (growPre ext m s).OO = (growTruncate ext m (growSolve ext s)).OO := by
    rw [growPre]; exact c1
  have eT : (growPre ext m s).OT = (growTruncate ext m (growSolve ext s)).OT := by
    rw [growPre]; exact c2
  have eH : (growPre ext m s).blkS_HAB = s.blkS_HAB := by rw [growPre, c4, t1, s3]
  have ez : (growPre ext m s).SzAB = s.SzAB := by rw [growPre, c5, t2, s4]
  have ep : (growPre ext m s).SpAB = s.SpAB := by rw [growPre, c6, t3, s5]
  have em : (growPre ext m s).SmAB = s.SmAB := by rw [growPre, c7, t4, s6]
  have eOO : (growTransformed ext m s).OO = (growPre ext m s).OO := by
    rw [growTransformed]; exact (transformOps_frame _).2.1
  have eOT : (growTransformed ext m s).OT = (growPre ext m s).OT := by
    rw [growTransformed]; exact (transformOps_frame _).2.2.1
  have hT : ∀ a b, a < 2 * s.st → b < keepCount m s →
      (growPre ext m s).OT.v a b = (growPre ext m s).OO.v b a := by
    intro a b ha hb
    rw [eO, eT]
    exact t7 a b ha hb
  have hsim := transformOps_similar (growPre ext m s) (keepCount m s) (2 * s.st)
    (by rw [eH]; exact h.hab2) (by rw [ez]; exact h.sz2) (by rw [ep]; exact h.sp2)
    (by rw [em]; exact h.sm2) (by rw [← eOO]; exact o2) hT
  rw [eH, ez, ep, em] at hsim
  refine ⟨?_, by rw [o1, hk], o2, ?_, hsim⟩
  · obtain ⟨OOin, hOO⟩ := t6
    exact ⟨OOin, by rw [eOO, eO]; exact hOO⟩
  · ext a b
    simp only [toMatrix, Matrix.transpose_apply]
    rw [eOO, eOT]
    exact hT a.val b.val a.isLt b.isLt

/-- C6. In every growth iteration, started in any state `s`, `DMlargeEigen` is called once,
on a density matrix of dimension `dOld = 2*st` and asked for `min(m, dOld)` eigenvectors:
all `dOld` of them when `dOld ≤ m`, exactly `m` otherwise. -/
theorem growth_keeps_min (ext : Ext K) (m : Nat) (s : MainState K) :
    (growStep ext m s).dmCalls = s.dmCalls ++ [(2 * s.st, min m (2 * s.st))] ∧
    (2 * s.st ≤ m → min m (2 * s.st) = 2 * s.st) ∧
    (m < 2 * s.st → min m (2 * s.st) = m) := by
  refine ⟨?_, fun h => min_eq_right h, fun h => min_eq_left (le_of_lt h)⟩
  rw [growStep_dmCalls, keepCount_eq_min]

/-- C7. For `m ≥ 1`, at the start of every growth iteration (number `n`, for any `NumS`)
`blkS.HAB`, `SzAB`, `SpAB` and `SmAB` are all `2*st` square; after the transform `HAp`,
`SzB`, `SpB` and `SmB` are all `d` square, where `d` is the new `st`, and `d` is either twice
the previous `st` or exactly `m`. -/
theorem growth_dimension_invariant (ext : Ext K) (m : Nat) (hm : 1 ≤ m) (n : Nat) :
    let s := growIter ext m n
    let s' := growTransformed ext m s
    (s.blkS_HAB.n1 = 2 * s.st ∧ s.blkS_HAB.n2 = 2 * s.st ∧
      s.SzAB.n1 = 2 * s.st ∧ s.SzAB.n2 = 2 * s.st ∧
      s.SpAB.n1 = 2 * s.st ∧ s.SpAB.n2 = 2 * s.st ∧
      s.SmAB.n1 = 2 * s.st ∧ s.SmAB.n2 = 2 * s.st) ∧
    (s'.HAp.n1 = s'.st ∧ s'.HAp.n2 = s'.st ∧ s'.SzB.n1 = s'.st ∧ s'.SzB.n2 = s'.st ∧
      s'.SpB.n1 = s'.st ∧ s'.SpB.n2 = s'.st ∧ s'.SmB.n1 = s'.st ∧ s'.SmB.n2 = s'.st) ∧
    (growStep ext m s).st = s'.st ∧
    (s'.st = 2 * s.st ∨ s'.st = m) := by
  intro s s'
  have h := dimInv_growIter ext m hm n
  have hT := growTransformed_dims ext m hm s h
  simp only at hT
  obtain ⟨hk, a1, a2, a3, a4, a5, a6, a7, a8, -⟩ := hT
  refine ⟨⟨h.hab1, h.hab2, h.sz1, h.sz2, h.sp1, h.sp2, h.sm1, h.sm2⟩,
    ⟨a1, a2, a3, a4, a5, a6, a7, a8⟩, growStep_st ext m s, ?_⟩
  show (growTransformed ext m s).st = 2 * s.st ∨ (growTransformed ext m s).st = m
  rw [hk]
  unfold keepCount
  split_ifs
  · exact Or.inl rfl
  · exact Or.inr rfl

theorem growth_dimension_invariant_witness :
    1 ≤ 3 ∧
    (let s : MainState ℚ := growIter sampleExt 3 2
     let s' := growTransformed sampleExt 3 s
     (s.blkS_HAB.n1 = 2 * s.st ∧ s.blkS_HAB.n2 = 2 * s.st ∧
        s.SzAB.n1 = 2 * s.st ∧ s.SzAB.n2 = 2 * s.st ∧
        s.SpAB.n1 = 2 * s.st ∧ s.SpAB.n2 = 2 * s.st ∧
        s.SmAB.n1 = 2 * s.st ∧ s.SmAB.n2 = 2 * s.st) ∧
      (s'.HAp.n1 = s'.st ∧ s'.HAp.n2 = s'.st ∧ s'.SzB.n1 = s'.st ∧ s'.SzB.n2 = s'.st ∧
        s'.SpB.n1 = s'.st ∧ s'.SpB.n2 = s'.st ∧ s'.SmB.n1 = s'.st ∧ s'.SmB.n2 = s'.st) ∧
      (growStep sampleExt 3 s).st = s'.st ∧
      (s'.st = 2 * s.st ∨ s'.st = 3)) :=
  ⟨by decide, growth_dimension_invariant sampleExt 3 (by decide) 2⟩

/-! ## The superblock -/

theorem superblock_eq (A B : Arr2 K) (s : MainState K) (d : Nat)
    (hI : ∀ a b, a < d → b < d → s.I2st.v a b = if a = b then 1 else 0)
    (i j k l : Nat) (hi : i < d) (hj : j < d) (hk : k < d) (hl : l < d) :
    superblock A B s i j k l = specSuperblock A.v B.v s.SzAB.v s.SpAB.v s.SmAB.v i j k l := by
  unfold superblock specSuperblock
  rw [hI j l hj hl, hI i k hi hk]

/-- C4, the claim as stated fails: in a sweep step for `m = 1` whose system block is zero and
whose environment block, just read, has a single 1 at (0,0), the entry `(0,1,0,1)` of the
tensor built is 3/4, while the formula with the system block on the first factor and the
environment block on the second gives -1/4 there. -/
theorem sweep_superblock_system_first_fails :
    (sweepSolve unitReadExt 1 6 0 sweepState1).Habcd.v 0 1 0 1 = 3 / 4 ∧
    specSuperblock sweepState1.blkS_HAB.v (sweepSolve unitReadExt 1 6 0 sweepState1).blkE_HAB.v
      sweepState1.SzAB.v sweepState1.SpAB.v sweepState1.SmAB.v 0 1 0 1 = -(1 / 4) ∧
    (sweepSolve unitReadExt 1 6 0 sweepState1).Habcd.v 0 1 0 1 ≠
      specSuperblock sweepState1.blkS_HAB.v (sweepSolve unitReadExt 1 6 0 sweepState1).blkE_HAB.v
        sweepState1.SzAB.v sweepState1.SpAB.v sweepState1.SmAB.v 0 1 0 1 := by
  have h1 : (sweepSolve unitReadExt 1 6 0 sweepState1).Habcd.v 0 1 0 1 = 3 / 4 := by
    simp [sweepSolve, Arr4.assign, superblock, unitReadExt, sweepState1, I2m, identArr, Sz, Sp,
      Sm]
    norm_num
  have h2 : specSuperblock sweepState1.blkS_HAB.v
      (sweepSolve unitReadExt 1 6 0 sweepState1).blkE_HAB.v
      sweepState1.SzAB.v sweepState1.SpAB.v sweepState1.SmAB.v 0 1 0 1 = -(1 / 4) := by
    simp [sweepSolve, specSuperblock, unitReadExt, sweepState1, Sz, Sp, Sm]
    norm_num
  refine ⟨h1, h2, ?_⟩
  rw [h1, h2]
  norm_num

/-! ## The two-site Hamiltonian and the first superblock -/

theorem det_fin_four_expand {R : Type} [CommRing R] (A : Matrix (Fin 4) (Fin 4) R) :
    A.det =
      A 0 0 * (A 1 1 * A 2 2 * A 3 3 - A 1 1 * A 2 3 * A 3 2 - A 1 2 * A 2 1 * A 3 3
        + A 1 2 * A 2 3 * A 3 1 + A 1 3 * A 2 1 * A 3 2 - A 1 3 * A 2 2 * A 3 1)
      - A 0 1 * (A 1 0 * A 2 2 * A 3 3 - A 1 0 * A 2 3 * A 3 2 - A 1 2 * A 2 0 * A 3 3
        + A 1 2 * A 2 3 * A 3 0 + A 1 3 * A 2 0 * A 3 2 - A 1 3 * A 2 2 * A 3 0)
      + A 0 2 * (A 1 0 * A 2 1 * A 3 3 - A 1 0 * A 2 3 * A 3 1 - A 1 1 * A 2 0 * A 3 3
        + A 1 1 * A 2 3 * A 3 0 + A 1 3 * A 2 0 * A 3 1 - A 1 3 * A 2 1 * A 3 0)
      - A 0 3 * (A 1 0 * A 2 1 * A 3 2 - A 1 0 * A 2 2 * A 3 1 - A 1 1 * A 2 0 * A 3 2
        + A 1 1 * A 2 2 * A 3 0 + A 1 2 * A 2 0 * A 3 1 - A 1 2 * A 2 1 * A 3 0) := by
  rw [Matrix.det_succ_row_zero]
  simp only [Fin.sum_univ_succ, Fin.sum_univ_zero, Matrix.det_fin_three, Matrix.submatrix_apply]
  have h1 : (Fin.succ (2 : Fin 3) : Fin 4) = 3 := rfl
  have h2 : (Fin.castSucc (2 : Fin 3) : Fin 4) = 2 := rfl
  have h3 : ((3 : Fin 4) : ℕ) = 3 := rfl
  simp [Fin.succAbove, h1, h2, h3]
  ring

theorem H12_entries : toMatrix 4 4 (H12 : Arr2 ℚ).v =
    !![1/4, 0, 0, 0; 0, -(1/4), 1/2, 0; 0, 1/2, -(1/4), 0; 0, 0, 0, 1/4] := by
  ext i j
  fin_cases i <;> fin_cases j <;>
    simp [toMatrix, H12, reduceM2M2, TSR12, Sz, Sp, Sm, Matrix.vecHead, Matrix.vecTail] <;>
    norm_num

theorem H12_charpoly : (toMatrix 4 4 (H12 : Arr2 ℚ).v).charpoly =
    (Polynomial.X + Polynomial.C (3/4 : ℚ)) * (Polynomial.X - Polynomial.C (1/4 : ℚ)) ^ 3 := by
  rw [H12_entries]
  unfold Matrix.charpoly
  rw [det_fin_four_expand]
  apply Polynomial.funext
  intro x
  simp [Matrix.charmatrix_apply]
  ring

/-- C8. The two-site Hamiltonian `H12`, built from `Sz`, `Sp`, `Sm` as
`Sz⊗Sz + ½(Sp⊗Sm + Sm⊗Sp)` and flattened to a 4 × 4 matrix, has the characteristic polynomial
`(x + 3/4)(x - 1/4)³`: its eigenvalues are `-3/4` with multiplicity 1 and `1/4` with
multiplicity 3. -/
theorem two_site_spectrum :
    (toMatrix 4 4 (H12 : Arr2 ℚ).v).charpoly =
      (Polynomial.X + Polynomial.C (3/4 : ℚ)) * (Polynomial.X - Polynomial.C (1/4 : ℚ)) ^ 3 ∧
    (toMatrix 4 4 (H12 : Arr2 ℚ).v).charpoly.roots = {-(3/4 : ℚ), 1/4, 1/4, 1/4} := by
  refine ⟨H12_charpoly, ?_⟩
  rw [H12_charpoly]
  have h1 : (Polynomial.X + Polynomial.C (3/4 : ℚ)) = Polynomial.X - Polynomial.C (-(3/4 : ℚ)) := by
    simp
  have hne : (Polynomial.X - Polynomial.C (-(3/4 : ℚ))) *
      (Polynomial.X - Polynomial.C (1/4 : ℚ)) ^ 3 ≠ 0 :=
    mul_ne_zero (Polynomial.X_sub_C_ne_zero _) (pow_ne_zero _ (Polynomial.X_sub_C_ne_zero _))
  rw [h1, Polynomial.roots_mul hne, Polynomial.roots_X_sub_C, Polynomial.roots_pow,
    Polynomial.roots_X_sub_C]
  rfl

set_option maxHeartbeats 4000000 in
/-- The superblock of the first growth iteration does not have the eigenvalue `-3/4`. -/
theorem first_superblock_not_eigen (Ψ : Nat → Nat → ℝ)
    (h : IsEigenpair 4 (superblock H12 H12 (initState 1 : MainState ℝ)) (-(3/4)) Ψ) : False := by
  obtain ⟨⟨i, j, hi, hj, hne⟩, h⟩ := h
  have e00 := h 0 0 (by norm_num) (by norm_num)
  simp [Finset.sum_range_succ, superblock, initState, H12, firstSiteOp, reduceM2M2, TSR12, I4, I2,
    identArr, Sz, Sp, Sm] at e00
  have e01 := h 0 1 (by norm_num) (by norm_num)
  simp [Finset.sum_range_succ, superblock, initState, H12, firstSiteOp, reduceM2M2, TSR12, I4, I2,
    identArr, Sz, Sp, Sm] at e01
  have e02 := h 0 2 (by norm_num) (by norm_num)
  simp [Finset.sum_range_succ, superblock, initState, H12, firstSiteOp, reduceM2M2, TSR12, I4, I2,
    identArr, Sz, Sp, Sm] at e02
  have e03 := h 0 3 (by norm_num) (by norm_num)
  simp [Finset.sum_range_succ, superblock, initState, H12, firstSiteOp, reduceM2M2, TSR12, I4, I2,
    identArr, Sz, Sp, Sm] at e03
  have e10 := h 1 0 (by norm_num) (by norm_num)
  simp [Finset.sum_range_succ, superblock, initState, H12, firstSiteOp, reduceM2M2, TSR12, I4, I2,
    identArr, Sz, Sp, Sm] at e10
  have e11 := h 1 1 (by norm_num) (by norm_num)
  simp [Finset.sum_range_succ, superblock, initState, H12, firstSiteOp, reduceM2M2, TSR12, I4, I2,
    identArr, Sz, Sp, Sm] at e11
  have e12 := h 1 2 (by norm_num) (by norm_num)
  simp [Finset.sum_range_succ, superblock, initState, H12, firstSiteOp, reduceM2M2, TSR12, I4, I2,
    identArr, Sz, Sp, Sm] at e12
  have e13 := h 1 3 (by norm_num) (by norm_num)
  simp [Finset.sum_range_succ, superblock, initState, H12, firstSiteOp, reduceM2M2, TSR12, I4, I2,
    identArr, Sz, Sp, Sm] at e13
  have e20 := h 2 0 (by norm_num) (by norm_num)
  simp [Finset.sum_range_succ, superblock, initState, H12, firstSiteOp, reduceM2M2, TSR12, I4, I2,
    identArr, Sz, Sp, Sm] at e20
  have e21 := h 2 1 (by norm_num) (by norm_num)
  simp [Finset.sum_range_succ, superblock, initState, H12, firstSiteOp, reduceM2M2, TSR12, I4, I2,
    identArr, Sz, Sp, Sm] at e21
  have e22 := h 2 2 (by norm_num) (by norm_num)
  simp [Finset.sum_range_succ, superblock, initState, H12, firstSiteOp, reduceM2M2, TSR12, I4, I2,
    identArr, Sz, Sp, Sm] at e22
  have e23 := h 2 3 (by norm_num) (by norm_num)
  simp [Finset.sum_range_succ, superblock, initState, H12, firstSiteOp, reduceM2M2, TSR12, I4, I2,
    identArr, Sz, Sp, Sm] at e23
  have e30 := h 3 0 (by norm_num) (by norm_num)
  simp [Finset.sum_range_succ, superblock, initState, H12, firstSiteOp, reduceM2M2, TSR12, I4, I2,
    identArr, Sz, Sp, Sm] at e30
  have e31 := h 3 1 (by norm_num) (by norm_num)
  simp [Finset.sum_range_succ, superblock, initState, H12, firstSiteOp, reduceM2M2, TSR12, I4, I2,
    identArr, Sz, Sp, Sm] at e31
  have e32 := h 3 2 (by norm_num) (by norm_num)
  simp [Finset.sum_range_succ, superblock, initState, H12, firstSiteOp, reduceM2M2, TSR12, I4, I2,
    identArr, Sz, Sp, Sm] at e32
  have e33 := h 3 3 (by norm_num) (by norm_num)
  simp [Finset.sum_range_succ, superblock, initState, H12, firstSiteOp, reduceM2M2, TSR12, I4, I2,
    identArr, Sz, Sp, Sm] at e33
  have z00 : Ψ 0 0 = 0 := by linear_combination (2/3) * e00
  have z01 : Ψ 0 1 = 0 := by
    linear_combination (2/3) * e01 + (2/3) * e02 + (2/3) * e10 + (-4/3) * e20
  have z02 : Ψ 0 2 = 0 := by
    linear_combination (2/3) * e01 + (-4/3) * e02 + (-4/3) * e10 + (8/3) * e20
  have z03 : Ψ 0 3 = 0 := by
    linear_combination (4/9) * e03 + (-2/9) * e11 + (-8/9) * e12 + (10/9) * e21 + (-2/9) * e22
      + (4/9) * e30
  have z10 : Ψ 1 0 = 0 := by
    linear_combination (2/3) * e01 + (-4/3) * e02 + (2/3) * e10 + (2/3) * e20
  have z11 : Ψ 1 1 = 0 := by
    linear_combination (-2/9) * e03 + (10/9) * e11 + (4/9) * e12 + (4/9) * e21 + (-8/9) * e22
      + (-2/9) * e30
  have z12 : Ψ 1 2 = 0 := by
    linear_combination (-8/9) * e03 + (4/9) * e11 + (-20/9) * e12 + (16/9) * e21 + (4/9) * e22
      + (10/9) * e30
  have z13 : Ψ 1 3 = 0 := by
    linear_combination (-4/3) * e13 + (2/3) * e23 + (8/3) * e31 + (-4/3) * e32
  have z20 : Ψ 2 0 = 0 := by
    linear_combination (-4/3) * e01 + (8/3) * e02 + (2/3) * e10 + (-4/3) * e20
  have z21 : Ψ 2 1 = 0 := by
    linear_combination (10/9) * e03 + (4/9) * e11 + (16/9) * e12 + (-20/9) * e21 + (4/9) * e22
      + (-8/9) * e30
  have z22 : Ψ 2 2 = 0 := by
    linear_combination (-2/9) * e03 + (-8/9) * e11 + (4/9) * e12 + (4/9) * e21 + (10/9) * e22
      + (-2/9) * e30
  have z23 : Ψ 2 3 = 0 := by
    linear_combination (2/3) * e13 + (2/3) * e23 + (-4/3) * e31 + (2/3) * e32
  have z30 : Ψ 3 0 = 0 := by
    linear_combination (4/9) * e03 + (-2/9) * e11 + (10/9) * e12 + (-8/9) * e21 + (-2/9) * e22
      + (4/9) * e30
  have z31 : Ψ 3 1 = 0 := by
    linear_combination (8/3) * e13 + (-4/3) * e23 + (-4/3) * e31 + (2/3) * e32
  have z32 : Ψ 3 2 = 0 := by
    linear_combination (-4/3) * e13 + (2/3) * e23 + (2/3) * e31 + (2/3) * e32
  have z33 : Ψ 3 3 = 0 := by linear_combination (2/3) * e33
  interval_cases i <;> interval_cases j <;>
    first
    | exact hne z00 | exact hne z01 | exact hne z02 | exact hne z03
    | exact hne z10 | exact hne z11 | exact hne z12 | exact hne z13
    | exact hne z20 | exact hne z21 | exact hne z22 | exact hne z23
    | exact hne z30 | exact hne z31 | exact hne z32 | exact hne z33

theorem growSolve_init (ext : Ext K) (m : Nat) :
    (growSolve ext (initState m)).Habcd.v = superblock H12 H12 (initState 1 : MainState K) ∧
    (growSolve ext (initState m)).Habcd.e1 = 4 ∧ (growSolve ext (initState m)).Habcd.e2 = 4 ∧
    (growSolve ext (initState m)).Habcd.e3 = 4 ∧ (growSolve ext (initState m)).Habcd.e4 = 4 ∧
    (growSolve ext (initState m)).Eval =
      (ext.calculateGroundState (growSolve ext (initState m)).Habcd (initState m).Psi 16).1 ∧
    (growSolve ext (initState m)).out =
      [(2 * 2, 1 / (2 * 2), (growSolve ext (initState m)).Eval / (2 * 2))] := by
  refine ⟨rfl, rfl, rfl, rfl, rfl, rfl, ?_⟩
  simp [growSolve, initState]

theorem sum_single_corner (H : Nat → Nat → ℝ) :
    ∑ k in Finset.range 4, ∑ l in Finset.range 4,
      H k l * (if k = 0 ∧ l = 0 then (1 : ℝ) else 0) = H 0 0 := by
  simp [Finset.sum_range_succ]

/-- C9, the claim as stated fails: at the first growth iteration (here for `m = 1`) the
tensor handed to the solver is the 16-dimensional superblock of two two-site blocks, and
`-3/4` is not an eigenvalue of it; a solver that returns an eigenvalue of what it is given,
the lowest one in particular, cannot return `-0.75` there. -/
theorem first_energy_not_two_site :
    ¬ ∃ Ψ : Nat → Nat → ℝ,
      IsEigenpair 4 (growSolve (zeroExt : Ext ℝ) (initState 1)).Habcd.v (-(3/4)) Ψ := by
  rintro ⟨Ψ, h⟩
  exact first_superblock_not_eigen Ψ h

/-- C9, amended. At the first growth iteration (block of 2 sites, before any truncation) the
solver is given, with dimension 16, the superblock tensor of two two-site blocks, that is
of the four-site chain; the line printed is for the total size `2*sites = 4`, with the
energy per site `Eval/4`; and if the solver returns an eigenvalue of the tensor it is given
(as the lowest eigenvalue is), the energy obtained is not `-0.75`. -/
theorem first_iteration_energy (ext : Ext ℝ) (m : Nat)
    (hE : ∃ Ψ : Nat → Nat → ℝ, IsEigenpair 4 (growSolve ext (initState m)).Habcd.v
      (growSolve ext (initState m)).Eval Ψ) :
    ((growSolve ext (initState m)).Habcd.e1 = 4 ∧ (growSolve ext (initState m)).Habcd.e2 = 4 ∧
      (growSolve ext (initState m)).Habcd.e3 = 4 ∧ (growSolve ext (initState m)).Habcd.e4 = 4) ∧
    (∀ i j k l, i < 4 → j < 4 → k < 4 → l < 4 →
      (growSolve ext (initState m)).Habcd.v i j k l =
        specSuperblock (H12 : Arr2 ℝ).v (H12 : Arr2 ℝ).v (firstSiteOp Sz : Arr2 ℝ).v
          (firstSiteOp Sp : Arr2 ℝ).v (firstSiteOp Sm : Arr2 ℝ).v i j k l) ∧
    (growSolve ext (initState m)).Eval =
      (ext.calculateGroundState (growSolve ext (initState m)).Habcd (initState m).Psi 16).1 ∧
    (growSolve ext (initState m)).out =
      [(4, 1 / 4, (growSolve ext (initState m)).Eval / 4)] ∧
    (growSolve ext (initState m)).Eval ≠ -(3/4) := by
  obtain ⟨h1, h2, h3, h4, h5, h6, h7⟩ := growSolve_init ext m
  refine ⟨⟨h2, h3, h4, h5⟩, ?_, h6, ?_, ?_⟩
  · intro i j k l hi hj hk hl
    rw [h1]
    exact superblock_eq _ _ _ 4 (fun a b ha _ => identArr_apply 4 a b ha) i j k l hi hj hk hl
  · rw [h7]
    norm_num
  · intro hEq
    obtain ⟨Ψ, hΨ⟩ := hE
    rw [hEq, h1] at hΨ
    exact first_superblock_not_eigen Ψ hΨ

theorem first_iteration_energy_witness :
    (∃ Ψ : Nat → Nat → ℝ, IsEigenpair 4 (growSolve (allUpExt : Ext ℝ) (initState 1)).Habcd.v
      (growSolve (allUpExt : Ext ℝ) (initState 1)).Eval Ψ) ∧
    (growSolve (allUpExt : Ext ℝ) (initState 1)).Eval ≠ -(3/4) := by
  have hE : ∃ Ψ : Nat → Nat → ℝ,
      IsEigenpair 4 (growSolve (allUpExt : Ext ℝ) (initState 1)).Habcd.v
        (growSolve (allUpExt : Ext ℝ) (initState 1)).Eval Ψ := by
    refine ⟨(growSolve (allUpExt : Ext ℝ) (initState 1)).Psi.v,
      ⟨0, 0, by norm_num, by norm_num, ?_⟩, ?_⟩
    · simp [growSolve, allUpExt, Arr2.assign]
    · intro i j hi hj
      have hP : (growSolve (allUpExt : Ext ℝ) (initState 1)).Psi.v =
          fun k l => if k = 0 ∧ l = 0 then (1 : ℝ) else 0 := rfl
      have hV : (growSolve (allUpExt : Ext ℝ) (initState 1)).Eval = 3 / 4 := rfl
      rw [hP, hV]
      simp only []
      rw [sum_single_corner
        (fun k l => (growSolve (allUpExt : Ext ℝ) (initState 1)).Habcd.v i j k l)]
      interval_cases i <;> interval_cases j <;>
        simp [growSolve, Arr4.assign, superblock, initState, H12, firstSiteOp, reduceM2M2,
          TSR12, I4, I2, identArr, Sz, Sp, Sm] <;> norm_num
  exact ⟨hE, (first_iteration_energy allUpExt 1 hE).2.2.2.2⟩

/-! ## The snapshots read and written -/

/-- C10, the claim as stated fails: for `m = 1`, `NumS = 4`, `NumI = 0` the run writes a
snapshot for the site count 3 only and then reads the site count `NumS/2 = 2`; and for
`m = 100`, `NumS = 6`, `NumI = 1` it writes the site counts 3 and 4 and reads, at the end of
the sweep, the site count `FSAend = 6`. -/
theorem snapshot_read_missing : ¬ ReadsCovered (mainRun sampleExt 1 4 0).log ∧
    ¬ ReadsCovered (mainRun sampleExt 100 6 1).log := by
  constructor
  · have hl : ∃ X, (mainRun sampleExt 1 4 0).log = [IOEvent.ISAwrite 3 X, IOEvent.FSAread 2 1] :=
      ⟨_, rfl⟩
    obtain ⟨X, hX⟩ := hl
    rw [hX]
    rintro ⟨h⟩
    simp [coveredRev, writtenSites, IOEvent.readAt, IOEvent.written] at h
  · have hl : ∃ X Y, (mainRun sampleExt 100 6 1).log =
        [IOEvent.ISAwrite 3 X, IOEvent.ISAwrite 4 Y, IOEvent.FSAread 3 1, IOEvent.FSAread 6 0] :=
      ⟨_, _, rfl⟩
    obtain ⟨X, Y, hX⟩ := hl
    rw [hX]
    rintro ⟨h⟩
    simp [coveredRev, writtenSites, IOEvent.readAt, IOEvent.written] at h

theorem readsCovered_nil : ReadsCovered ([] : List (IOEvent K)) :=
  ⟨by simp [coveredRev]⟩

theorem mem_writtenSites_append (l1 l2 : List (IOEvent K)) (k : Nat) :
    k ∈ writtenSites (l1 ++ l2) ↔ k ∈ writtenSites l1 ∨ k ∈ writtenSites l2 := by
  simp [writtenSites, List.filterMap_append]

theorem mem_writtenSites_reverse (l : List (IOEvent K)) (k : Nat) :
    k ∈ writtenSites l.reverse ↔ k ∈ writtenSites l := by
  simp [writtenSites, List.mem_filterMap]

theorem readsCovered_snoc (l : List (IOEvent K)) (e : IOEvent K) :
    ReadsCovered (l ++ [e]) ↔ (∀ s, e.readAt = some s → s ∈ writtenSites l) ∧ ReadsCovered l := by
  have hr : (l ++ [e]).reverse = e :: l.reverse := by simp
  constructor
  · rintro ⟨h⟩
    rw [hr] at h
    exact ⟨fun s hs => (mem_writtenSites_reverse l s).1 (h.1 s hs), ⟨h.2⟩⟩
  · rintro ⟨h1, ⟨h2⟩⟩
    refine ⟨?_⟩
    rw [hr]
    exact ⟨fun s hs => (mem_writtenSites_reverse l s).2 (h1 s hs), h2⟩

theorem growClamp_sites_log (m : Nat) (t : MainState K) :
    (growClamp m t).sites = t.sites ∧ (growClamp m t).log = t.log := by
  unfold growClamp
  split_ifs <;> simp

theorem growTruncate_sites_log (ext : Ext K) (m : Nat) (t : MainState K) :
    (growTruncate ext m t).sites = t.sites ∧ (growTruncate ext m t).log = t.log := by
  unfold growTruncate
  split_ifs <;> simp

theorem transformOps_sites_log (t : MainState K) :
    (transformOps t).sites = t.sites ∧ (transformOps t).log = t.log := ⟨rfl, rfl⟩

theorem growSolve_sites_log (ext : Ext K) (s : MainState K) :
    (growSolve ext s).sites = s.sites ∧ (growSolve ext s).log = s.log := ⟨rfl, rfl⟩

theorem growStep_sites_log (ext : Ext K) (m : Nat) (s : MainState K) :
    (growStep ext m s).sites = s.sites + 1 ∧
    ∃ X, (growStep ext m s).log = s.log ++ [IOEvent.ISAwrite (s.sites + 1) X] := by
  have hE := growEnlarge_dims (growTransformed ext m s)
  have hO := growOps_dims m (growEnlarge (growTransformed ext m s))
  have hA := growAdvance_dims (growOps m (growEnlarge (growTransformed ext m s)))
  simp only at hE hO hA
  have hC := growClamp_sites_log m (growTruncate ext m (growSolve ext s))
  have hT := growTruncate_sites_log ext m (growSolve ext s)
  have e1 : (growTransformed ext m s).sites = s.sites := by
    rw [growTransformed, (transformOps_sites_log _).1, growPre, hC.1, hT.1,
      (growSolve_sites_log ext s).1]
  have e2 : (growTransformed ext m s).log = s.log := by
    rw [growTransformed, (transformOps_sites_log _).2, growPre, hC.2, hT.2,
      (growSolve_sites_log ext s).2]
  constructor
  · rw [growStep, hA.2.2.1, hO.2.1, hE.2.2.1, e1]
  · refine ⟨(growOps m (growEnlarge (growTransformed ext m s))).blkS_HAB, ?_⟩
    rw [growStep, hA.2.2.2.1, hO.2.2.1, hO.2.1, hE.2.2.2.1, hE.2.2.1, e1, e2]

theorem sweepStep_sites_log (ext : Ext K) (m NumS iter : Nat) (s : MainState K) :
    (sweepStep ext m NumS iter s).sites = s.sites + 1 ∧
    ∃ X, (sweepStep ext m NumS iter s).log =
      s.log ++ [IOEvent.FSAread (NumS - s.sites) iter] ++ [IOEvent.FSAwrite (s.sites + 1) iter X] :=
  ⟨rfl, _, rfl⟩

theorem readSystem_sites_log (ext : Ext K) (n tag : Nat) (s : MainState K) :
    (readSystem ext n tag s).sites = n ∧
    (readSystem ext n tag s).log = s.log ++ [IOEvent.FSAread n tag] :=
  ⟨rfl, rfl⟩

theorem writtenUpTo_mono (B B' : Nat) (l l' : List (IOEvent K)) (hB : B' ≤ B) (h : WrittenUpTo B l) :
    WrittenUpTo B' (l ++ l') := fun k h3 hk =>
  (mem_writtenSites_append l l' k).2 (Or.inl (h k h3 (le_trans hk hB)))

theorem writtenUpTo_write (B : Nat) (l : List (IOEvent K)) (e : IOEvent K)
    (he : e.written = some (B + 1)) (h : WrittenUpTo B l) : WrittenUpTo (B + 1) (l ++ [e]) := by
  intro k h3 hk
  rw [mem_writtenSites_append]
  rcases Nat.lt_or_ge k (B + 1) with hlt | hge
  · exact Or.inl (h k h3 (Nat.lt_succ_iff.mp hlt))
  · right
    have : k = B + 1 := le_antisymm hk hge
    subst this
    simp [writtenSites, he]

theorem growLoop_covered (ext : Ext K) (m NumS : Nat) :
    ∀ (fuel : Nat) (s : MainState K), ReadsCovered s.log → WrittenUpTo s.sites s.log →
      NumS / 2 + 1 ≤ s.sites + fuel →
      ReadsCovered (growLoop ext m NumS fuel s).log ∧
      WrittenUpTo (growLoop ext m NumS fuel s).sites (growLoop ext m NumS fuel s).log ∧
      NumS / 2 < (growLoop ext m NumS fuel s).sites := by
  intro fuel
  induction fuel with
  | zero =>
    intro s hc hw hf
    exact ⟨hc, hw, by simpa using hf⟩
  | succ fuel ih =>
    intro s hc hw hf
    unfold growLoop
    split_ifs with hg
    · obtain ⟨hs, X, hl⟩ := growStep_sites_log ext m s
      apply ih
      · rw [hl, readsCovered_snoc]
        exact ⟨fun s hs => by simp [IOEvent.readAt] at hs, hc⟩
      · rw [hl, hs]
        exact writtenUpTo_write _ _ _ rfl hw
      · rw [hs]
        omega
    · exact ⟨hc, hw, not_le.mp hg⟩

theorem sweepLoop_covered (ext : Ext K) (m NumS F iter : Nat) (hF : 3 ≤ F) (B : Nat) :
    ∀ (fuel : Nat) (s : MainState K), ReadsCovered s.log → WrittenUpTo (max B s.sites) s.log →
      NumS - s.sites ≤ B → NumS + 1 ≤ s.sites + fuel →
      ReadsCovered (sweepLoop ext m NumS F iter fuel s).log ∧
      WrittenUpTo (max B (sweepLoop ext m NumS F iter fuel s).sites)
        (sweepLoop ext m NumS F iter fuel s).log ∧
      NumS < (sweepLoop ext m NumS F iter fuel s).sites + F := by
  intro fuel
  induction fuel with
  | zero =>
    intro s hc hw _ hf
    exact ⟨hc, hw, by simp only [sweepLoop]; omega⟩
  | succ fuel ih =>
    intro s hc hw hB hf
    unfold sweepLoop
    split_ifs with hg
    · obtain ⟨hs, X, hl⟩ := sweepStep_sites_log ext m NumS iter s
      apply ih
      · rw [hl, readsCovered_snoc, readsCovered_snoc]
        refine ⟨fun s hs => by simp [IOEvent.readAt] at hs, ?_, hc⟩
        intro k hk
        simp only [IOEvent.readAt, Option.some.injEq] at hk
        subst hk
        exact hw _ (by omega) (le_trans hB (le_max_left _ _))
      · rw [hl, hs]
        intro k h3 hk
        rw [mem_writtenSites_append]
        by_cases hk' : k ≤ max B s.sites
        · exact Or.inl ((mem_writtenSites_append _ _ k).2 (Or.inl (hw k h3 hk')))
        · right
          have : k = s.sites + 1 := by
            have h1 : ¬ k ≤ B := fun h => hk' (le_trans h (le_max_left _ _))
            have h2 : ¬ k ≤ s.sites := fun h => hk' (le_trans h (le_max_right _ _))
            rcases le_max_iff.mp hk with h | h
            · exact absurd h h1
            · omega
          subst this
          simp [writtenSites, IOEvent.written]
      · rw [hs]
        omega
      · rw [hs]
        omega
    · exact ⟨hc, hw, not_le.mp hg⟩

theorem sweeps_covered (ext : Ext K) (m NumS F : Nat) (hF : 3 ≤ F) (hFle : F ≤ NumS / 2 + 1) :
    ∀ (n iter : Nat) (s : MainState K) (B : Nat), ReadsCovered s.log → WrittenUpTo B s.log →
      NumS / 2 + 1 ≤ B → s.sites ≤ B → NumS - s.sites ≤ B →
      ReadsCovered (sweeps ext m NumS F n iter s).log := by
  intro n
  induction n with
  | zero =>
    intro iter s B hc _ _ _ _
    exact hc
  | succ n ih =>
    intro iter s B hc hw hB hs hE
    unfold sweeps
    have hmax : max B s.sites = B := max_eq_left hs
    obtain ⟨c1, w1, e1⟩ := sweepLoop_covered ext m NumS F iter hF B (NumS + 1) s hc
      (by rw [hmax]; exact hw) hE (by omega)
    obtain ⟨r1, r2⟩ := readSystem_sites_log ext F iter (sweepLoop ext m NumS F iter (NumS + 1) s)
    apply ih (iter + 1) _ (max B (sweepLoop ext m NumS F iter (NumS + 1) s).sites)
    · rw [r2, readsCovered_snoc]
      refine ⟨?_, c1⟩
      intro k hk
      simp only [IOEvent.readAt, Option.some.injEq] at hk
      subst hk
      exact w1 _ hF (le_trans hFle (le_trans hB (le_max_left _ _)))
    · rw [r2]
      exact writtenUpTo_mono _ _ _ _ le_rfl w1
    · exact le_trans hB (le_max_left _ _)
    · rw [r1]
      exact le_trans hFle (le_trans hB (le_max_left _ _))
    · rw [r1]
      have : NumS - F ≤ (sweepLoop ext m NumS F iter (NumS + 1) s).sites := by omega
      exact le_trans this (le_max_right _ _)

theorem fsaEndLoop_ge (m NumS : Nat) : ∀ fuel f, f ≤ fsaEndLoop m NumS fuel f := by
  intro fuel
  induction fuel with
  | zero => intro f; exact le_rfl
  | succ fuel ih =>
    intro f
    unfold fsaEndLoop
    split_ifs
    · exact le_rfl
    · exact le_trans (Nat.le_succ f) (ih (f + 1))
    · exact le_rfl

theorem fsaEndLoop_le (m NumS g : Nat) (hg : g < NumS) (hp : 2 ^ g ≥ 2 * m) :
    ∀ fuel f, f ≤ g → g ≤ f + fuel → fsaEndLoop m NumS fuel f ≤ g := by
  intro fuel
  induction fuel with
  | zero =>
    intro f hf _
    exact hf
  | succ fuel ih =>
    intro f hf hfu
    unfold fsaEndLoop
    split_ifs with h1 h2
    · exact hf
    · have hne : f ≠ g := fun h => h2 (h ▸ hp)
      exact ih (f + 1) (by omega) (by omega)
    · exact hf

/-- C10, amended. For every run-parameter triple with `NumS ≥ 6` and either `NumI = 0` or
`m ≤ 2^(NumS/2)` (so that `FSAend ≤ NumS/2 + 1`), every site count passed to a snapshot read
(the initial `blkS.FSAread` at `NumS/2`, each `blkE.FSAread` at `NumS - sites`, each
end-of-sweep `blkS.FSAread` at `FSAend`) is a site count at which a snapshot was written
(`ISAwrite` or `FSAwrite`) earlier in the same run. -/
theorem snapshot_reads_covered (ext : Ext K) (m NumS NumI : Nat) (hN : 6 ≤ NumS)
    (hm : NumI = 0 ∨ m ≤ 2 ^ (NumS / 2)) : ReadsCovered (mainRun ext m NumS NumI).log := by
  obtain ⟨gc, gw, gs⟩ := growLoop_covered ext m NumS NumS (initState m) readsCovered_nil
    (fun k h3 hk => by simp [initState] at hk; omega) (by simp [initState]; omega)
  obtain ⟨r1, r2⟩ := readSystem_sites_log ext (NumS / 2) 1 (growLoop ext m NumS NumS (initState m))
  have rc : ReadsCovered (readSystem ext (NumS / 2) 1 (growLoop ext m NumS NumS (initState m))).log := by
    rw [r2, readsCovered_snoc]
    refine ⟨?_, gc⟩
    intro k hk
    simp only [IOEvent.readAt, Option.some.injEq] at hk
    subst hk
    exact gw _ (by omega) (le_of_lt gs)
  unfold mainRun
  rcases hm with h0 | hm
  · subst h0
    exact rc
  · have hF3 : 3 ≤ FSAend m NumS := fsaEndLoop_ge m NumS NumS 3
    have hFle : FSAend m NumS ≤ NumS / 2 + 1 := by
      apply fsaEndLoop_le m NumS (NumS / 2 + 1) (by omega)
      · rw [pow_succ]
        omega
      · omega
      · omega
    apply sweeps_covered ext m NumS _ hF3 hFle NumI 0 _ (NumS / 2 + 1) rc
    · rw [r2]
      exact writtenUpTo_mono _ _ _ _ (by omega) gw
    · exact le_rfl
    · rw [r1]
      omega
    · rw [r1]
      omega

theorem snapshot_reads_covered_witness :
    6 ≤ 6 ∧ (2 = 0 ∨ 1 ≤ 2 ^ (6 / 2)) ∧ ReadsCovered (mainRun sampleExt 1 6 2).log :=
  ⟨le_refl 6, Or.inr Nat.one_le_two_pow,
    snapshot_reads_covered sampleExt 1 6 2 (le_refl 6) (Or.inr Nat.one_le_two_pow)⟩

theorem fsaEndLoop_stop (m NumS : Nat) :
    ∀ fuel f, NumS ≤ f + fuel →
      (2 ^ fsaEndLoop m NumS fuel f ≥ 2 * m ∨ NumS ≤ fsaEndLoop m NumS fuel f) := by
  intro fuel
  induction fuel with
  | zero =>
    intro f hf
    exact Or.inr (by simpa [fsaEndLoop] using hf)
  | succ fuel ih =>
    intro f hf
    unfold fsaEndLoop
    split_ifs with h1 h2
    · exact Or.inl h2
    · exact ih (f + 1) (by omega)
    · exact Or.inr (not_lt.mp h1)

theorem fsaEndLoop_least (m NumS g : Nat) (hg : 2 ^ g ≥ 2 * m ∨ NumS ≤ g) :
    ∀ fuel f, f ≤ g → fsaEndLoop m NumS fuel f ≤ g := by
  intro fuel
  induction fuel with
  | zero =>
    intro f hf
    exact hf
  | succ fuel ih =>
    intro f hf
    unfold fsaEndLoop
    split_ifs with h1 h2
    · exact hf
    · have hne : f ≠ g := by
        rintro rfl
        rcases hg with h | h
        · exact h2 h
        · omega
      exact ih (f + 1) (by omega)
    · exact hf

/-- C11, as stated, fails in two ways. With `m = 1` and `NumS = 10` the loop yields
`FSAend = 3` although `2^1 ≥ 2*1` already, because the search starts at 3; with `m = 100`
and `NumS = 6` it yields `FSAend = 6` although `2^6 < 2*100`, because the search stops at
`NumS`. -/
theorem fsaEnd_not_least_power :
    (1 ≤ 1 ∧ FSAend 1 10 = 3 ∧ 2 ^ 1 ≥ 2 * 1 ∧ 1 < FSAend 1 10) ∧
    (1 ≤ 100 ∧ FSAend 100 6 = 6 ∧ ¬ 2 ^ FSAend 100 6 ≥ 2 * 100) := by
  decide

/-- C11, amended. For every `m` and `NumS`, `FSAend` is the smallest `f ≥ 3` such that
`2^f ≥ 2*m` or `f ≥ NumS`: the search starts at 3 and is capped by `NumS`. When `m ≥ 3`
and some `f < NumS` has `2^f ≥ 2*m`, it is the smallest `f` with `2^f ≥ 2*m`. -/
theorem fsaEnd_least (m NumS : Nat) :
    3 ≤ FSAend m NumS ∧
    (2 ^ FSAend m NumS ≥ 2 * m ∨ NumS ≤ FSAend m NumS) ∧
    (∀ f, 3 ≤ f → (2 ^ f ≥ 2 * m ∨ NumS ≤ f) → FSAend m NumS ≤ f) ∧
    (3 ≤ m → (∃ f, f < NumS ∧ 2 ^ f ≥ 2 * m) →
      2 ^ FSAend m NumS ≥ 2 * m ∧ ∀ f, 2 ^ f ≥ 2 * m → FSAend m NumS ≤ f) := by
  have hstop := fsaEndLoop_stop m NumS NumS 3 (by omega)
  have hleast : ∀ f, 3 ≤ f → (2 ^ f ≥ 2 * m ∨ NumS ≤ f) → FSAend m NumS ≤ f :=
    fun f h3 hf => fsaEndLoop_least m NumS f hf NumS 3 h3
  refine ⟨fsaEndLoop_ge m NumS NumS 3, hstop, hleast, ?_⟩
  rintro hm ⟨g, hg, hp⟩
  have h3 : ∀ f, 2 ^ f ≥ 2 * m → 3 ≤ f := by
    intro f hf
    by_contra hcon
    have h2 : f ≤ 2 := by omega
    have : 2 ^ f ≤ 2 ^ 2 := Nat.pow_le_pow_right (by decide) h2
    omega
  have hle : FSAend m NumS ≤ g := hleast g (h3 g hp) (Or.inl hp)
  refine ⟨?_, fun f hf => hleast f (h3 f hf) (Or.inl hf)⟩
  rcases hstop with h | h
  · exact h
  · have : NumS ≤ FSAend m NumS := h
    omega

theorem fsaEnd_least_witness :
    2 ^ FSAend 5 10 ≥ 2 * 5 ∧ ∀ f, 2 ^ f ≥ 2 * 5 → FSAend 5 10 ≤ f :=
  (fsaEnd_least 5 10).2.2.2 (by decide) ⟨4, by decide, by decide⟩

theorem growStep_out (ext : Ext K) (m : Nat) (s : MainState K) :
    ∃ E : K, (growStep ext m s).out =
      s.out ++ [(2 * (s.sites : K), 1 / (2 * (s.sites : K)), E / (2 * (s.sites : K)))] := by
  have hE := growEnlarge_dims (growTransformed ext m s)
  have hO := growOps_dims m (growEnlarge (growTransformed ext m s))
  have hA := growAdvance_dims (growOps m (growEnlarge (growTransformed ext m s)))
  simp only at hE hO hA
  have hC : ∀ t : MainState K, (growClamp m t).out = t.out := by
    intro t
    unfold growClamp
    split_ifs <;> simp
  have hT : ∀ t : MainState K, (growTruncate ext m t).out = t.out := by
    intro t
    unfold growTruncate
    split_ifs <;> simp
  have hX : (transformOps (growPre ext m s)).out = (growPre ext m s).out := rfl
  refine ⟨(ext.calculateGroundState (s.Habcd.assign (superblock s.blkS_HAB s.blkS_HAB s))
    s.Psi (4 * s.st * s.st)).1, ?_⟩
  rw [growStep, hA.2.2.2.2.2.2.2.2.2.2.2.2.2.2.2.2, hO.2.2.2.2.2.2.2.2.2.2.2.1,
    hE.2.2.2.2.2.2.2.2.2.2.2.2.2.2.2.2.2, growTransformed, hX, growPre, hC, hT]
  rfl

theorem growIter_sites (ext : Ext K) (m : Nat) : ∀ n, (growIter ext m n).sites = n + 2 := by
  intro n
  induction n with
  | zero => rfl
  | succ n ih => rw [growIter, (growStep_sites_log ext m _).1, ih]

theorem growIter_writes (ext : Ext K) (m : Nat) :
    ∀ n, (growIter ext m n).log.map IOEvent.written =
      (List.range n).map (fun k => some (k + 3)) := by
  intro n
  induction n with
  | zero => rfl
  | succ n ih =>
    obtain ⟨X, hX⟩ := (growStep_sites_log ext m (growIter ext m n)).2
    rw [growIter, hX, List.map_append, ih, growIter_sites, List.range_succ, List.map_append]
    rfl

theorem growIter_out (ext : Ext K) (m : Nat) :
    ∀ n, (growIter ext m n).out.map (fun r => (r.1, r.2.1)) =
      (List.range n).map (fun k => (2 * ((k + 2 : Nat) : K), 1 / (2 * ((k + 2 : Nat) : K)))) := by
  intro n
  induction n with
  | zero => rfl
  | succ n ih =>
    obtain ⟨E, hE⟩ := growStep_out ext m (growIter ext m n)
    rw [growIter, hE, List.map_append, ih, growIter_sites, List.range_succ, List.map_append]
    rfl

theorem growLoop_growIter (ext : Ext K) (m NumS : Nat) :
    ∀ fuel k, k + fuel = NumS / 2 - 1 → 
      growLoop ext m NumS fuel (growIter ext m k) = growIter ext m (NumS / 2 - 1) := by
  intro fuel
  induction fuel with
  | zero =>
    intro k hk
    rw [← hk]
    rfl
  | succ fuel ih =>
    intro k hk
    have hs := growIter_sites ext m k
    rw [growLoop, if_pos (by omega)]
    exact ih (k + 1) (by omega)

theorem growLoop_exit (ext : Ext K) (m NumS : Nat) (s : MainState K)
    (h : ¬ s.sites ≤ NumS / 2) : ∀ fuel, growLoop ext m NumS fuel s = s := by
  intro fuel
  cases fuel with
  | zero => rfl
  | succ fuel => rw [growLoop, if_neg h]

theorem growLoop_add (ext : Ext K) (m NumS : Nat) :
    ∀ a b s, growLoop ext m NumS (a + b) s = growLoop ext m NumS b (growLoop ext m NumS a s) := by
  intro a
  induction a with
  | zero =>
    intro b s
    rw [Nat.zero_add]
    rfl
  | succ a ih =>
    intro b s
    rw [Nat.succ_add_eq_add_succ, Nat.add_succ, growLoop]
    by_cases h : s.sites ≤ NumS / 2
    · rw [if_pos h, growLoop, if_pos h]
      exact ih b _
    · rw [if_neg h, growLoop, if_neg h, growLoop_exit ext m NumS s h]

/-- C12. For every `m` and every `NumS ≥ 4`, the growth loop makes exactly `NumS/2 - 1`
iterations and then stops: with any iteration budget of at least `NumS/2 - 1` (and so with
the budget `NumS` of `mainRun`) it ends in the state after `NumS/2 - 1` iterations, the loop
test holds on entering each of these iterations and fails afterwards. Each iteration adds
one site, the exit is at `sites = NumS/2 + 1`, the snapshots written are those for the site
counts `3, 4, ..., NumS/2 + 1` in this order, and the diagnostic lines are those for the
total sizes `4, 6, ..., 2*(NumS/2)`. -/
theorem growth_loop_schedule (ext : Ext K) (m NumS : Nat) (hN : 4 ≤ NumS) :
    (∀ fuel, NumS / 2 - 1 ≤ fuel →
      growLoop ext m NumS fuel (initState m) = growIter ext m (NumS / 2 - 1)) ∧
    (∀ k, k < NumS / 2 - 1 → (growIter ext m k).sites ≤ NumS / 2 ∧
      (growIter ext m (k + 1)).sites = (growIter ext m k).sites + 1) ∧
    ¬ (growIter ext m (NumS / 2 - 1)).sites ≤ NumS / 2 ∧
    (growLoop ext m NumS NumS (initState m)).sites = NumS / 2 + 1 ∧
    (growLoop ext m NumS NumS (initState m)).log.map IOEvent.written =
      (List.range (NumS / 2 - 1)).map (fun k => some (k + 3)) ∧
    (growLoop ext m NumS NumS (initState m)).out.map (fun r => (r.1, r.2.1)) =
      (List.range (NumS / 2 - 1)).map
        (fun k => (2 * ((k + 2 : Nat) : K), 1 / (2 * ((k + 2 : Nat) : K)))) := by
  have hexit : ¬ (growIter ext m (NumS / 2 - 1)).sites ≤ NumS / 2 := by
    rw [growIter_sites]
    omega
  have hall : ∀ fuel, NumS / 2 - 1 ≤ fuel →
      growLoop ext m NumS fuel (initState m) = growIter ext m (NumS / 2 - 1) := by
    intro fuel hf
    obtain ⟨b, rfl⟩ := Nat.exists_eq_add_of_le hf
    rw [growLoop_add]
    have h0 := growLoop_growIter ext m NumS (NumS / 2 - 1) 0 (by omega)
    rw [growIter] at h0
    rw [h0]
    exact growLoop_exit ext m NumS _ hexit b
  refine ⟨hall, ?_, hexit, ?_, ?_, ?_⟩
  · intro k hk
    constructor
    · rw [growIter_sites]
      omega
    · rw [growIter_sites, growIter_sites]
  · rw [hall NumS (by omega), growIter_sites]
    omega
  · rw [hall NumS (by omega)]
    exact growIter_writes ext m _
  · rw [hall NumS (by omega)]
    exact growIter_out ext m _

theorem growth_loop_schedule_witness :
    4 ≤ 8 ∧ (growLoop sampleExt 1 8 8 (initState 1)).sites = 8 / 2 + 1 ∧
    (growLoop sampleExt 1 8 8 (initState 1)).log.map IOEvent.written =
      (List.range (8 / 2 - 1)).map (fun k => some (k + 3)) :=
  ⟨by decide, (growth_loop_schedule sampleExt 1 8 (by decide)).2.2.2.1,
    (growth_loop_schedule sampleExt 1 8 (by decide)).2.2.2.2.1⟩

theorem sweepStep_iterate_sites (ext : Ext K) (m NumS iter : Nat) (s : MainState K) :
    ∀ k, ((sweepStep ext m NumS iter)^[k] s).sites = s.sites + k := by
  intro k
  induction k with
  | zero => rfl
  | succ k ih =>
    rw [Function.iterate_succ_apply', (sweepStep_sites_log ext m NumS iter _).1, ih]
    rfl

theorem sweepLoop_iterate (ext : Ext K) (m NumS F iter : Nat) :
    ∀ (fuel : Nat) (s : MainState K), sweepCount NumS F s.sites ≤ fuel →
      sweepLoop ext m NumS F iter fuel s =
        (sweepStep ext m NumS iter)^[sweepCount NumS F s.sites] s := by
  intro fuel
  induction fuel with
  | zero =>
    intro s hf
    have h0 : sweepCount NumS F s.sites = 0 := Nat.le_zero.mp hf
    rw [h0]
    rfl
  | succ fuel ih =>
    intro s hf
    unfold sweepCount at hf
    rw [sweepLoop]
    by_cases hg : s.sites + F ≤ NumS
    · have hs := (sweepStep_sites_log ext m NumS iter s).1
      have hc : sweepCount NumS F s.sites =
          sweepCount NumS F (sweepStep ext m NumS iter s).sites + 1 := by
        rw [hs]
        unfold sweepCount
        omega
      rw [if_pos hg, ih _ (by rw [hs]; unfold sweepCount; omega), hc,
        Function.iterate_succ_apply]
    · have h0 : sweepCount NumS F s.sites = 0 := by
        unfold sweepCount
        omega
      rw [if_neg hg, h0]
      rfl

theorem sweeps_sweepStart (ext : Ext K) (m NumS : Nat) :
    ∀ n iter, sweeps ext m NumS (FSAend m NumS) n iter (sweepStart ext m NumS iter) =
      sweepStart ext m NumS (iter + n) := by
  intro n
  induction n with
  | zero => intro iter; rfl
  | succ n ih =>
    intro iter
    rw [sweeps, ← sweepStart, ih (iter + 1)]
    congr 1
    omega

theorem sweepStart_sites (ext : Ext K) (m NumS iter : Nat) :
    (sweepStart ext m NumS iter).sites = if iter = 0 then NumS / 2 else FSAend m NumS := by
  cases iter with
  | zero => rfl
  | succ iter => rfl

/-- C19. The sweep phase of `main` terminates for all inputs and follows a fixed schedule.
The run is the state on entering sweep number `NumI`. On entering sweep number
`iter < NumI` the system size is `s0 = NumS/2` for `iter = 0` and `s0 = FSAend` after; the
`while` loop of that sweep makes exactly `c = NumS + 1 - (s0 + FSAend)` steps (none when
`s0 > NumS - FSAend`), whatever iteration budget of at least `c` it is given, and the
budget `NumS + 1` of `mainRun` is at least `c`; step number `k < c` starts at the system
size `s0 + k`, which is at most `NumS - FSAend`, and reads the environment at
`NumS - (s0 + k)`, so that the two sizes sum to `NumS`; the loop test fails after the `c`
steps, the last of which, if any, started at `NumS - FSAend`; the system size is then reset
to `FSAend`. -/
theorem sweep_schedule (ext : Ext K) (m NumS NumI : Nat) :
    mainRun ext m NumS NumI = sweepStart ext m NumS NumI ∧
    ∀ iter, iter < NumI →
      (sweepStart ext m NumS iter).sites = (if iter = 0 then NumS / 2 else FSAend m NumS) ∧
      (∀ fuel, sweepCount NumS (FSAend m NumS) (sweepStart ext m NumS iter).sites ≤ fuel →
        sweepLoop ext m NumS (FSAend m NumS) iter fuel (sweepStart ext m NumS iter) =
          sweepAt ext m NumS iter
            (sweepCount NumS (FSAend m NumS) (sweepStart ext m NumS iter).sites)) ∧
      sweepCount NumS (FSAend m NumS) (sweepStart ext m NumS iter).sites ≤ NumS + 1 ∧
      (∀ k, k < sweepCount NumS (FSAend m NumS) (sweepStart ext m NumS iter).sites →
        (sweepAt ext m NumS iter k).sites = (sweepStart ext m NumS iter).sites + k ∧
        (sweepAt ext m NumS iter k).sites + FSAend m NumS ≤ NumS ∧
        (sweepSolve ext m NumS iter (sweepAt ext m NumS iter k)).log =
          (sweepAt ext m NumS iter k).log ++
            [IOEvent.FSAread (NumS - (sweepAt ext m NumS iter k).sites) iter] ∧
        (NumS - (sweepAt ext m NumS iter k).sites) + (sweepAt ext m NumS iter k).sites = NumS ∧
        (sweepAt ext m NumS iter (k + 1)).sites = (sweepAt ext m NumS iter k).sites + 1) ∧
      ¬ (sweepAt ext m NumS iter
          (sweepCount NumS (FSAend m NumS) (sweepStart ext m NumS iter).sites)).sites
          + FSAend m NumS ≤ NumS ∧
      (0 < sweepCount NumS (FSAend m NumS) (sweepStart ext m NumS iter).sites →
        (sweepAt ext m NumS iter
          (sweepCount NumS (FSAend m NumS) (sweepStart ext m NumS iter).sites - 1)).sites =
            NumS - FSAend m NumS) ∧
      (sweepStart ext m NumS (iter + 1)).sites = FSAend m NumS := by
  refine ⟨?_, ?_⟩
  · have h := sweeps_sweepStart ext m NumS NumI 0
    rw [Nat.zero_add] at h
    exact h
  · intro iter _
    have hs := sweepStep_iterate_sites ext m NumS iter (sweepStart ext m NumS iter)
    refine ⟨sweepStart_sites ext m NumS iter,
      fun fuel hf => sweepLoop_iterate ext m NumS _ iter fuel _ hf, ?_, ?_, ?_, ?_, rfl⟩
    · unfold sweepCount
      omega
    · intro k hk
      have hk0 := hs k
      have hk1 := hs (k + 1)
      unfold sweepCount at hk
      unfold sweepAt
      refine ⟨hk0, by omega, rfl, by omega, by omega⟩
    · unfold sweepAt
      rw [hs]
      unfold sweepCount
      omega
    · intro hpos
      unfold sweepAt
      rw [hs]
      unfold sweepCount at hpos ⊢
      omega

theorem sweep_schedule_witness :
    (sweepStart sampleExt 2 8 0).sites = 4 ∧ sweepCount 8 (FSAend 2 8) 4 = 2 ∧
    (sweepAt sampleExt 2 8 0 1).sites = 8 - FSAend 2 8 ∧
    (sweepStart sampleExt 2 8 1).sites = 3 ∧ sweepCount 8 (FSAend 2 8) 3 = 3 :=
  ⟨((sweep_schedule sampleExt 2 8 2).2 0 (by decide)).1, by decide,
    ((sweep_schedule sampleExt 2 8 2).2 0 (by decide)).2.2.2.2.2.1 (by decide),
    ((sweep_schedule sampleExt 2 8 2).2 1 (by decide)).1, by decide⟩

theorem growLoop_eq_growIter (ext : Ext K) (m NumS fuel : Nat) (hf : NumS / 2 - 1 ≤ fuel) :
    growLoop ext m NumS fuel (initState m) = growIter ext m (NumS / 2 - 1) := by
  obtain ⟨b, rfl⟩ := Nat.exists_eq_add_of_le hf
  rw [growLoop_add]
  have h0 := growLoop_growIter ext m NumS (NumS / 2 - 1) 0 (by omega)
  rw [growIter] at h0
  rw [h0]
  apply growLoop_exit
  rw [growIter_sites]
  omega

theorem growStep_log (ext : Ext K) (m : Nat) (s : MainState K) :
    (growStep ext m s).log =
      s.log ++ [IOEvent.ISAwrite (s.sites + 1) (growStep ext m s).blkS_HAB] := by
  have hA := growAdvance_dims (growOps m (growEnlarge (growTransformed ext m s)))
  simp only at hA
  obtain ⟨hs, X, hX⟩ := growStep_sites_log ext m s
  have hb : (growStep ext m s).blkS_HAB =
      (growOps m (growEnlarge (growTransformed ext m s))).blkS_HAB := by
    rw [growStep, hA.2.2.2.2.1]
  have hl : (growStep ext m s).log =
      (growOps m (growEnlarge (growTransformed ext m s))).log ++
        [IOEvent.ISAwrite ((growOps m (growEnlarge (growTransformed ext m s))).sites + 1)
          (growOps m (growEnlarge (growTransformed ext m s))).blkS_HAB] := by
    rw [growStep, hA.2.2.2.1]
  rw [hX] at hl
  have h2 := List.append_inj' hl (by simp)
  rw [hX, hb, h2.2]
  simp only [List.cons.injEq, and_true] at h2
  have h3 := h2.2
  injection h3 with h4 h5
  rw [h4]

theorem min_pow_step (m p : Nat) (hm : 1 ≤ m) :
    (if 2 * min p m ≤ m then 2 * min p m else m) = min (2 * p) m := by
  rcases le_total p m with hpm | hpm
  · rw [min_eq_left hpm]
    split_ifs with hc
    · exact (min_eq_left hc).symm
    · exact (min_eq_right (by omega)).symm
  · rw [min_eq_right hpm, if_neg (by omega)]
    exact (min_eq_right (by omega)).symm

theorem growIter_st (ext : Ext K) (m : Nat) (hm : 1 ≤ m) :
    ∀ n, (growIter ext m (n + 1)).st = min (2 ^ (n + 2)) m := by
  intro n
  induction n with
  | zero =>
    have hT := growTransformed_dims ext m hm _ (dimInv_growIter ext m hm 0)
    simp only at hT
    rw [growIter, growStep_st, hT.1, keepCount]
    show (if 2 * 2 ≤ m then 2 * 2 else m) = min 4 m
    split_ifs with hc
    · exact (min_eq_left hc).symm
    · exact (min_eq_right (by omega)).symm
  | succ n ih =>
    have hT := growTransformed_dims ext m hm _ (dimInv_growIter ext m hm (n + 1))
    simp only at hT
    rw [growIter, growStep_st, hT.1, keepCount, ih, pow_succ 2 (n + 2),
      Nat.mul_comm (2 ^ (n + 2)) 2]
    exact min_pow_step m (2 ^ (n + 2)) hm

/-- Every event of the growth phase is a snapshot write, for a site count `s` from 3 to two
more than the number of iterations made, of a block of dimension `2*min(2^(s-1), m)`. -/
theorem growIter_log_dims (ext : Ext K) (m : Nat) (hm : 1 ≤ m) :
    ∀ n, ∀ e ∈ (growIter ext m n).log, ∃ s X, e = IOEvent.ISAwrite s X ∧ 3 ≤ s ∧ s ≤ n + 2 ∧
      X.n1 = 2 * min (2 ^ (s - 1)) m ∧ X.n2 = 2 * min (2 ^ (s - 1)) m := by
  intro n
  induction n with
  | zero =>
    intro e he
    simp [growIter, initState] at he
  | succ n ih =>
    intro e he
    rw [growIter, growStep_log, growIter_sites, List.mem_append, List.mem_singleton] at he
    rcases he with he | he
    · obtain ⟨s, X, h1, h2, h3, h4⟩ := ih e he
      exact ⟨s, X, h1, h2, by omega, h4⟩
    · have hd := dimInv_growIter ext m hm (n + 1)
      have hst := growIter_st ext m hm n
      rw [growIter] at hd hst
      refine ⟨n + 2 + 1, _, he, by omega, by omega, ?_, ?_⟩
      · rw [hd.hab1, hst]
        rfl
      · rw [hd.hab2, hst]
        rfl

theorem sweepLoop_reads (ext : Ext K) (m NumS F iter n0 : Nat) :
    ∀ (fuel : Nat) (s : MainState K),
      (∀ e ∈ s.log, ∀ k, e.readAt = some k → k = n0 ∨ F ≤ k) →
      ∀ e ∈ (sweepLoop ext m NumS F iter fuel s).log, ∀ k, e.readAt = some k → k = n0 ∨ F ≤ k := by
  intro fuel
  induction fuel with
  | zero =>
    intro s h
    exact h
  | succ fuel ih =>
    intro s h
    rw [sweepLoop]
    split_ifs with hg
    · apply ih
      obtain ⟨-, X, hl⟩ := sweepStep_sites_log ext m NumS iter s
      rw [hl]
      intro e he k hk
      simp only [List.mem_append, List.mem_singleton] at he
      rcases he with (he | he) | he
      · exact h e he k hk
      · subst he
        simp only [IOEvent.readAt, Option.some.injEq] at hk
        right
        omega
      · subst he
        simp [IOEvent.readAt] at hk
    · exact h

theorem sweeps_reads (ext : Ext K) (m NumS F n0 : Nat) :
    ∀ (n iter : Nat) (s : MainState K),
      (∀ e ∈ s.log, ∀ k, e.readAt = some k → k = n0 ∨ F ≤ k) →
      ∀ e ∈ (sweeps ext m NumS F n iter s).log, ∀ k, e.readAt = some k → k = n0 ∨ F ≤ k := by
  intro n
  induction n with
  | zero =>
    intro iter s h
    exact h
  | succ n ih =>
    intro iter s h
    rw [sweeps]
    apply ih
    rw [(readSystem_sites_log ext F iter _).2]
    intro e he k hk
    simp only [List.mem_append, List.mem_singleton] at he
    rcases he with he | he
    · exact sweepLoop_reads ext m NumS F iter n0 _ s h e he k hk
    · subst he
      simp only [IOEvent.readAt, Option.some.injEq] at hk
      right
      omega

/-- C14, as stated, fails in its remark on what the sweep phase loads: for `m = 8`,
`NumS = 7`, `NumI = 1` the margin is `FSAend = 4`, the growth phase writes the site counts
3 and 4, and the sweep phase first loads the system block at the site count `NumS/2 = 3`,
below `FSAend`, whose snapshot has dimension 8 and not `2*m = 16`; the sweep step then runs
with it, since `3 ≤ NumS - FSAend`. -/
theorem sweep_loads_below_margin :
    1 ≤ 8 ∧ FSAend 8 7 = 4 ∧
    ∃ X Y Z, (mainRun sampleExt 8 7 1).log =
      [IOEvent.ISAwrite 3 X, IOEvent.ISAwrite 4 Y, IOEvent.FSAread 3 1, IOEvent.FSAread 4 0,
        IOEvent.FSAwrite 4 0 Z, IOEvent.FSAread 4 0] ∧
      X.n1 = 8 ∧ X.n2 = 8 ∧ X.n1 ≠ 2 * 8 ∧ 3 < FSAend 8 7 :=
  ⟨by decide, by decide, _, _, _, rfl, rfl, rfl, by decide, by decide⟩

/-- C14, amended. For every `m ≥ 1` and `NumS`, every event of the growth phase is the
write of a snapshot, and the block Hamiltonian written under the site count `s` has
dimension `2*min(2^(s-1), m)`; consequently every growth snapshot with `s ≥ FSAend` has
dimension exactly `2*m`. Every snapshot read of the run is at a site count of at least
`FSAend`, except for reads at `NumS/2`, the site count of the first load of the system
block. -/
theorem growth_snapshot_dimension (ext : Ext K) (m NumS NumI : Nat) (hm : 1 ≤ m) :
    (∀ e ∈ (growLoop ext m NumS NumS (initState m)).log,
      ∃ s X, e = IOEvent.ISAwrite s X ∧
        X.n1 = 2 * min (2 ^ (s - 1)) m ∧ X.n2 = 2 * min (2 ^ (s - 1)) m ∧
        (FSAend m NumS ≤ s → X.n1 = 2 * m ∧ X.n2 = 2 * m)) ∧
    (∀ e ∈ (mainRun ext m NumS NumI).log, ∀ k, e.readAt = some k →
      k = NumS / 2 ∨ FSAend m NumS ≤ k) := by
  have hG : ∀ e ∈ (growLoop ext m NumS NumS (initState m)).log,
      ∃ s X, e = IOEvent.ISAwrite s X ∧ 3 ≤ s ∧ s ≤ NumS / 2 - 1 + 2 ∧
        X.n1 = 2 * min (2 ^ (s - 1)) m ∧ X.n2 = 2 * min (2 ^ (s - 1)) m := by
    rw [growLoop_eq_growIter ext m NumS NumS (by omega)]
    exact growIter_log_dims ext m hm _
  constructor
  · intro e he
    obtain ⟨s, X, h1, h3, hle, h4, h5⟩ := hG e he
    refine ⟨s, X, h1, h4, h5, ?_⟩
    intro hF
    have hmin : min (2 ^ (s - 1)) m = m := by
      apply min_eq_right
      rcases fsaEndLoop_stop m NumS NumS 3 (by omega) with hp | hp
      · have h2 : 2 ^ FSAend m NumS ≤ 2 ^ s := Nat.pow_le_pow_right (by decide) hF
        have h6 : 2 ^ s = 2 * 2 ^ (s - 1) := by
          obtain ⟨t, rfl⟩ : ∃ t, s = t + 1 := ⟨s - 1, by omega⟩
          rw [pow_succ, Nat.add_sub_cancel, Nat.mul_comm]
        have hp2 : 2 * m ≤ 2 ^ FSAend m NumS := hp
        omega
      · have hp2 : NumS ≤ FSAend m NumS := hp
        omega
    rw [h4, h5, hmin]
    exact ⟨rfl, rfl⟩
  · unfold mainRun
    apply sweeps_reads
    rw [(readSystem_sites_log ext (NumS / 2) 1 _).2]
    intro e he k hk
    simp only [List.mem_append, List.mem_singleton] at he
    rcases he with he | he
    · obtain ⟨s, X, h1, -⟩ := hG e he
      subst h1
      simp [IOEvent.readAt] at hk
    · subst he
      simp only [IOEvent.readAt, Option.some.injEq] at hk
      left
      omega

theorem growth_snapshot_dimension_witness :
    1 ≤ 2 ∧
    (∀ e ∈ (growLoop sampleExt 2 8 8 (initState 2)).log,
      ∃ s X, e = IOEvent.ISAwrite s X ∧
        X.n1 = 2 * min (2 ^ (s - 1)) 2 ∧ X.n2 = 2 * min (2 ^ (s - 1)) 2 ∧
        (FSAend 2 8 ≤ s → X.n1 = 2 * 2 ∧ X.n2 = 2 * 2)) ∧
    (∀ e ∈ (mainRun sampleExt 2 8 2).log, ∀ k, e.readAt = some k →
      k = 8 / 2 ∨ FSAend 2 8 ≤ k) :=
  ⟨by decide, growth_snapshot_dimension sampleExt 2 8 2 (by decide)⟩

theorem growPre_steady (ext : Ext K) (m : Nat) (s : MainState K) (hst : ¬ 2 * s.st ≤ m)
    (h : s.truncflag = 3 ∨ s.truncflag = 4) : (growPre ext m s).truncflag = 4 := by
  rcases h with h | h <;>
    simp [growPre, growClamp, growTruncate, growSolve, hst, h]

theorem growPre_fresh (ext : Ext K) (m : Nat) (s : MainState K) (h : s.truncflag = 0) :
    (growPre ext m s).truncflag = 0 ∨ (growPre ext m s).truncflag = 2 := by
  by_cases hst : 2 * s.st ≤ m <;>
    simp [growPre, growClamp, growTruncate, growSolve, hst, h]

theorem growOps_identity_dims (m : Nat) (u : MainState K) (h : u.truncflag = 2) :
    (growOps m u).I2st.n1 = 2 * m ∧ (growOps m u).I2st.n2 = 2 * m := by
  simp [growOps, h, lastSiteOp, Arr2.assign, Arr2.resize]

theorem growStep_truncflag (ext : Ext K) (m : Nat) (s : MainState K) :
    (growStep ext m s).truncflag = (growOps m (growEnlarge (growTransformed ext m s))).truncflag ∧
    (growStep ext m s).I2st = (growOps m (growEnlarge (growTransformed ext m s))).I2st ∧
    (growEnlarge (growTransformed ext m s)).truncflag = (growPre ext m s).truncflag ∧
    (growEnlarge (growTransformed ext m s)).I2st = (growPre ext m s).I2st := by
  have hE := growEnlarge_dims (growTransformed ext m s)
  have hA := growAdvance_dims (growOps m (growEnlarge (growTransformed ext m s)))
  simp only at hE hA
  refine ⟨?_, ?_, ?_, ?_⟩
  · rw [growStep, hA.2.1]
  · rw [growStep, hA.2.2.2.2.2.2.2.2.1]
  · rw [hE.2.1]
    rfl
  · rw [hE.2.2.2.2.2.2.2.2.2.1]
    rfl

theorem growPre_identity (ext : Ext K) (m : Nat) (s : MainState K) :
    (growPre ext m s).I2st = s.I2st := by
  have hC : ∀ t : MainState K, (growClamp m t).I2st = t.I2st := by
    intro t
    unfold growClamp
    split_ifs <;> simp
  have hT : ∀ t : MainState K, (growTruncate ext m t).I2st = t.I2st := by
    intro t
    unfold growTruncate
    split_ifs <;> simp
  rw [growPre, hC, hT]
  rfl

/-- From a state after the first truncating iteration (`truncflag ≥ 3`), a growth iteration
leaves `st = m`, sets `truncflag = 4` and does not touch `I2st`. -/
theorem growStep_steady (ext : Ext K) (m : Nat) (hm : 1 ≤ m) (s : MainState K)
    (h : DimInv m s) (h3 : 3 ≤ s.truncflag) :
    s.st = m ∧ (growStep ext m s).st = m ∧ (growStep ext m s).truncflag = 4 ∧
    (growStep ext m s).I2st = s.I2st := by
  obtain ⟨h34, hst, -⟩ : (s.truncflag = 3 ∨ s.truncflag = 4) ∧ s.st = m ∧ _ := by
    rcases h.flag with h0 | h'
    · omega
    · exact h'
  have hT := growTransformed_dims ext m hm s h
  simp only at hT
  obtain ⟨f1, f2, f3, f4⟩ := growStep_truncflag ext m s
  have hp := growPre_steady ext m s (by omega) h34
  have hu : 3 ≤ (growEnlarge (growTransformed ext m s)).truncflag := by
    rw [f3, hp]
    decide
  have hO := ((growOps_dims m (growEnlarge (growTransformed ext m s))).2.2.2.2.2.2.2.2.2.2.2.2.2.2.1) hu
  refine ⟨hst, ?_, ?_, ?_⟩
  · rw [growStep_st, hT.1, keepCount, if_neg (by omega)]
  · rw [f1, hO, f3, hp]
  · rw [f2, hO, f4, growPre_identity]

theorem growIter_identity_dims (ext : Ext K) (m : Nat) (hm : 1 ≤ m) :
    ∀ n, 3 ≤ (growIter ext m n).truncflag →
      (growIter ext m n).I2st.n1 = 2 * m ∧ (growIter ext m n).I2st.n2 = 2 * m := by
  intro n
  induction n with
  | zero =>
    intro h
    simp [growIter, initState] at h
  | succ n ih =>
    intro h
    have hd := dimInv_growIter ext m hm n
    by_cases h3 : 3 ≤ (growIter ext m n).truncflag
    · rw [growIter, (growStep_steady ext m hm _ hd h3).2.2.2]
      exact ih h3
    · have h0 : (growIter ext m n).truncflag = 0 := by
        rcases hd.flag with h0 | ⟨h34, -⟩
        · exact h0
        · omega
      obtain ⟨f1, f2, f3, f4⟩ := growStep_truncflag ext m (growIter ext m n)
      have hO := growOps_dims m (growEnlarge (growTransformed ext m (growIter ext m n)))
      simp only at hO
      rw [growIter, f1] at h
      rcases growPre_fresh ext m _ h0 with hp | hp
      · have := (hO.2.2.2.2.2.2.2.2.2.2.2.2.1 (by rw [f3, hp]; decide)).1
        rw [this, f3, hp] at h
        omega
      · rw [growIter, f2]
        exact growOps_identity_dims m _ (by rw [f3, hp])

/-- C20, as stated, fails: for `m = 2` the first iteration truncates, and the states
entering the iterations 1, 2 and 3 are in the steady truncated state (`truncflag` 3 or 4,
`st = m`) with `I2st` of dimension 4 each time: it does not grow. -/
theorem identity_does_not_grow :
    (growIter sampleExt 2 1).truncflag = 3 ∧ (growIter sampleExt 2 2).truncflag = 4 ∧
    (growIter sampleExt 2 3).truncflag = 4 ∧
    (growIter sampleExt 2 1).st = 2 ∧ (growIter sampleExt 2 2).st = 2 ∧
    (growIter sampleExt 2 3).st = 2 ∧
    (growIter sampleExt 2 1).I2st.n1 = 4 ∧ (growIter sampleExt 2 2).I2st.n1 = 4 ∧
    (growIter sampleExt 2 3).I2st.n1 = 4 ∧
    ¬ (growIter sampleExt 2 2).I2st.n1 < (growIter sampleExt 2 3).I2st.n1 :=
  ⟨rfl, rfl, rfl, rfl, rfl, rfl, rfl, rfl, rfl, by decide⟩

/-- C20, amended. For every `m ≥ 1`, in every growth iteration after the first truncating
one (the state entering it has `truncflag ≥ 3`), the block basis dimension `st` is `m`
before and after the iteration, and the identity bookkeeping matrix `I2st` is left as it
is: it stays the `2m × 2m` identity. -/
theorem steady_identity_fixed (ext : Ext K) (m : Nat) (hm : 1 ≤ m) (n : Nat)
    (h : 3 ≤ (growIter ext m n).truncflag) :
    (growIter ext m n).st = m ∧ (growIter ext m (n + 1)).st = m ∧
    3 ≤ (growIter ext m (n + 1)).truncflag ∧
    (growIter ext m (n + 1)).I2st = (growIter ext m n).I2st ∧
    (growIter ext m n).I2st.n1 = 2 * m ∧ (growIter ext m n).I2st.n2 = 2 * m ∧
    ∀ a b, a < 2 * m → b < 2 * m → (growIter ext m n).I2st.v a b = if a = b then 1 else 0 := by
  have hd := dimInv_growIter ext m hm n
  obtain ⟨s1, s2, s3, s4⟩ := growStep_steady ext m hm _ hd h
  obtain ⟨d1, d2⟩ := growIter_identity_dims ext m hm n h
  refine ⟨s1, s2, ?_, s4, d1, d2, ?_⟩
  · rw [growIter, s3]
    decide
  · intro a b ha hb
    exact hd.ident a b (by rw [s1]; exact ha) (by rw [s1]; exact hb)

theorem steady_identity_fixed_witness :
    1 ≤ 2 ∧ 3 ≤ (growIter sampleExt 2 1).truncflag ∧
    (growIter sampleExt 2 2).I2st = (growIter sampleExt 2 1).I2st ∧
    (growIter sampleExt 2 1).I2st.n1 = 2 * 2 :=
  ⟨by decide, by decide,
    (steady_identity_fixed sampleExt 2 (by decide) 1 (by decide)).2.2.2.1,
    (steady_identity_fixed sampleExt 2 (by decide) 1 (by decide)).2.2.2.2.1⟩

/-! ## Symmetry -/

theorem Sz_symm (a b : Nat) : (Sz : Arr2 K).v a b = (Sz : Arr2 K).v b a := by
  simp only [Sz]
  by_cases h1 : a = 0 ∧ b = 0
  · simp [h1.1, h1.2]
  · by_cases h2 : a = 1 ∧ b = 1
    · simp [h2.1, h2.2]
    · have h3 : ¬ (b = 0 ∧ a = 0) := fun h => h1 ⟨h.2, h.1⟩
      have h4 : ¬ (b = 1 ∧ a = 1) := fun h => h2 ⟨h.2, h.1⟩
      simp [h1, h2, h3, h4]

theorem Sp_Sm_transpose (a b : Nat) : (Sp : Arr2 K).v a b = (Sm : Arr2 K).v b a := by
  simp only [Sp, Sm]
  by_cases h1 : a = 0 ∧ b = 1
  · simp [h1.1, h1.2]
  · have h3 : ¬ (b = 1 ∧ a = 0) := fun h => h1 ⟨h.2, h.1⟩
    simp [h1, h3]

theorem identArr_symm (n a b : Nat) : (identArr n : Arr2 K).v a b = (identArr n : Arr2 K).v b a := by
  simp only [identArr]
  by_cases h1 : a = b
  · subst h1
    rfl
  · have h2 : ¬ b = a := fun h => h1 h.symm
    simp [h1, h2]

theorem similarBy_transpose (k d : Nat) (O X X2 Y Y2 : Nat → Nat → K)
    (h1 : SimilarBy k d O X Y) (h2 : SimilarBy k d O X2 Y2)
    (hX : ∀ a b, a < d → b < d → X a b = X2 b a) :
    ∀ a b, a < k → b < k → Y a b = Y2 b a := by
  have hXm : toMatrix d d X = (toMatrix d d X2).transpose := by
    ext a b
    simp only [toMatrix, Matrix.transpose_apply]
    exact hX a.val b.val a.isLt b.isLt
  have hY : toMatrix k k Y = (toMatrix k k Y2).transpose := by
    rw [h1, h2, hXm, Matrix.transpose_mul, Matrix.transpose_mul, Matrix.transpose_transpose,
      Matrix.mul_assoc]
  intro a b ha hb
  have := congrFun (congrFun hY ⟨a, ha⟩) ⟨b, hb⟩
  simpa [toMatrix, Matrix.transpose_apply] using this

/-- The enlargement expression is symmetric under the exchange of `(i,j)` with `(k,l)` when
the transformed operators are symmetric, respectively transposes of each other. -/
theorem enlarged_symm (t : MainState K) (d : Nat)
    (hH : ∀ a b, a < d → b < d → t.HAp.v a b = t.HAp.v b a)
    (hZ : ∀ a b, a < d → b < d → t.SzB.v a b = t.SzB.v b a)
    (hP : ∀ a b, a < d → b < d → t.SpB.v a b = t.SmB.v b a)
    (i j k l : Nat) (hi : i < d) (hk : k < d) :
    enlarged t i j k l = enlarged t k l i j := by
  unfold enlarged
  have hI : (I2 : Arr2 K).v j l = (I2 : Arr2 K).v l j := identArr_symm 2 j l
  rw [hH i k hi hk, hZ i k hi hk, hP i k hi hk, hP k i hk hi, hI,
    Sz_symm j l, Sp_Sm_transpose j l, ← Sp_Sm_transpose l j]
  ring

/-- The superblock expression is symmetric under the exchange of `(i,j)` with `(k,l)` when
the blocks and the boundary operators are symmetric, respectively transposes. -/
theorem superblock_symm (A B : Arr2 K) (s : MainState K) (d : Nat)
    (hA : ∀ a b, a < d → b < d → A.v a b = A.v b a)
    (hB : ∀ a b, a < d → b < d → B.v a b = B.v b a)
    (hI : ∀ a b, a < d → b < d → s.I2st.v a b = if a = b then 1 else 0)
    (hZ : ∀ a b, a < d → b < d → s.SzAB.v a b = s.SzAB.v b a)
    (hP : ∀ a b, a < d → b < d → s.SpAB.v a b = s.SmAB.v b a)
    (i j k l : Nat) (hi : i < d) (hj : j < d) (hk : k < d) (hl : l < d) :
    superblock A B s i j k l = superblock A B s k l i j := by
  unfold superblock
  rw [hA i k hi hk, hB j l hj hl, hZ i k hi hk, hZ j l hj hl, hP i k hi hk, hP j l hj hl,
    hP k i hk hi, hP l j hl hj, hI i k hi hk, hI j l hj hl, hI k i hk hi, hI l j hl hj]
  have e1 : (if i = k then (1 : K) else 0) = if k = i then 1 else 0 := by
    by_cases h : i = k
    · subst h; rfl
    · have h2 : ¬ k = i := fun e => h e.symm
      simp [h, h2]
  have e2 : (if j = l then (1 : K) else 0) = if l = j then 1 else 0 := by
    by_cases h : j = l
    · subst h; rfl
    · have h2 : ¬ l = j := fun e => h e.symm
      simp [h, h2]
  rw [e1, e2]
  ring

theorem symInv_init (m : Nat) : SymInv (2 * 2) (initState m : MainState K) := by
  constructor
  · intro a b _ _
    simp only [initState, H12, reduceM2M2, TSR12]
    rw [Sz_symm (a / 2) (b / 2), Sz_symm (a % 2) (b % 2), Sp_Sm_transpose (a / 2) (b / 2),
      Sp_Sm_transpose (a % 2) (b % 2), Sp_Sm_transpose (b / 2) (a / 2),
      Sp_Sm_transpose (b % 2) (a % 2)]
    ring
  · intro a b _ _
    simp only [initState, firstSiteOp, reduceM2M2, I2]
    rw [Sz_symm (a / 2) (b / 2), identArr_symm 2 (a % 2) (b % 2)]
  · intro a b _ _
    simp only [initState, firstSiteOp, reduceM2M2, I2]
    rw [Sp_Sm_transpose (a / 2) (b / 2), identArr_symm 2 (a % 2) (b % 2)]

theorem growEnlarge_hab_v (t : MainState K) :
    (growEnlarge t).blkS_HAB.v = fun r c => enlarged t (r / 2) (r % 2) (c / 2) (c % 2) := rfl

theorem sweepStep_hab_v (ext : Ext K) (m NumS iter : Nat) (s : MainState K) :
    (sweepStep ext m NumS iter s).blkS_HAB.v =
      fun r c => enlarged (sweepTransformed ext m NumS iter s) (r / 2) (r % 2) (c / 2) (c % 2) :=
  rfl

/-- The boundary operators made by lines 186-207 are `I ⊗ S` for an identity `I`. -/
theorem growOps_ops (m : Nat) (u : MainState K) (h : u.truncflag < 3) :
    ∃ n : Nat,
      (growOps m u).SzAB.v =
        (fun r c => (identArr n : Arr2 K).v (r / 2) (c / 2) * (Sz : Arr2 K).v (r % 2) (c % 2)) ∧
      (growOps m u).SpAB.v =
        (fun r c => (identArr n : Arr2 K).v (r / 2) (c / 2) * (Sp : Arr2 K).v (r % 2) (c % 2)) ∧
      (growOps m u).SmAB.v =
        (fun r c => (identArr n : Arr2 K).v (r / 2) (c / 2) * (Sm : Arr2 K).v (r % 2) (c % 2)) := by
  by_cases h2 : u.truncflag = 2
  · refine ⟨2 * m, ?_, ?_, ?_⟩ <;>
      simp [growOps, h2, lastSiteOp, reduceM2M2, Arr2.assign, Arr2.resize, Arr4.assign, I2m]
  · refine ⟨4 * u.st, ?_, ?_, ?_⟩ <;>
      simp [growOps, h, h2, lastSiteOp, reduceM2M2, Arr2.assign, Arr2.resize, Arr4.assign]

theorem half_lt (r d : Nat) (h : r < 2 * d) : r / 2 < d := by omega

theorem symInv_growStep (ext : Ext K) (m : Nat) (hm : 1 ≤ m) (s : MainState K)
    (h : DimInv m s) (hs : SymInv (2 * s.st) s) :
    SymInv (2 * (growStep ext m s).st) (growStep ext m s) := by
  have hT := growTransformed_dims ext m hm s h
  have hE := growEnlarge_dims (growTransformed ext m s)
  have hO := growOps_dims m (growEnlarge (growTransformed ext m s))
  have hA := growAdvance_dims (growOps m (growEnlarge (growTransformed ext m s)))
  simp only at hT hE hO hA
  obtain ⟨-, -, -, -, g1, g2, g3, g4⟩ := growTransformed_similar ext m hm s h
  have hst : (growStep ext m s).st = keepCount m s := by rw [growStep_st, hT.1]
  have hH := similarBy_transpose _ _ _ _ _ _ _ g1 g1 hs.hab
  have hZ := similarBy_transpose _ _ _ _ _ _ _ g2 g2 hs.sz
  have hP := similarBy_transpose _ _ _ _ _ _ _ g3 g4 hs.spm
  have hab : ∀ a b, a < 2 * (growStep ext m s).st → b < 2 * (growStep ext m s).st →
      (growStep ext m s).blkS_HAB.v a b = (growStep ext m s).blkS_HAB.v b a := by
    intro a b ha hb
    rw [hst] at ha hb
    have e : (growStep ext m s).blkS_HAB = (growEnlarge (growTransformed ext m s)).blkS_HAB := by
      rw [growStep, hA.2.2.2.2.1, hO.2.2.2.1]
    rw [e, growEnlarge_hab_v]
    exact enlarged_symm _ (keepCount m s) hH hZ hP _ _ _ _ (half_lt a _ ha) (half_lt b _ hb)
  have ez : (growStep ext m s).SzAB = (growOps m (growEnlarge (growTransformed ext m s))).SzAB := by
    rw [growStep, hA.2.2.2.2.2.1]
  have ep : (growStep ext m s).SpAB = (growOps m (growEnlarge (growTransformed ext m s))).SpAB := by
    rw [growStep, hA.2.2.2.2.2.2.1]
  have em : (growStep ext m s).SmAB = (growOps m (growEnlarge (growTransformed ext m s))).SmAB := by
    rw [growStep, hA.2.2.2.2.2.2.2.1]
  obtain ⟨-, -, f3, -⟩ := growStep_truncflag ext m s
  rcases h.flag with h0 | ⟨h34, hsm, -⟩
  · have hu : (growEnlarge (growTransformed ext m s)).truncflag < 3 := by
      rw [f3]
      rcases growPre_fresh ext m s h0 with hp | hp <;> rw [hp] <;> decide
    obtain ⟨n, o1, o2, o3⟩ := growOps_ops m _ hu
    refine ⟨hab, ?_, ?_⟩
    · intro a b _ _
      rw [ez, o1]
      show _ * _ = _ * _
      rw [identArr_symm n (a / 2) (b / 2), Sz_symm (a % 2) (b % 2)]
    · intro a b _ _
      rw [ep, em, o2, o3]
      show _ * _ = _ * _
      rw [identArr_symm n (a / 2) (b / 2), Sp_Sm_transpose (a % 2) (b % 2)]
  · have hu : 3 ≤ (growEnlarge (growTransformed ext m s)).truncflag := by
      rw [f3, growPre_steady ext m s (by omega) h34]
      decide
    have hw := hO.2.2.2.2.2.2.2.2.2.2.2.2.2.2.1 hu
    have hst2 : (growStep ext m s).st = s.st := by
      rw [(growStep_steady ext m hm s h (by omega)).2.1, hsm]
    refine ⟨hab, ?_, ?_⟩
    · intro a b ha hb
      rw [hst2] at ha hb
      rw [ez, hw, hE.2.2.2.2.2.2.1, hT.2.2.2.2.2.2.2.2.2.2.2.2.2.2.1]
      exact hs.sz a b ha hb
    · intro a b ha hb
      rw [hst2] at ha hb
      rw [ep, em, hw, hE.2.2.2.2.2.2.2.1, hE.2.2.2.2.2.2.2.2.1,
        hT.2.2.2.2.2.2.2.2.2.2.2.2.2.2.2.1, hT.2.2.2.2.2.2.2.2.2.2.2.2.2.2.2.2.1]
      exact hs.spm a b ha hb

theorem symInv_growIter (ext : Ext K) (m : Nat) (hm : 1 ≤ m) :
    ∀ n, SymInv (2 * (growIter ext m n).st) (growIter ext m n) := by
  intro n
  induction n with
  | zero => exact symInv_init m
  | succ n ih => exact symInv_growStep ext m hm _ (dimInv_growIter ext m hm n) ih

theorem symInv_sweepStep (ext : Ext K) (m NumS iter : Nat) (s : MainState K)
    (hO : s.OO.n2 = 2 * m) (hH : s.blkS_HAB.n2 = 2 * m) (hz : s.SzAB.n2 = 2 * m)
    (hp : s.SpAB.n2 = 2 * m) (hsm : s.SmAB.n2 = 2 * m) (hs : SymInv (2 * m) s) :
    SymInv (2 * m) (sweepStep ext m NumS iter s) := by
  obtain ⟨-, -, g1, g2, g3, g4⟩ := sweepTransformed_similar ext m NumS iter s hO hH hz hp hsm
  have h1 := similarBy_transpose _ _ _ _ _ _ _ g1 g1 hs.hab
  have h2 := similarBy_transpose _ _ _ _ _ _ _ g2 g2 hs.sz
  have h3 := similarBy_transpose _ _ _ _ _ _ _ g3 g4 hs.spm
  refine ⟨?_, hs.sz, hs.spm⟩
  intro a b ha hb
  rw [sweepStep_hab_v]
  exact enlarged_symm _ m h1 h2 h3 _ _ _ _ (half_lt a _ ha) (half_lt b _ hb)

/-! ## The states of the sweep phase -/

theorem lastWritten_mem (log : List (IOEvent K)) (n : Nat) :
    n ∈ writtenSites log →
      ∃ X, lastWritten log n = some X ∧ ∃ e ∈ log, e.written = some n ∧ e.block = some X := by
  induction log with
  | nil =>
    intro h
    simp [writtenSites] at h
  | cons e rest ih =>
    intro h
    have hc : n ∈ writtenSites ([e] ++ rest) := h
    rw [mem_writtenSites_append] at hc
    unfold lastWritten
    rcases hr : lastWritten rest n with _ | X
    · have hnr : n ∉ writtenSites rest := by
        intro hin
        obtain ⟨X, hX, -⟩ := ih hin
        rw [hr] at hX
        exact Option.noConfusion hX
      rcases hc with hc | hc
      · cases e with
        | ISAwrite s X =>
          have he : (IOEvent.ISAwrite s X).written = some n := by
            simp only [writtenSites, List.filterMap, IOEvent.written, List.mem_singleton] at hc
            rw [hc]
            rfl
          exact ⟨X, by simp [he, IOEvent.block], _, List.mem_cons_self _ _, he, rfl⟩
        | FSAwrite s t X =>
          have he : (IOEvent.FSAwrite s t X).written = some n := by
            simp only [writtenSites, List.filterMap, IOEvent.written, List.mem_singleton] at hc
            rw [hc]
            rfl
          exact ⟨X, by simp [he, IOEvent.block], _, List.mem_cons_self _ _, he, rfl⟩
        | FSAread s t => simp [writtenSites, List.filterMap, IOEvent.written] at hc
      · exact absurd hc hnr
    · have hin : n ∈ writtenSites rest := by
        by_contra hnot
        have : ∀ l : List (IOEvent K), n ∉ writtenSites l → lastWritten l n = none := by
          intro l
          induction l with
          | nil => intro _; rfl
          | cons a l ihl =>
            intro hl
            have hl2 : n ∉ writtenSites ([a] ++ l) := hl
            rw [mem_writtenSites_append] at hl2
            push_neg at hl2
            unfold lastWritten
            rw [ihl hl2.2]
            have ha : ¬ a.written = some n := by
              intro ha
              apply hl2.1
              simp [writtenSites, List.filterMap, ha]
            rw [if_neg ha]
        rw [this rest hnot] at hr
        exact Option.noConfusion hr
      obtain ⟨Y, hY, e', he', h1, h2⟩ := ih hin
      rw [hr] at hY
      injection hY with hY
      subst hY
      exact ⟨X, rfl, e', List.mem_cons_of_mem _ he', h1, h2⟩

theorem readsWritten_echoExt : ReadsWritten (echoExt : Ext K) := by
  intro log n tag hn
  obtain ⟨X, hX, e, he, h1, h2⟩ := lastWritten_mem log n hn
  refine ⟨e, he, h1, ?_⟩
  rw [h2]
  show some X = some ((lastWritten log n).getD _)
  rw [hX]
  rfl

theorem sweepStep_frame (ext : Ext K) (m NumS iter : Nat) (s : MainState K) :
    (sweepStep ext m NumS iter s).st = s.st ∧
    (sweepStep ext m NumS iter s).SzAB = s.SzAB ∧
    (sweepStep ext m NumS iter s).SpAB = s.SpAB ∧
    (sweepStep ext m NumS iter s).SmAB = s.SmAB ∧
    (sweepStep ext m NumS iter s).I2st = s.I2st ∧
    (sweepStep ext m NumS iter s).OO.n1 = s.OO.n1 ∧
    (sweepStep ext m NumS iter s).OO.n2 = s.OO.n2 ∧
    (sweepStep ext m NumS iter s).blkS_HAB.n1 = s.blkS_HAB.n1 ∧
    (sweepStep ext m NumS iter s).blkS_HAB.n2 = s.blkS_HAB.n2 ∧
    (sweepStep ext m NumS iter s).log =
      s.log ++ [IOEvent.FSAread (NumS - s.sites) iter] ++
        [IOEvent.FSAwrite (s.sites + 1) iter (sweepStep ext m NumS iter s).blkS_HAB] :=
  ⟨rfl, rfl, rfl, rfl, rfl, rfl, rfl, rfl, rfl, rfl⟩

theorem sweepFrame_refl (g : MainState K) : SweepFrame g g :=
  ⟨rfl, rfl, rfl, rfl, rfl, rfl, rfl⟩

theorem sweepFrame_sweepStep (ext : Ext K) (m NumS iter : Nat) (g s : MainState K)
    (h : SweepFrame g s) : SweepFrame g (sweepStep ext m NumS iter s) := by
  obtain ⟨f1, f2, f3, f4, f5, f6, f7, -⟩ := sweepStep_frame ext m NumS iter s
  exact ⟨f1.trans h.st, f2.trans h.sz, f3.trans h.sp, f4.trans h.sm, f5.trans h.ident,
    f6.trans h.oo1, f7.trans h.oo2⟩

theorem sweepFrame_readSystem (ext : Ext K) (n tag : Nat) (g s : MainState K)
    (h : SweepFrame g s) : SweepFrame g (readSystem ext n tag s) :=
  ⟨h.st, h.sz, h.sp, h.sm, h.ident, h.oo1, h.oo2⟩

theorem sweepFrame_sweepLoop (ext : Ext K) (m NumS F iter : Nat) (g : MainState K) :
    ∀ (fuel : Nat) (s : MainState K), SweepFrame g s →
      SweepFrame g (sweepLoop ext m NumS F iter fuel s) := by
  intro fuel
  induction fuel with
  | zero => intro s h; exact h
  | succ fuel ih =>
    intro s h
    rw [sweepLoop]
    split_ifs
    · exact ih _ (sweepFrame_sweepStep ext m NumS iter g s h)
    · exact h

theorem sweepFrame_sweepStart (ext : Ext K) (m NumS : Nat) :
    ∀ iter, SweepFrame (growLoop ext m NumS NumS (initState m)) (sweepStart ext m NumS iter) := by
  intro iter
  induction iter with
  | zero => exact sweepFrame_readSystem ext _ _ _ _ (sweepFrame_refl _)
  | succ iter ih =>
    exact sweepFrame_readSystem ext _ _ _ _ (sweepFrame_sweepLoop ext m NumS _ iter _ _ _ ih)

theorem sweepFrame_sweepAt (ext : Ext K) (m NumS iter : Nat) :
    ∀ k, SweepFrame (growLoop ext m NumS NumS (initState m)) (sweepAt ext m NumS iter k) := by
  intro k
  induction k with
  | zero => exact sweepFrame_sweepStart ext m NumS iter
  | succ k ih =>
    unfold sweepAt at ih ⊢
    rw [Function.iterate_succ_apply']
    exact sweepFrame_sweepStep ext m NumS iter _ _ ih

theorem logDims_append (m : Nat) (l1 l2 : List (IOEvent K)) (h1 : LogDims m l1)
    (h2 : LogDims m l2) : LogDims m (l1 ++ l2) := by
  intro e he
  rcases List.mem_append.mp he with h | h
  · exact h1 e h
  · exact h2 e h

theorem logDims_read (m n tag : Nat) : LogDims m ([IOEvent.FSAread n tag] : List (IOEvent K)) := by
  intro e he k X _ hb
  rw [List.mem_singleton] at he
  subst he
  exact Option.noConfusion hb

theorem pow_pred_le (m s : Nat) (h1 : 1 ≤ s) (h : m ≤ 2 ^ (s - 1)) : m ≤ 2 ^ (s + 1 - 1) := by
  have : 2 ^ (s - 1) ≤ 2 ^ (s + 1 - 1) := Nat.pow_le_pow_right (by decide) (by omega)
  omega

theorem sweepDims_sweepStep (ext : Ext K) (m NumS iter : Nat) (s : MainState K)
    (h : SweepDims m NumS s) : SweepDims m NumS (sweepStep ext m NumS iter s) := by
  obtain ⟨-, -, -, -, -, -, -, f8, f9, f10⟩ := sweepStep_frame ext m NumS iter s
  have hs : (sweepStep ext m NumS iter s).sites = s.sites + 1 := rfl
  have h2 := pow_pred_le m s.sites h.sites1 h.sites2
  refine ⟨f8.trans h.hab1, f9.trans h.hab2, by rw [hs]; omega, by rw [hs]; exact h2, ?_, ?_⟩
  · rw [f10]
    refine logDims_append m _ _ (logDims_append m _ _ h.dims (logDims_read m _ _)) ?_
    intro e he k X hk hb
    rw [List.mem_singleton] at he
    subst he
    simp only [IOEvent.written, Option.some.injEq] at hk
    simp only [IOEvent.block, Option.some.injEq] at hb
    subst hk
    subst hb
    rw [f8, f9, h.hab1, h.hab2, min_eq_right h2]
    exact ⟨rfl, rfl⟩
  · rw [f10, List.append_assoc]
    exact writtenUpTo_mono _ _ _ _ le_rfl h.written

theorem sweepDims_sweepLoop (ext : Ext K) (m NumS F iter : Nat) :
    ∀ (fuel : Nat) (s : MainState K), SweepDims m NumS s →
      SweepDims m NumS (sweepLoop ext m NumS F iter fuel s) := by
  intro fuel
  induction fuel with
  | zero => intro s h; exact h
  | succ fuel ih =>
    intro s h
    rw [sweepLoop]
    split_ifs
    · exact ih _ (sweepDims_sweepStep ext m NumS iter s h)
    · exact h

/-- A read of the system block under a site count `n` with `m ≤ 2^(n-1)` that was written
gives a block of dimension `2m`. -/
theorem sweepDims_readSystem (ext : Ext K) (hr : ReadsWritten ext) (m NumS n tag : Nat)
    (s : MainState K) (hd : LogDims m s.log) (hw : WrittenUpTo (NumS / 2 + 1) s.log)
    (h3 : 3 ≤ n) (hn : n ≤ NumS / 2 + 1) (hm : m ≤ 2 ^ (n - 1)) :
    SweepDims m NumS (readSystem ext n tag s) := by
  obtain ⟨e, he, h1, h2⟩ := hr s.log n tag (hw n h3 hn)
  obtain ⟨d1, d2⟩ := hd e he n _ h1 h2
  rw [min_eq_right hm] at d1 d2
  refine ⟨d1, d2, ?_, hm, ?_, ?_⟩
  · show 1 ≤ n
    omega
  · exact logDims_append m _ _ hd (logDims_read m _ _)
  · exact writtenUpTo_mono _ _ _ _ le_rfl hw

theorem growStep_OO (ext : Ext K) (m : Nat) (s : MainState K) :
    (growStep ext m s).OO = (growTransformed ext m s).OO := by
  have hE := growEnlarge_dims (growTransformed ext m s)
  have hO := growOps_dims m (growEnlarge (growTransformed ext m s))
  have hA := growAdvance_dims (growOps m (growEnlarge (growTransformed ext m s)))
  simp only at hE hO hA
  rw [growStep, hA.2.2.2.2.2.2.2.2.2.2.2.2.2.1, hO.2.2.2.2.2.2.2.2.1,
    hE.2.2.2.2.2.2.2.2.2.2.2.2.2.2.1]

theorem growIter_logSym (ext : Ext K) (m : Nat) (hm : 1 ≤ m) :
    ∀ n, LogSym (growIter ext m n).log := by
  intro n
  induction n with
  | zero =>
    intro e he
    simp [growIter, initState] at he
  | succ n ih =>
    intro e he X hX a b ha hb
    rw [growIter, growStep_log, List.mem_append, List.mem_singleton] at he
    rcases he with he | he
    · exact ih e he X hX a b ha hb
    · subst he
      simp only [IOEvent.block, Option.some.injEq] at hX
      subst hX
      have hd := dimInv_growIter ext m hm (n + 1)
      have hs := symInv_growIter ext m hm (n + 1)
      rw [growIter] at hd hs
      rw [hd.hab1] at ha hb
      exact hs.hab a b ha hb

/-- The state at the end of the growth phase of a run with `NumS ≥ 6` and
`1 ≤ m ≤ 2^(NumS/2-1)`: `st = m`, the array `OO` is `m × 2m`, the snapshots written have
the extents of `LogDims` and are symmetric, and the site counts `3..NumS/2+1` are written. -/
theorem growEnd_facts (ext : Ext K) (m NumS : Nat) (hm : 1 ≤ m) (hN : 6 ≤ NumS)
    (hle : m ≤ 2 ^ (NumS / 2 - 1)) :
    (growLoop ext m NumS NumS (initState m)).st = m ∧
    (growLoop ext m NumS NumS (initState m)).OO.n1 = m ∧
    (growLoop ext m NumS NumS (initState m)).OO.n2 = 2 * m ∧
    (growLoop ext m NumS NumS (initState m)).sites = NumS / 2 + 1 ∧
    DimInv m (growLoop ext m NumS NumS (initState m)) ∧
    SymInv (2 * m) (growLoop ext m NumS NumS (initState m)) ∧
    LogDims m (growLoop ext m NumS NumS (initState m)).log ∧
    LogSym (growLoop ext m NumS NumS (initState m)).log ∧
    WrittenUpTo (NumS / 2 + 1) (growLoop ext m NumS NumS (initState m)).log := by
  obtain ⟨t, ht⟩ : ∃ t, NumS / 2 - 1 = t + 2 := ⟨NumS / 2 - 3, by omega⟩
  have hg : growLoop ext m NumS NumS (initState m) = growIter ext m (t + 2) := by
    rw [growLoop_eq_growIter ext m NumS NumS (by omega), ht]
  have hp : NumS / 2 - 1 = t + 2 := ht
  rw [hp] at hle
  have hpow : 2 ^ (t + 2) ≤ 2 ^ (t + 1 + 2) := Nat.pow_le_pow_right (by decide) (by omega)
  have hst : (growIter ext m (t + 2)).st = m := by
    rw [growIter_st ext m hm (t + 1)]
    exact min_eq_right (le_trans hle hpow)
  have hst1 : (growIter ext m (t + 1)).st = m := by
    rw [growIter_st ext m hm t]
    exact min_eq_right hle
  have hT := growTransformed_dims ext m hm _ (dimInv_growIter ext m hm (t + 1))
  simp only at hT
  obtain ⟨k1, -, -, -, -, -, -, -, -, o1, o2, -⟩ := hT
  have hk : keepCount m (growIter ext m (t + 1)) = m := by
    rw [keepCount, hst1, if_neg (by omega)]
  have hOO : (growIter ext m (t + 2)).OO = (growTransformed ext m (growIter ext m (t + 1))).OO := by
    rw [growIter, growStep_OO]
  have hsites : (growIter ext m (t + 2)).sites = NumS / 2 + 1 := by
    rw [growIter_sites]
    omega
  have hd := dimInv_growIter ext m hm (t + 2)
  have hs := symInv_growIter ext m hm (t + 2)
  rw [hst] at hs
  rw [hg]
  refine ⟨hst, ?_, ?_, hsites, hd, hs, ?_, growIter_logSym ext m hm _, ?_⟩
  · rw [hOO, o1, k1, hk]
  · rw [hOO, o2, hst1]
  · intro e he n X hn hX
    obtain ⟨s, Y, h1, -, -, h4, h5⟩ := growIter_log_dims ext m hm (t + 2) e he
    subst h1
    simp only [IOEvent.written, Option.some.injEq] at hn
    simp only [IOEvent.block, Option.some.injEq] at hX
    subst hn
    subst hX
    exact ⟨h4, h5⟩
  · obtain ⟨-, w, -⟩ := growLoop_covered ext m NumS NumS (initState m) readsCovered_nil
      (fun k h3 hk => by
        have : (initState m : MainState K).sites = 2 := rfl
        omega)
      (by
        have : (initState m : MainState K).sites = 2 := rfl
        omega)
    rw [hg] at w
    rw [hsites] at w
    exact w

theorem fsaEnd_bounds (m NumS : Nat) (hN : 6 ≤ NumS) (hle : m ≤ 2 ^ (NumS / 2 - 1)) :
    3 ≤ FSAend m NumS ∧ FSAend m NumS ≤ NumS / 2 ∧ m ≤ 2 ^ (FSAend m NumS - 1) := by
  have h3 : 3 ≤ FSAend m NumS := fsaEndLoop_ge m NumS NumS 3
  have hp : 2 ^ (NumS / 2) = 2 * 2 ^ (NumS / 2 - 1) := by
    obtain ⟨t, ht⟩ : ∃ t, NumS / 2 = t + 1 := ⟨NumS / 2 - 1, by omega⟩
    rw [ht, pow_succ, Nat.add_sub_cancel, Nat.mul_comm]
  have hle2 : FSAend m NumS ≤ NumS / 2 :=
    fsaEndLoop_le m NumS (NumS / 2) (by omega) (by rw [hp]; omega) NumS 3 (by omega) (by omega)
  refine ⟨h3, hle2, ?_⟩
  rcases fsaEndLoop_stop m NumS NumS 3 (by omega) with h | h
  · have hF : 2 * m ≤ 2 ^ FSAend m NumS := h
    obtain ⟨t, ht⟩ : ∃ t, FSAend m NumS = t + 1 := ⟨FSAend m NumS - 1, by omega⟩
    rw [ht, pow_succ] at hF
    rw [ht, Nat.add_sub_cancel]
    omega
  · have hF : NumS ≤ FSAend m NumS := h
    omega

/-- The bookkeeping invariant holds on entering every sweep. -/
theorem sweepDims_sweepStart (ext : Ext K) (hr : ReadsWritten ext) (m NumS : Nat)
    (hm : 1 ≤ m) (hN : 6 ≤ NumS) (hle : m ≤ 2 ^ (NumS / 2 - 1)) :
    ∀ iter, SweepDims m NumS (sweepStart ext m NumS iter) := by
  obtain ⟨-, -, -, -, -, -, gd, -, gw⟩ := growEnd_facts ext m NumS hm hN hle
  obtain ⟨f3, fle, fm⟩ := fsaEnd_bounds m NumS hN hle
  intro iter
  induction iter with
  | zero =>
    exact sweepDims_readSystem ext hr m NumS (NumS / 2) 1 _ gd gw (by omega) (by omega) hle
  | succ iter ih =>
    have h := sweepDims_sweepLoop ext m NumS (FSAend m NumS) iter (NumS + 1) _ ih
    exact sweepDims_readSystem ext hr m NumS (FSAend m NumS) iter _ h.dims h.written f3
      (by omega) fm

theorem sweepDims_sweepAt (ext : Ext K) (hr : ReadsWritten ext) (m NumS : Nat)
    (hm : 1 ≤ m) (hN : 6 ≤ NumS) (hle : m ≤ 2 ^ (NumS / 2 - 1)) (iter : Nat) :
    ∀ k, SweepDims m NumS (sweepAt ext m NumS iter k) := by
  intro k
  induction k with
  | zero => exact sweepDims_sweepStart ext hr m NumS hm hN hle iter
  | succ k ih =>
    unfold sweepAt at ih ⊢
    rw [Function.iterate_succ_apply']
    exact sweepDims_sweepStep ext m NumS iter _ ih

/-- The extents the transform block of a sweep step works with, at every state of the
sweep phase of a run with `NumS ≥ 6`, `1 ≤ m ≤ 2^(NumS/2-1)` and reads that return what was
written. -/
theorem sweepAt_extents (ext : Ext K) (hr : ReadsWritten ext) (m NumS : Nat)
    (hm : 1 ≤ m) (hN : 6 ≤ NumS) (hle : m ≤ 2 ^ (NumS / 2 - 1)) (iter k : Nat) :
    (sweepAt ext m NumS iter k).OO.n1 = m ∧
    (sweepAt ext m NumS iter k).OO.n2 = 2 * m ∧
    (sweepAt ext m NumS iter k).blkS_HAB.n1 = 2 * m ∧
    (sweepAt ext m NumS iter k).blkS_HAB.n2 = 2 * m ∧
    (sweepAt ext m NumS iter k).SzAB.n1 = 2 * m ∧
    (sweepAt ext m NumS iter k).SzAB.n2 = 2 * m ∧
    (sweepAt ext m NumS iter k).SpAB.n1 = 2 * m ∧
    (sweepAt ext m NumS iter k).SpAB.n2 = 2 * m ∧
    (sweepAt ext m NumS iter k).SmAB.n1 = 2 * m ∧
    (sweepAt ext m NumS iter k).SmAB.n2 = 2 * m ∧
    (∀ a b, a < 2 * m → b < 2 * m →
      (sweepAt ext m NumS iter k).I2st.v a b = if a = b then 1 else 0) := by
  obtain ⟨gst, go1, go2, -, gd, -, -, -, -⟩ := growEnd_facts ext m NumS hm hN hle
  have hf := sweepFrame_sweepAt ext m NumS iter k
  have hd := sweepDims_sweepAt ext hr m NumS hm hN hle iter k
  have e1 := gd.sz1
  have e2 := gd.sz2
  have e3 := gd.sp1
  have e4 := gd.sp2
  have e5 := gd.sm1
  have e6 := gd.sm2
  have e7 := gd.ident
  rw [gst] at e1 e2 e3 e4 e5 e6 e7
  refine ⟨hf.oo1.trans go1, hf.oo2.trans go2, hd.hab1, hd.hab2, ?_, ?_, ?_, ?_, ?_, ?_, ?_⟩
  · rw [hf.sz]; exact e1
  · rw [hf.sz]; exact e2
  · rw [hf.sp]; exact e3
  · rw [hf.sp]; exact e4
  · rw [hf.sm]; exact e5
  · rw [hf.sm]; exact e6
  · rw [hf.ident]; exact e7

theorem logSym_append (l1 l2 : List (IOEvent K)) (h1 : LogSym l1) (h2 : LogSym l2) :
    LogSym (l1 ++ l2) := by
  intro e he
  rcases List.mem_append.mp he with h | h
  · exact h1 e h
  · exact h2 e h

theorem logSym_read (n tag : Nat) : LogSym ([IOEvent.FSAread n tag] : List (IOEvent K)) := by
  intro e he X hb
  rw [List.mem_singleton] at he
  subst he
  exact Option.noConfusion hb

/-- The symmetry of the operators and of every block written so far is kept by a sweep
step whose operators have the extent `2m`. -/
theorem sweepSym_sweepStep (ext : Ext K) (m NumS iter : Nat) (s : MainState K)
    (hO : s.OO.n2 = 2 * m) (hH1 : s.blkS_HAB.n1 = 2 * m) (hH : s.blkS_HAB.n2 = 2 * m)
    (hz : s.SzAB.n2 = 2 * m) (hp : s.SpAB.n2 = 2 * m) (hsm : s.SmAB.n2 = 2 * m)
    (hs : SymInv (2 * m) s) (hl : LogSym s.log) :
    SymInv (2 * m) (sweepStep ext m NumS iter s) ∧ LogSym (sweepStep ext m NumS iter s).log := by
  have h1 := symInv_sweepStep ext m NumS iter s hO hH hz hp hsm hs
  obtain ⟨-, -, -, -, -, -, -, f8, -, f10⟩ := sweepStep_frame ext m NumS iter s
  refine ⟨h1, ?_⟩
  rw [f10]
  refine logSym_append _ _ (logSym_append _ _ hl (logSym_read _ _)) ?_
  intro e he X hb a b ha hb2
  rw [List.mem_singleton] at he
  subst he
  simp only [IOEvent.block, Option.some.injEq] at hb
  subst hb
  rw [f8, hH1] at ha hb2
  exact h1.hab a b ha hb2

theorem sweepSym_sweepLoop (ext : Ext K) (m NumS F iter : Nat) (g : MainState K)
    (go : g.OO.n2 = 2 * m) (gz : g.SzAB.n2 = 2 * m) (gp : g.SpAB.n2 = 2 * m)
    (gm : g.SmAB.n2 = 2 * m) :
    ∀ (fuel : Nat) (s : MainState K), SweepFrame g s → SweepDims m NumS s →
      SymInv (2 * m) s → LogSym s.log →
      SymInv (2 * m) (sweepLoop ext m NumS F iter fuel s) ∧
        LogSym (sweepLoop ext m NumS F iter fuel s).log := by
  intro fuel
  induction fuel with
  | zero => intro s _ _ hs hl; exact ⟨hs, hl⟩
  | succ fuel ih =>
    intro s hf hd hs hl
    rw [sweepLoop]
    split_ifs
    · have h := sweepSym_sweepStep ext m NumS iter s (hf.oo2.trans go) hd.hab1 hd.hab2
        (by rw [hf.sz]; exact gz) (by rw [hf.sp]; exact gp) (by rw [hf.sm]; exact gm) hs hl
      exact ih _ (sweepFrame_sweepStep ext m NumS iter g s hf)
        (sweepDims_sweepStep ext m NumS iter s hd) h.1 h.2
    · exact ⟨hs, hl⟩

theorem sweepSym_readSystem (ext : Ext K) (hr : ReadsWritten ext) (m n tag : Nat)
    (g s : MainState K) (gs : SymInv (2 * m) g) (hf : SweepFrame g s) (hl : LogSym s.log)
    (hn : n ∈ writtenSites s.log) (hd : (readSystem ext n tag s).blkS_HAB.n1 = 2 * m) :
    SymInv (2 * m) (readSystem ext n tag s) ∧ LogSym (readSystem ext n tag s).log := by
  obtain ⟨e, he, -, h2⟩ := hr s.log n tag hn
  have hX := hl e he _ h2
  have hb : (readSystem ext n tag s).blkS_HAB = ext.FSAread s.log n tag := rfl
  rw [hb] at hd
  refine ⟨⟨?_, ?_, ?_⟩, logSym_append _ _ hl (logSym_read _ _)⟩
  · intro a b ha hb2
    rw [hb]
    rw [← hd] at ha hb2
    exact hX a b ha hb2
  · intro a b ha hb2
    show s.SzAB.v a b = s.SzAB.v b a
    rw [hf.sz]
    exact gs.sz a b ha hb2
  · intro a b ha hb2
    show s.SpAB.v a b = s.SmAB.v b a
    rw [hf.sp, hf.sm]
    exact gs.spm a b ha hb2

/-- Symmetry at every state of the sweep phase of a run with `NumS ≥ 6`,
`1 ≤ m ≤ 2^(NumS/2-1)` and reads that return what was written. -/
theorem sweepSym_sweepAt (ext : Ext K) (hr : ReadsWritten ext) (m NumS : Nat)
    (hm : 1 ≤ m) (hN : 6 ≤ NumS) (hle : m ≤ 2 ^ (NumS / 2 - 1)) :
    ∀ iter k, SymInv (2 * m) (sweepAt ext m NumS iter k) ∧
      LogSym (sweepAt ext m NumS iter k).log := by
  obtain ⟨gst, -, go2, -, gd, gs, gdl, gl, gw⟩ := growEnd_facts ext m NumS hm hN hle
  obtain ⟨f3, fle, fm⟩ := fsaEnd_bounds m NumS hN hle
  have gz := gd.sz2
  have gp := gd.sp2
  have gm := gd.sm2
  rw [gst] at gz gp gm
  have hstart : ∀ iter, SymInv (2 * m) (sweepStart ext m NumS iter) ∧
      LogSym (sweepStart ext m NumS iter).log := by
    intro iter
    induction iter with
    | zero =>
      exact sweepSym_readSystem ext hr m (NumS / 2) 1 _ _ gs (sweepFrame_refl _) gl
        (gw _ (by omega) (by omega)) (sweepDims_sweepStart ext hr m NumS hm hN hle 0).hab1
    | succ iter ih =>
      have hf := sweepFrame_sweepStart ext m NumS iter
      have hd := sweepDims_sweepStart ext hr m NumS hm hN hle iter
      have h := sweepSym_sweepLoop ext m NumS (FSAend m NumS) iter _ go2 gz gp gm (NumS + 1) _
        hf hd ih.1 ih.2
      have hd2 := sweepDims_sweepLoop ext m NumS (FSAend m NumS) iter (NumS + 1) _ hd
      exact sweepSym_readSystem ext hr m (FSAend m NumS) iter _ _ gs
        (sweepFrame_sweepLoop ext m NumS (FSAend m NumS) iter _ (NumS + 1) _ hf) h.2
        (hd2.written _ f3 (by omega)) (sweepDims_sweepStart ext hr m NumS hm hN hle (iter + 1)).hab1
  intro iter k
  induction k with
  | zero => exact hstart iter
  | succ k ih =>
    obtain ⟨-, x2, x3, x4, -, x6, -, x8, -, x10, -⟩ :=
      sweepAt_extents ext hr m NumS hm hN hle iter k
    have e : sweepAt ext m NumS iter (k + 1) =
        sweepStep ext m NumS iter (sweepAt ext m NumS iter k) := by
      unfold sweepAt
      rw [Function.iterate_succ_apply']
    rw [e]
    exact sweepSym_sweepStep ext m NumS iter _ x2 x3 x4 x6 x8 x10 ih.1 ih.2

/-- A sweep step that runs (the loop test holds) is in a run with `NumS ≥ 5` and
`m ≤ 2^(NumS/2)`. -/
theorem sweep_runs_bounds (ext : Ext K) (m NumS iter k : Nat)
    (hrun : (sweepAt ext m NumS iter k).sites + FSAend m NumS ≤ NumS) :
    5 ≤ NumS ∧ m ≤ 2 ^ (NumS / 2) := by
  have hs : (sweepAt ext m NumS iter k).sites = (sweepStart ext m NumS iter).sites + k :=
    sweepStep_iterate_sites ext m NumS iter _ k
  rw [hs, sweepStart_sites] at hrun
  have h3 : 3 ≤ FSAend m NumS := fsaEndLoop_ge m NumS NumS 3
  have hF : FSAend m NumS ≤ NumS / 2 + 1 ∧ 5 ≤ NumS := by
    split_ifs at hrun <;> omega
  rcases fsaEndLoop_stop m NumS NumS 3 (by omega) with h | h
  · have h2 : 2 * m ≤ 2 ^ FSAend m NumS := h
    have h4 : 2 ^ FSAend m NumS ≤ 2 ^ (NumS / 2 + 1) := Nat.pow_le_pow_right (by decide) hF.1
    rw [pow_succ] at h4
    exact ⟨hF.2, by omega⟩
  · have h2 : NumS ≤ FSAend m NumS := h
    omega

/-- In a sweep step that runs, `I2st` is the identity on the indices below `2m`. -/
theorem sweepAt_identity (ext : Ext K) (m NumS iter k : Nat) (hm : 1 ≤ m)
    (hrun : (sweepAt ext m NumS iter k).sites + FSAend m NumS ≤ NumS) :
    ∀ a b, a < 2 * m → b < 2 * m →
      (sweepAt ext m NumS iter k).I2st.v a b = if a = b then 1 else 0 := by
  obtain ⟨hN, hle⟩ := sweep_runs_bounds ext m NumS iter k hrun
  obtain ⟨t, ht⟩ : ∃ t, NumS / 2 - 1 = t + 1 := ⟨NumS / 2 - 2, by omega⟩
  have hg : growLoop ext m NumS NumS (initState m) = growIter ext m (t + 1) := by
    rw [growLoop_eq_growIter ext m NumS NumS (by omega), ht]
  have ht2 : NumS / 2 = t + 2 := by omega
  rw [ht2] at hle
  have hst : (growIter ext m (t + 1)).st = m := by
    rw [growIter_st ext m hm t]
    exact min_eq_right hle
  have hd := (dimInv_growIter ext m hm (t + 1)).ident
  rw [hst] at hd
  have hf := (sweepFrame_sweepAt ext m NumS iter k).ident
  rw [hg] at hf
  intro a b ha hb
  rw [hf]
  exact hd a b ha hb

/-- C4, amended. In every sweep step that the run makes (step number `k` of sweep number
`iter`, the loop test `sites ≤ NumS - FSAend` holding in its state), the superblock tensor
built from the system block `blkS` and the just-read environment block `blkE` is, for all
indices below `2m`, `Habcd(i,j,k,l) = H_E(i,k)·δ(j,l) + δ(i,k)·H_S(j,l) + Sz(i,k)·Sz(j,l)
+ ½·Sp(i,k)·Sm(j,l) + ½·Sm(i,k)·Sp(j,l)`: the environment block is on the first tensor
factor and the system block on the second, whatever the two blocks are. -/
theorem sweep_superblock_environment_first (ext : Ext K) (m NumS iter k : Nat)
    (hrun : (sweepAt ext m NumS iter k).sites + FSAend m NumS ≤ NumS)
    (i j p l : Nat) (hi : i < 2 * m) (hj : j < 2 * m) (hp : p < 2 * m) (hl : l < 2 * m) :
    (sweepSolve ext m NumS iter (sweepAt ext m NumS iter k)).blkE_HAB =
      ext.FSAread (sweepAt ext m NumS iter k).log (NumS - (sweepAt ext m NumS iter k).sites)
        iter ∧
    (sweepSolve ext m NumS iter (sweepAt ext m NumS iter k)).Habcd.v i j p l =
      specSuperblock (sweepSolve ext m NumS iter (sweepAt ext m NumS iter k)).blkE_HAB.v
        (sweepAt ext m NumS iter k).blkS_HAB.v (sweepAt ext m NumS iter k).SzAB.v
        (sweepAt ext m NumS iter k).SpAB.v (sweepAt ext m NumS iter k).SmAB.v i j p l :=
  ⟨rfl, superblock_eq _ _ _ (2 * m)
    (sweepAt_identity ext m NumS iter k (by omega) hrun) i j p l hi hj hp hl⟩

theorem sweep_superblock_environment_first_witness :
    (sweepAt unitReadExt 1 6 0 0).sites + FSAend 1 6 ≤ 6 ∧
    (sweepSolve unitReadExt 1 6 0 (sweepAt unitReadExt 1 6 0 0)).Habcd.v 0 1 0 1 =
      specSuperblock (sweepSolve unitReadExt 1 6 0 (sweepAt unitReadExt 1 6 0 0)).blkE_HAB.v
        (sweepAt unitReadExt 1 6 0 0).blkS_HAB.v (sweepAt unitReadExt 1 6 0 0).SzAB.v
        (sweepAt unitReadExt 1 6 0 0).SpAB.v (sweepAt unitReadExt 1 6 0 0).SmAB.v 0 1 0 1 :=
  ⟨by decide,
   (sweep_superblock_environment_first unitReadExt 1 6 0 0 (by decide) 0 1 0 1
      (by decide) (by decide) (by decide) (by decide)).2⟩

/-- C15, amended. In exact arithmetic, symmetry is an invariant of the growth and sweep
loops, for `m ≥ 1` and whatever the collaborators return (so for every truncation matrix
`OO`). The initial `H12` and `Sz⊗I` are symmetric and the initial `Sp⊗I` is the transpose
of `Sm⊗I`. If at the start of a growth iteration, in a state with the extents of the
dimension invariant, `blkS.HAB` and `SzAB` are symmetric and `SpAB` is the transpose of
`SmAB`, then the same holds after the iteration, whose `blkS.HAB` is the enlarged block
Hamiltonian written as the snapshot. In every state of the sweep phase (after `k` steps of
sweep number `iter`) of a run with `NumS ≥ 6` and `m ≤ 2^(NumS/2-1)` whose snapshot reads
return a block written earlier under the site count read, `blkS.HAB` and `SzAB` are
symmetric and `SpAB` is the transpose of `SmAB`, the sweep step made from that state keeps
this, and the enlarged block Hamiltonian it writes as the snapshot is `2m × 2m`. The
property holds at the start of every growth iteration, and the superblock Hamiltonian
handed to the ground-state solver there is symmetric under the exchange of its row pair
`(i,j)` with its column pair `(k,l)`. -/
theorem symmetry_invariant (ext : Ext K) (m : Nat) (hm : 1 ≤ m) :
    SymInv (2 * 2) (initState m : MainState K) ∧
    (∀ s : MainState K, DimInv m s → SymInv (2 * s.st) s →
      SymInv (2 * (growStep ext m s).st) (growStep ext m s) ∧
      (growStep ext m s).blkS_HAB.n1 = 2 * (growStep ext m s).st ∧
      (growStep ext m s).blkS_HAB.n2 = 2 * (growStep ext m s).st ∧
      (growStep ext m s).log =
        s.log ++ [IOEvent.ISAwrite (s.sites + 1) (growStep ext m s).blkS_HAB]) ∧
    (∀ (NumS iter k : Nat), 6 ≤ NumS → m ≤ 2 ^ (NumS / 2 - 1) → ReadsWritten ext →
      SymInv (2 * m) (sweepAt ext m NumS iter k) ∧
      SymInv (2 * m) (sweepStep ext m NumS iter (sweepAt ext m NumS iter k)) ∧
      (sweepStep ext m NumS iter (sweepAt ext m NumS iter k)).blkS_HAB.n1 = 2 * m ∧
      (sweepStep ext m NumS iter (sweepAt ext m NumS iter k)).blkS_HAB.n2 = 2 * m ∧
      (sweepStep ext m NumS iter (sweepAt ext m NumS iter k)).log =
        (sweepAt ext m NumS iter k).log ++
          [IOEvent.FSAread (NumS - (sweepAt ext m NumS iter k).sites) iter] ++
          [IOEvent.FSAwrite ((sweepAt ext m NumS iter k).sites + 1) iter
            (sweepStep ext m NumS iter (sweepAt ext m NumS iter k)).blkS_HAB]) ∧
    (∀ n : Nat,
      SymInv (2 * (growIter ext m n).st) (growIter ext m n) ∧
      (growSolve ext (growIter ext m n)).Eval =
        (ext.calculateGroundState (growSolve ext (growIter ext m n)).Habcd
          (growIter ext m n).Psi (4 * (growIter ext m n).st * (growIter ext m n).st)).1 ∧
      ∀ i j k l, i < 2 * (growIter ext m n).st → j < 2 * (growIter ext m n).st →
        k < 2 * (growIter ext m n).st → l < 2 * (growIter ext m n).st →
        (growSolve ext (growIter ext m n)).Habcd.v i j k l =
          (growSolve ext (growIter ext m n)).Habcd.v k l i j) := by
  refine ⟨symInv_init m, ?_, ?_, ?_⟩
  · intro s hd hs
    have hd2 := dimInv_growStep ext m hm s hd
    exact ⟨symInv_growStep ext m hm s hd hs, hd2.hab1, hd2.hab2, growStep_log ext m s⟩
  · intro NumS iter k hN hle hr
    have h0 := (sweepSym_sweepAt ext hr m NumS hm hN hle iter k).1
    have h1 := (sweepSym_sweepAt ext hr m NumS hm hN hle iter (k + 1)).1
    have e : sweepAt ext m NumS iter (k + 1) =
        sweepStep ext m NumS iter (sweepAt ext m NumS iter k) := by
      unfold sweepAt
      rw [Function.iterate_succ_apply']
    rw [e] at h1
    obtain ⟨-, -, x3, x4, -⟩ := sweepAt_extents ext hr m NumS hm hN hle iter k
    obtain ⟨-, -, -, -, -, -, -, f8, f9, f10⟩ :=
      sweepStep_frame ext m NumS iter (sweepAt ext m NumS iter k)
    exact ⟨h0, h1, f8.trans x3, f9.trans x4, f10⟩
  · intro n
    have hd := dimInv_growIter ext m hm n
    have hs := symInv_growIter ext m hm n
    refine ⟨hs, rfl, ?_⟩
    intro i j k l hi hj hk hl
    exact superblock_symm _ _ _ (2 * (growIter ext m n).st) hs.hab hs.hab hd.ident hs.sz hs.spm
      i j k l hi hj hk hl

theorem symmetry_invariant_witness :
    1 ≤ 2 ∧ 6 ≤ 6 ∧ 2 ≤ 2 ^ (6 / 2 - 1) ∧ ReadsWritten (echoExt : Ext ℚ) ∧
    SymInv (2 * (growIter (echoExt : Ext ℚ) 2 3).st) (growIter (echoExt : Ext ℚ) 2 3) ∧
    SymInv (2 * 2)
      (sweepStep (echoExt : Ext ℚ) 2 6 0 (sweepAt (echoExt : Ext ℚ) 2 6 0 0)) ∧
    (growSolve (echoExt : Ext ℚ) (growIter (echoExt : Ext ℚ) 2 1)).Habcd.v 0 1 1 0 =
      (growSolve (echoExt : Ext ℚ) (growIter (echoExt : Ext ℚ) 2 1)).Habcd.v 1 0 0 1 :=
  ⟨by decide, by decide, by decide, readsWritten_echoExt,
    ((symmetry_invariant (echoExt : Ext ℚ) 2 (by decide)).2.2.2 3).1,
    ((symmetry_invariant (echoExt : Ext ℚ) 2 (by decide)).2.2.1 6 0 0 (by decide) (by decide)
      readsWritten_echoExt).2.1,
    ((symmetry_invariant (echoExt : Ext ℚ) 2 (by decide)).2.2.2 1).2.2 0 1 1 0
      (by decide) (by decide) (by decide) (by decide)⟩

/-! ## No-truncation exactness -/

/-- Similarity looks at the entries of the matrix below the dimensions only. -/
theorem similarBy_congr_left (k d : Nat) (O O2 X Y : Nat → Nat → K)
    (hO : ∀ a b, a < k → b < d → O a b = O2 a b)
    (h : SimilarBy k d O X Y) : SimilarBy k d O2 X Y := by
  unfold SimilarBy at h ⊢
  have e1 : toMatrix k d O2 = toMatrix k d O := by
    ext a b
    exact (hO a.val b.val a.isLt b.isLt).symm
  rw [e1]
  exact h

end MainTheorems

/-! # Theorems on `tred3` -/

section Tred3Theorems
open Finset
variable {K : Type} [LinearOrderedField K]

/-! ## The loops in closed form -/

theorem forLoop_succ {σ : Type} (body : Nat → σ → σ) (n : Nat) (s : σ) :
    forLoop body (n + 1) s = body n (forLoop body n s) := rfl

theorem forLoop_zero {σ : Type} (body : Nat → σ → σ) (s : σ) : forLoop body 0 s = s := rfl

theorem forLoop_sum (f : Nat → K) (n : Nat) (c : K) :
    forLoop (fun k g => g + f k) n c = c + ∑ k in range n, f k := by
  induction n with
  | zero => simp [forLoop]
  | succ n ih => rw [forLoop_succ, ih, sum_range_succ, add_assoc]

theorem rowScale_eq (a : Nat → Nat → K) (i l : Nat) :
    rowScale a i l = ∑ k in range (l + 1), |a i k| := by
  unfold rowScale
  rw [forLoop_sum (fun k => |a i k|)]
  simp

theorem scaleRow_loop (a : Nat → Nat → K) (i : Nat) (scale : K) (m : Nat) :
    forLoop (fun k (s : (Nat → Nat → K) × K) =>
      let a1 := set2 s.1 i k (s.1 i k / scale)
      (a1, s.2 + a1 i k * a1 i k)) m (a, 0) =
    (fun p q => if p = i ∧ q < m then a i q / scale else a p q,
      ∑ k in range m, a i k / scale * (a i k / scale)) := by
  induction m with
  | zero => simp [forLoop]
  | succ m ih =>
    rw [forLoop_succ, ih]
    simp only [sum_range_succ]
    refine Prod.ext ?_ ?_
    · funext p q
      simp only [set2]
      by_cases hp : p = i
      · by_cases hq : q = m
        · simp [hp, hq]
        · by_cases hq' : q < m
          · simp [hp, hq, hq', Nat.lt_succ_of_lt hq']
          · have : ¬ q < m + 1 := by omega
            simp [hp, hq, hq', this]
      · simp [hp]
    · simp [set2]

theorem scaleRow_eq (a : Nat → Nat → K) (i l : Nat) (scale : K) :
    scaleRow a i l scale =
    (fun p q => if p = i ∧ q < l + 1 then a i q / scale else a p q,
      ∑ k in range (l + 1), a i k / scale * (a i k / scale)) :=
  scaleRow_loop a i scale (l + 1)

theorem formP_loop (a : Nat → Nat → K) (e : Nat → K) (i l : Nat) (h : K) (hl : l < i)
    (m : Nat) (hm : m ≤ l + 1) :
    forLoop (formP i l h) m (a, e, 0) =
    (fun p q => if q = i ∧ p < m then a i p / h else a p q,
      fun j => if j < m then gsum a i l j / h else e j,
      ∑ j in range m, gsum a i l j / h * a i j) := by
  induction m with
  | zero => simp [forLoop]
  | succ m ih =>
    rw [forLoop_succ, ih (by omega)]
    have hmi : m ≠ i := by omega
    have hmi' : ¬ (i = m) := by omega
    -- the array after the write of this iteration
    have ha : set2 (fun p q => if q = i ∧ p < m then a i p / h else a p q) m i
        ((fun p q => if q = i ∧ p < m then a i p / h else a p q) i m / h) =
        fun p q => if q = i ∧ p < m + 1 then a i p / h else a p q := by
      funext p q
      simp only [set2]
      by_cases hq : q = i
      · by_cases hp : p = m
        · simp [hq, hp, hmi]
        · by_cases hp' : p < m
          · simp [hq, hp, hp', Nat.lt_succ_of_lt hp']
          · have : ¬ p < m + 1 := by omega
            simp [hq, hp, hp', this]
      · simp [hq]
    have hg : forLoop (fun t g => g + (fun p q => if q = i ∧ p < m + 1 then a i p / h else a p q)
          (m + 1 + t) m * (fun p q => if q = i ∧ p < m + 1 then a i p / h else a p q) i (m + 1 + t))
          (l - m)
        (forLoop (fun k g => g + (fun p q => if q = i ∧ p < m + 1 then a i p / h else a p q) m k *
          (fun p q => if q = i ∧ p < m + 1 then a i p / h else a p q) i k) (m + 1) 0) =
        gsum a i l m := by
      rw [forLoop_sum (fun t => (fun p q => if q = i ∧ p < m + 1 then a i p / h else a p q)
          (m + 1 + t) m * (fun p q => if q = i ∧ p < m + 1 then a i p / h else a p q) i (m + 1 + t)),
        forLoop_sum (fun k => (fun p q => if q = i ∧ p < m + 1 then a i p / h else a p q) m k *
          (fun p q => if q = i ∧ p < m + 1 then a i p / h else a p q) i k), zero_add]
      unfold gsum
      congr 1
      · apply sum_congr rfl
        intro k hk
        have hk' : k < m + 1 := mem_range.mp hk
        have : k ≠ i := by omega
        simp [this]
      · apply sum_congr rfl
        intro t ht
        have ht' : t < l - m := mem_range.mp ht
        have : m + 1 + t ≠ i := by omega
        simp [this, hmi]
    unfold formP
    simp only [ha, hg]
    refine Prod.ext rfl (Prod.ext ?_ ?_)
    · funext j
      simp only [set1]
      by_cases hj : j = m
      · simp [hj]
      · by_cases hj' : j < m
        · simp [hj, hj', Nat.lt_succ_of_lt hj']
        · have : ¬ j < m + 1 := by omega
          simp [hj, hj', this]
    · simp only [sum_range_succ, set1]
      simp [hmi]

theorem rowUpdate_loop (a : Nat → Nat → K) (e : Nat → K) (i j : Nat) (f g : K) (hj : j ≠ i)
    (n : Nat) :
    forLoop (fun k a => set2 a j k (a j k - (f * e k + g * a i k))) n a =
    fun p q => if p = j ∧ q < n then a j q - (f * e q + g * a i q) else a p q := by
  induction n with
  | zero => simp [forLoop]
  | succ n ih =>
    rw [forLoop_succ, ih]
    funext p q
    simp only [set2]
    have hij : ¬ (i = j) := fun h => hj h.symm
    by_cases hp : p = j
    · by_cases hq : q = n
      · simp [hp, hq, hij]
      · by_cases hq' : q < n
        · simp [hp, hq, hq', Nat.lt_succ_of_lt hq']
        · have : ¬ q < n + 1 := by omega
          simp [hp, hq, hq', this]
    · simp [hp]

theorem reduceA_loop (a : Nat → Nat → K) (e : Nat → K) (i l : Nat) (hh : K) (hl : l < i)
    (m : Nat) (hm : m ≤ l + 1) :
    forLoop (reduceA i hh) m (a, e) =
    (fun p q => if p < m ∧ q ≤ p then
        a p q - (a i p * (e q - hh * a i q) + (e p - hh * a i p) * a i q) else a p q,
      fun j => if j < m then e j - hh * a i j else e j) := by
  induction m with
  | zero => simp [forLoop]
  | succ m ih =>
    rw [forLoop_succ, ih (by omega)]
    have hmi : m ≠ i := by omega
    have him : ¬ i < m := by omega
    unfold reduceA
    simp only []
    rw [rowUpdate_loop _ _ i m _ _ hmi]
    refine Prod.ext ?_ ?_
    · funext p q
      simp only [set1, him, false_and, if_false, lt_irrefl]
      by_cases hp : p = m
      · subst hp
        by_cases hq : q < p + 1
        · have hq' : q ≤ p := Nat.lt_succ_iff.mp hq
          by_cases hqp : q = p
          · simp [hqp]
          · have : q < p := lt_of_le_of_ne hq' hqp
            simp [hq, hq', hqp, this]
        · have hq' : ¬ q ≤ p := by omega
          simp [hq, hq']
      · by_cases hp' : p < m
        · have : p < m + 1 := Nat.lt_succ_of_lt hp'
          simp [hp, hp', this]
        · have : ¬ p < m + 1 := by omega
          simp [hp, hp', this]
    · funext j
      simp only [set1, him, false_and, if_false, lt_irrefl]
      by_cases hj : j = m
      · simp [hj]
      · by_cases hj' : j < m
        · simp [hj, hj', Nat.lt_succ_of_lt hj']
        · have : ¬ j < m + 1 := by omega
          simp [hj, hj', this]

theorem scaleRow_set (sqrt : K → K) (a : Nat → Nat → K) (l : Nat) :
    set2 (scaleRow a (l + 1) l (rowScale a (l + 1) l)).1 (l + 1) l
      ((scaleRow a (l + 1) l (rowScale a (l + 1) l)).1 (l + 1) l -
        (if (scaleRow a (l + 1) l (rowScale a (l + 1) l)).1 (l + 1) l > 0
          then -sqrt (scaleRow a (l + 1) l (rowScale a (l + 1) l)).2
          else sqrt (scaleRow a (l + 1) l (rowScale a (l + 1) l)).2)) = hA2 sqrt a l := by
  rw [scaleRow_eq]
  funext p q
  simp only [set2, hA2, hU, hG, hX, hH0, hScale, lt_add_iff_pos_right, zero_lt_one, and_self,
    if_true, true_and]
  by_cases hp : p = l + 1
  · by_cases hq : q = l
    · simp [hp, hq]
    · simp [hp, hq]
  · simp [hp]

/-- The state after the body of the reduction loop for the row `l+1`, `l > 0`, when
`scale ≠ 0`. -/
theorem reduceRow_householder (sqrt : K → K) (s : TredState K) (l : Nat) (hl : 0 < l)
    (hs : hScale s.a l ≠ 0) :
    reduceRow sqrt (l + 1) s =
    { a := fun p q => if p < l + 1 ∧ q ≤ p then
          s.a p q - (hU sqrt s.a l p * hQ sqrt s.a l q + hQ sqrt s.a l p * hU sqrt s.a l q)
        else if q = l + 1 ∧ p < l + 1 then hU sqrt s.a l p / hH sqrt s.a l
        else hA2 sqrt s.a l p q,
      d := set1 s.d (l + 1) (hH sqrt s.a l),
      e := fun j => if j < l + 1 then hQ sqrt s.a l j
        else if j = l + 1 then hScale s.a l * hG sqrt s.a l else s.e j,
      divs := s.divs ++ [hScale s.a l, hH sqrt s.a l, hH sqrt s.a l + hH sqrt s.a l] } := by
  unfold reduceRow
  simp only [Nat.add_sub_cancel, hl, if_true]
  have hs' : ¬ rowScale s.a (l + 1) l = 0 := hs
  simp only [hs', if_false]
  rw [scaleRow_set sqrt s.a l]
  have hr1 : (scaleRow s.a (l + 1) l (rowScale s.a (l + 1) l)).1 (l + 1) l = hX s.a l l := by
    rw [scaleRow_eq]; simp [hX, hScale]
  have hr2 : (scaleRow s.a (l + 1) l (rowScale s.a (l + 1) l)).2 = hH0 s.a l := by
    rw [scaleRow_eq]; rfl
  rw [hr1, hr2]
  have hg : (if hX s.a l l > 0 then -sqrt (hH0 s.a l) else sqrt (hH0 s.a l)) = hG sqrt s.a l := rfl
  rw [hg]
  have hh : hH0 s.a l - hX s.a l l * hG sqrt s.a l = hH sqrt s.a l := rfl
  rw [hh]
  rw [formP_loop _ _ (l + 1) l _ (Nat.lt_succ_self l) (l + 1) le_rfl]
  simp only []
  rw [reduceA_loop _ _ (l + 1) l _ (Nat.lt_succ_self l) (l + 1) le_rfl]
  have hA2row : ∀ k, k < l + 1 → hA2 sqrt s.a l (l + 1) k = hU sqrt s.a l k := by
    intro k hk
    simp [hA2, hk]
  have hA2low : ∀ p q, p < l + 1 → hA2 sqrt s.a l p q = s.a p q := by
    intro p q hp
    have : p ≠ l + 1 := by omega
    simp [hA2, this]
  have hsum : ∑ j in range (l + 1), gsum (hA2 sqrt s.a l) (l + 1) l j / hH sqrt s.a l *
      hA2 sqrt s.a l (l + 1) j = ∑ j in range (l + 1), hP sqrt s.a l j * hU sqrt s.a l j :=
    sum_congr rfl (fun j hj => by rw [hA2row j (mem_range.mp hj)]; rfl)
  rw [hsum]
  have hhh : (∑ j in range (l + 1), hP sqrt s.a l j * hU sqrt s.a l j) /
      (hH sqrt s.a l + hH sqrt s.a l) = hHH sqrt s.a l := rfl
  rw [hhh]
  simp only [TredState.mk.injEq, true_and, lt_irrefl, and_false, if_false]
  constructor
  · funext p q
    by_cases hp : p < l + 1
    · by_cases hq : q ≤ p
      · have hq' : q < l + 1 := lt_of_le_of_lt hq hp
        have hq'' : q ≠ l + 1 := by omega
        simp only [hp, hq, hq', hq'', and_self, if_true, false_and, if_false, hA2row p hp,
          hA2row q hq', hA2low p q hp]
        rfl
      · simp only [hp, hq, and_false, if_false, and_true, hA2row p hp]
    · simp only [hp, false_and, and_false, if_false]
  · refine ⟨?_, rfl⟩
    funext j
    by_cases hj : j < l + 1
    · simp only [hj, if_true, hA2row j hj]
      rfl
    · simp only [hj, if_false, set1]
      rfl

theorem hScale_eq (a : Nat → Nat → K) (l : Nat) :
    hScale a l = ∑ k in range (l + 1), |a (l + 1) k| := rowScale_eq a (l + 1) l

theorem hScale_nonneg (a : Nat → Nat → K) (l : Nat) : 0 ≤ hScale a l := by
  rw [hScale_eq]
  exact sum_nonneg (fun k _ => abs_nonneg _)

theorem row_zero_of_hScale (a : Nat → Nat → K) (l : Nat) (h : hScale a l = 0) (k : Nat)
    (hk : k < l + 1) : a (l + 1) k = 0 := by
  rw [hScale_eq] at h
  have := (sum_eq_zero_iff_of_nonneg (fun k _ => abs_nonneg (a (l + 1) k))).1 h k
    (mem_range.mpr hk)
  exact abs_eq_zero.mp this

theorem hX_mul (a : Nat → Nat → K) (l k : Nat) (hs : hScale a l ≠ 0) :
    hScale a l * hX a l k = a (l + 1) k := by
  unfold hX
  field_simp

theorem hH0_nonneg (a : Nat → Nat → K) (l : Nat) : 0 ≤ hH0 a l :=
  sum_nonneg (fun k _ => mul_self_nonneg _)

theorem hH0_pos (a : Nat → Nat → K) (l : Nat) (hs : hScale a l ≠ 0) : 0 < hH0 a l := by
  rcases (hH0_nonneg a l).lt_or_eq with h | h
  · exact h
  · exfalso
    apply hs
    rw [hScale_eq]
    apply sum_eq_zero
    intro k hk
    have h0 := (sum_eq_zero_iff_of_nonneg (fun k _ => mul_self_nonneg (hX a l k))).1 h.symm k hk
    have hx : hX a l k = 0 := mul_self_eq_zero.mp h0
    have := hX_mul a l k hs
    rw [hx, mul_zero] at this
    rw [← this, abs_zero]

theorem hG_sq (sqrt : K → K) (hsq : ∀ x, 0 ≤ x → sqrt x * sqrt x = x) (a : Nat → Nat → K) (l : Nat) : hG sqrt a l * hG sqrt a l = hH0 a l := by
  unfold hG
  split_ifs
  · rw [neg_mul_neg]; exact hsq _ (hH0_nonneg a l)
  · exact hsq _ (hH0_nonneg a l)

theorem hFG_nonpos (sqrt : K → K) (hnn : ∀ x, 0 ≤ sqrt x) (a : Nat → Nat → K) (l : Nat) : hX a l l * hG sqrt a l ≤ 0 := by
  unfold hG
  split_ifs with h
  · have := hnn (hH0 a l)
    nlinarith
  · have := hnn (hH0 a l)
    have h' : hX a l l ≤ 0 := not_lt.mp h
    nlinarith

theorem hH_pos (sqrt : K → K) (hnn : ∀ x, 0 ≤ sqrt x) (a : Nat → Nat → K) (l : Nat) (hs : hScale a l ≠ 0) : 0 < hH sqrt a l := by
  unfold hH
  have h1 := hH0_pos a l hs
  have h2 := hFG_nonpos sqrt hnn a l
  linarith

theorem hU_sq_sum (sqrt : K → K) (hsq : ∀ x, 0 ≤ x → sqrt x * sqrt x = x) (a : Nat → Nat → K) (l : Nat) :
    ∑ k in range (l + 1), hU sqrt a l k * hU sqrt a l k = 2 * hH sqrt a l := by
  have hg := hG_sq sqrt hsq a l
  have h0 : hH0 a l = ∑ k in range l, hX a l k * hX a l k + hX a l l * hX a l l := by
    unfold hH0; rw [sum_range_succ]
  rw [sum_range_succ]
  have h1 : ∑ k in range l, hU sqrt a l k * hU sqrt a l k =
      ∑ k in range l, hX a l k * hX a l k := by
    apply sum_congr rfl
    intro k hk
    have : k ≠ l := ne_of_lt (mem_range.mp hk)
    simp [hU, this]
  rw [h1]
  have h2 : hU sqrt a l l = hX a l l - hG sqrt a l := by simp [hU]
  rw [h2]
  unfold hH
  linear_combination (-1 : K) * h0 + hg

theorem hX_hU_sum (sqrt : K → K) (a : Nat → Nat → K) (l : Nat) :
    ∑ k in range (l + 1), hX a l k * hU sqrt a l k = hH sqrt a l := by
  have h0 : hH0 a l = ∑ k in range l, hX a l k * hX a l k + hX a l l * hX a l l := by
    unfold hH0; rw [sum_range_succ]
  rw [sum_range_succ]
  have h1 : ∑ k in range l, hX a l k * hU sqrt a l k =
      ∑ k in range l, hX a l k * hX a l k := by
    apply sum_congr rfl
    intro k hk
    have : k ≠ l := ne_of_lt (mem_range.mp hk)
    simp [hU, this]
  rw [h1]
  have h2 : hU sqrt a l l = hX a l l - hG sqrt a l := by simp [hU]
  rw [h2]
  unfold hH
  linear_combination (-1 : K) * h0

/-! ## The accumulation loop -/

theorem colUpdate_loop (a : Nat → Nat → K) (i j : Nat) (g : K) (hj : j ≠ i) (n : Nat) :
    forLoop (fun k a => set2 a k j (a k j - g * a k i)) n a =
    fun p q => if q = j ∧ p < n then a p j - g * a p i else a p q := by
  induction n with
  | zero => simp [forLoop]
  | succ n ih =>
    rw [forLoop_succ, ih]
    funext p q
    simp only [set2]
    have hij : ¬ (i = j) := fun h => hj h.symm
    by_cases hq : q = j
    · by_cases hp : p = n
      · simp [hp, hq, hij]
      · by_cases hp' : p < n
        · simp [hp, hq, hp', Nat.lt_succ_of_lt hp']
        · have : ¬ p < n + 1 := by omega
          simp [hp, hq, hp', this]
    · simp [hq]

theorem accUpd_loop (a : Nat → Nat → K) (i : Nat) (m : Nat) (hm : m ≤ i) :
    forLoop (fun j a =>
      let g := forLoop (fun k g => g + a i k * a k j) i 0
      forLoop (fun k a => set2 a k j (a k j - g * a k i)) i a) m a =
    fun p q => if p < i ∧ q < m then a p q - accG a i q * a p i else a p q := by
  induction m with
  | zero => simp [forLoop]
  | succ m ih =>
    rw [forLoop_succ, ih (by omega)]
    have hmi : m ≠ i := by omega
    simp only []
    rw [colUpdate_loop _ i m _ hmi i]
    have hg : forLoop (fun k g => g +
        (fun p q => if p < i ∧ q < m then a p q - accG a i q * a p i else a p q) i k *
        (fun p q => if p < i ∧ q < m then a p q - accG a i q * a p i else a p q) k m) i 0 =
        accG a i m := by
      rw [forLoop_sum (fun k =>
        (fun p q => if p < i ∧ q < m then a p q - accG a i q * a p i else a p q) i k *
        (fun p q => if p < i ∧ q < m then a p q - accG a i q * a p i else a p q) k m), zero_add]
      unfold accG
      apply sum_congr rfl
      intro k _
      simp
    rw [hg]
    funext p q
    have him : ¬ i < m := by omega
    by_cases hq : q = m
    · subst hq
      by_cases hp : p < i
      · simp [hp, him]
      · simp [hp]
    · by_cases hq' : q < m
      · have : q < m + 1 := Nat.lt_succ_of_lt hq'
        simp [hq, hq', this]
      · have : ¬ q < m + 1 := by omega
        simp [hq, hq', this]

theorem accUpd_eq (a : Nat → Nat → K) (i : Nat) :
    forLoop (fun j a =>
      let g := forLoop (fun k g => g + a i k * a k j) i 0
      forLoop (fun k a => set2 a k j (a k j - g * a k i)) i a) i a = accUpd a i :=
  accUpd_loop a i i le_rfl

theorem zeroCross_loop (a : Nat → Nat → K) (i : Nat) (m : Nat) :
    forLoop (fun j a => set2 (set2 a i j 0) j i 0) m a =
    fun p q => if (p = i ∧ q < m) ∨ (q = i ∧ p < m) then 0 else a p q := by
  induction m with
  | zero => simp [forLoop]
  | succ m ih =>
    rw [forLoop_succ, ih]
    funext p q
    simp only [set2]
    by_cases h1 : p = m ∧ q = i
    · have : q = i ∧ p < m + 1 := ⟨h1.2, by omega⟩
      simp [h1, this]
    · by_cases h2 : p = i ∧ q = m
      · have : p = i ∧ q < m + 1 := ⟨h2.1, by omega⟩
        simp [h1, h2, this]
      · simp only [h1, h2, if_false]
        have e1 : (p = i ∧ q < m + 1) ↔ (p = i ∧ q < m) := by
          constructor
          · rintro ⟨hp, hq⟩
            exact ⟨hp, by
              rcases Nat.lt_succ_iff_lt_or_eq.mp hq with h | h
              · exact h
              · exact absurd ⟨hp, h⟩ h2⟩
          · rintro ⟨hp, hq⟩
            exact ⟨hp, by omega⟩
        have e2 : (q = i ∧ p < m + 1) ↔ (q = i ∧ p < m) := by
          constructor
          · rintro ⟨hq, hp⟩
            exact ⟨hq, by
              rcases Nat.lt_succ_iff_lt_or_eq.mp hp with h | h
              · exact h
              · exact absurd ⟨h, hq⟩ h1⟩
          · rintro ⟨hq, hp⟩
            exact ⟨hq, by omega⟩
        simp only [e1, e2]

/-- The state after the body of the accumulation loop for the row `i`. -/
theorem accumRow_eq (i : Nat) (s : TredState K) :
    accumRow i s =
    { s with
      a := fun p q =>
        if (p = i ∧ q < i) ∨ (q = i ∧ p < i) then 0
        else if p = i ∧ q = i then 1
        else if s.d i ≠ 0 then accUpd s.a i p q else s.a p q
      d := set1 s.d i (s.a i i) } := by
  unfold accumRow
  simp only []
  rw [accUpd_eq, zeroCross_loop]
  have hd : (if s.d i ≠ 0 then accUpd s.a i else s.a) i i = s.a i i := by
    split_ifs <;> simp [accUpd]
  rw [hd]
  congr 1
  funext p q
  simp only [set2]
  split_ifs <;> rfl

theorem accumRow_divs (i : Nat) (s : TredState K) : (accumRow i s).divs = s.divs := by
  rw [accumRow_eq]

theorem forLoop_accumRow_divs (n : Nat) (s : TredState K) :
    (forLoop accumRow n s).divs = s.divs := by
  induction n with
  | zero => rfl
  | succ n ih => rw [forLoop_succ, accumRow_divs, ih]

/-! ## The divisors -/

theorem reduceRow_low (sqrt : K → K) (i : Nat) (s : TredState K) (hi : i - 1 = 0) :
    reduceRow sqrt i s = { s with e := set1 s.e i (s.a i (i - 1)), d := set1 s.d i 0 } := by
  unfold reduceRow
  simp [hi]

theorem reduceRow_skip (sqrt : K → K) (l : Nat) (s : TredState K) (hl : 0 < l)
    (hs : hScale s.a l = 0) :
    reduceRow sqrt (l + 1) s = { s with e := set1 s.e (l + 1) (s.a (l + 1) l) } := by
  have hs' : rowScale s.a (l + 1) l = 0 := hs
  unfold reduceRow
  simp [hl, hs']

theorem reduceRow_divs_ne (sqrt : K → K) (hnn : ∀ x, 0 ≤ sqrt x) (i : Nat) (s : TredState K)
    (h : ∀ x ∈ s.divs, x ≠ 0) : ∀ x ∈ (reduceRow sqrt i s).divs, x ≠ 0 := by
  rcases Nat.eq_zero_or_pos (i - 1) with h0 | hpos
  · rw [reduceRow_low sqrt i s h0]
    exact h
  · obtain ⟨l, rfl⟩ : ∃ l, i = l + 1 := ⟨i - 1, by omega⟩
    have hl : 0 < l := by simpa using hpos
    by_cases hs : hScale s.a l = 0
    · rw [reduceRow_skip sqrt l s hl hs]
      exact h
    · rw [reduceRow_householder sqrt s l hl hs]
      have hp := hH_pos sqrt hnn s.a l hs
      intro x hx
      simp only [List.mem_append, List.mem_cons, List.mem_singleton, List.not_mem_nil,
        or_false] at hx
      rcases hx with hx | hx | hx | hx
      · exact h x hx
      · rw [hx]; exact hs
      · rw [hx]; exact ne_of_gt hp
      · rw [hx]; exact ne_of_gt (add_pos hp hp)

theorem forDown_reduceRow_divs_ne (sqrt : K → K) (hnn : ∀ x, 0 ≤ sqrt x) :
    ∀ (c : Nat) (s : TredState K), (∀ x ∈ s.divs, x ≠ 0) →
      ∀ x ∈ (forDown (reduceRow sqrt) c s).divs, x ≠ 0 := by
  intro c
  induction c with
  | zero => intro s h; exact h
  | succ c ih =>
    intro s h
    rw [forDown]
    exact ih _ (reduceRow_divs_ne sqrt hnn (c + 1) s h)

theorem tred3_divs (sqrt : K → K) (s : TredState K) (n : Nat) :
    (tred3 sqrt s n).divs = (forDown (reduceRow sqrt) (n - 1) s).divs := by
  unfold tred3
  simp only []
  rw [forLoop_accumRow_divs]

/-- C16, amended. In exact real arithmetic `tred3` never divides by zero. For every `n` and
every input, all the divisors of the divisions executed in the run are nonzero. For every
row `i ≥ 2` processed from any state: when `scale = 0` the body is only the assignment
`e(i) = a(i,l)`, so no division is executed; when `scale ≠ 0` the divisors are `scale`, `h`
and `h + h`, where `h`, the value then stored in `d(i)`, is the sum of the squares of the
scaled row entries minus `f·g`, with `f·g ≤ 0` by the sign choice of `g`, and `h > 0`. -/
theorem tred3_divisors_nonzero (n : Nat) (a : Nat → Nat → ℝ) (d e : Nat → ℝ) :
    (∀ x ∈ (tred3 Real.sqrt { a := a, d := d, e := e, divs := [] } n).divs, x ≠ 0) ∧
    ∀ (s : TredState ℝ) (l : Nat), 0 < l →
      (rowScale s.a (l + 1) l = 0 →
        reduceRow Real.sqrt (l + 1) s = { s with e := set1 s.e (l + 1) (s.a (l + 1) l) }) ∧
      (rowScale s.a (l + 1) l ≠ 0 →
        (reduceRow Real.sqrt (l + 1) s).divs =
          s.divs ++ [rowScale s.a (l + 1) l, (reduceRow Real.sqrt (l + 1) s).d (l + 1),
            (reduceRow Real.sqrt (l + 1) s).d (l + 1) + (reduceRow Real.sqrt (l + 1) s).d (l + 1)] ∧
        (reduceRow Real.sqrt (l + 1) s).d (l + 1) =
          (∑ k in Finset.range (l + 1),
            s.a (l + 1) k / rowScale s.a (l + 1) l * (s.a (l + 1) k / rowScale s.a (l + 1) l))
          - s.a (l + 1) l / rowScale s.a (l + 1) l * hG Real.sqrt s.a l ∧
        s.a (l + 1) l / rowScale s.a (l + 1) l * hG Real.sqrt s.a l ≤ 0 ∧
        0 < (reduceRow Real.sqrt (l + 1) s).d (l + 1) ∧
        (reduceRow Real.sqrt (l + 1) s).d (l + 1) + (reduceRow Real.sqrt (l + 1) s).d (l + 1) ≠ 0) := by
  constructor
  · rw [tred3_divs]
    apply forDown_reduceRow_divs_ne Real.sqrt Real.sqrt_nonneg
    intro x hx
    simp at hx
  · intro s l hl
    constructor
    · intro hs
      exact reduceRow_skip Real.sqrt l s hl hs
    · intro hs
      have hs' : hScale s.a l ≠ 0 := hs
      have hp := hH_pos Real.sqrt Real.sqrt_nonneg s.a l hs'
      have hd : (reduceRow Real.sqrt (l + 1) s).d (l + 1) = hH Real.sqrt s.a l := by
        rw [reduceRow_householder Real.sqrt s l hl hs']
        simp [set1]
      have hv : (reduceRow Real.sqrt (l + 1) s).divs =
          s.divs ++ [hScale s.a l, hH Real.sqrt s.a l, hH Real.sqrt s.a l + hH Real.sqrt s.a l] := by
        rw [reduceRow_householder Real.sqrt s l hl hs']
      rw [hd]
      refine ⟨hv, rfl, hFG_nonpos Real.sqrt Real.sqrt_nonneg s.a l, hp, ne_of_gt (add_pos hp hp)⟩

theorem tred3_divisors_nonzero_witness :
    (tred3 Real.sqrt
      { a := fun p q => if p = 2 ∧ q = 0 then 1 else 0, d := fun _ => 0, e := fun _ => 0,
        divs := [] } 3).divs = [1, 1, 1 + 1] ∧
    ∀ x ∈ (tred3 Real.sqrt
      { a := fun p q => if p = 2 ∧ q = 0 then 1 else 0, d := fun _ => 0, e := fun _ => 0,
        divs := [] } 3).divs, x ≠ 0 := by
  refine ⟨?_, (tred3_divisors_nonzero 3 _ _ _).1⟩
  have hsc : hScale (fun p q => if p = 2 ∧ q = 0 then (1 : ℝ) else 0) 1 = 1 := by
    rw [hScale_eq]
    simp [Finset.sum_range_succ]
  have hsc' : hScale (fun p q => if p = 2 ∧ q = 0 then (1 : ℝ) else 0) 1 ≠ 0 := by
    rw [hsc]; exact one_ne_zero
  have h0 : hH0 (fun p q => if p = 2 ∧ q = 0 then (1 : ℝ) else 0) 1 = 1 := by
    simp [hH0, hX, hsc, Finset.sum_range_succ]
  have hh : hH Real.sqrt (fun p q => if p = 2 ∧ q = 0 then (1 : ℝ) else 0) 1 = 1 := by
    simp [hH, hG, hX, h0, hsc]
  rw [tred3_divs]
  show (forDown (reduceRow Real.sqrt) 2 _).divs = _
  rw [forDown, forDown, forDown, reduceRow_householder Real.sqrt _ 1 (by decide) hsc',
    reduceRow_low Real.sqrt 1 _ rfl]
  simp only [hsc, hh, List.nil_append]

/-! ## What the result depends on -/

/-- The quantities of a Householder step for the row `l+1` depend only on the lower
triangle of the rows up to `l+1`. -/
theorem householder_congr (sqrt : K → K) (a b : Nat → Nat → K) (l : Nat)
    (h : ∀ p q, q ≤ p → p ≤ l + 1 → a p q = b p q) :
    hScale a l = hScale b l ∧ hG sqrt a l = hG sqrt b l ∧ hH sqrt a l = hH sqrt b l ∧
    (∀ k, k ≤ l → hU sqrt a l k = hU sqrt b l k) ∧
    (∀ j, j ≤ l → hQ sqrt a l j = hQ sqrt b l j) := by
  have hrow : ∀ k, k ≤ l → a (l + 1) k = b (l + 1) k := fun k hk => h _ _ (by omega) le_rfl
  have e1 : hScale a l = hScale b l := by
    rw [hScale_eq, hScale_eq]
    exact sum_congr rfl (fun k hk => by rw [hrow k (by have := mem_range.mp hk; omega)])
  have e2 : ∀ k, k ≤ l → hX a l k = hX b l k := by
    intro k hk
    unfold hX
    rw [hrow k hk, e1]
  have e3 : hH0 a l = hH0 b l := by
    unfold hH0
    exact sum_congr rfl (fun k hk => by rw [e2 k (by have := mem_range.mp hk; omega)])
  have e4 : hG sqrt a l = hG sqrt b l := by
    unfold hG
    rw [e2 l le_rfl, e3]
  have e5 : hH sqrt a l = hH sqrt b l := by
    unfold hH
    rw [e2 l le_rfl, e3, e4]
  have e6 : ∀ k, k ≤ l → hU sqrt a l k = hU sqrt b l k := by
    intro k hk
    unfold hU
    rw [e2 l le_rfl, e4, e2 k hk]
  have e7 : ∀ p q, q ≤ p → p ≤ l + 1 → hA2 sqrt a l p q = hA2 sqrt b l p q := by
    intro p q hq hp
    unfold hA2
    by_cases hc : p = l + 1 ∧ q < l + 1
    · simp only [hc, and_self, if_true]
      exact e6 q (by omega)
    · simp only [hc, if_false]
      exact h p q hq hp
  have e8 : ∀ j, j ≤ l → hP sqrt a l j = hP sqrt b l j := by
    intro j hj
    unfold hP gsum
    rw [e5]
    congr 2
    · apply sum_congr rfl
      intro k hk
      have hk' := mem_range.mp hk
      rw [e7 j k (by omega) (by omega), e7 (l + 1) k (by omega) le_rfl]
    · apply sum_congr rfl
      intro t ht
      have ht' := mem_range.mp ht
      rw [e7 (j + 1 + t) j (by omega) (by omega), e7 (l + 1) (j + 1 + t) (by omega) le_rfl]
  have e9 : hHH sqrt a l = hHH sqrt b l := by
    unfold hHH
    rw [e5]
    congr 1
    apply sum_congr rfl
    intro j hj
    have hj' := mem_range.mp hj
    rw [e8 j (by omega), e6 j (by omega)]
  refine ⟨e1, e4, e5, e6, ?_⟩
  intro j hj
  unfold hQ
  rw [e8 j hj, e9, e6 j hj]

theorem reduceRow_agree (sqrt : K → K) (n i : Nat) (hi : i + 1 < n) (s t : TredState K)
    (h : ReduceAgree n (i + 1) s t) :
    ReduceAgree n i (reduceRow sqrt (i + 1) s) (reduceRow sqrt (i + 1) t) := by
  obtain ⟨hlow, hrows⟩ := h
  rcases Nat.eq_zero_or_pos i with h0 | hpos
  · subst h0
    rw [reduceRow_low sqrt 1 s rfl, reduceRow_low sqrt 1 t rfl]
    refine ⟨hlow, ?_⟩
    intro r hr hrn
    rcases Nat.eq_or_lt_of_le (Nat.succ_le_of_lt hr) with h1 | h1
    · subst h1
      refine ⟨?_, Or.inr (Or.inr ⟨by simp [set1], by simp [set1]⟩)⟩
      simp only [set1, if_true]
      exact hlow _ _ (by decide) hrn
    · obtain ⟨he, hra⟩ := hrows r h1 hrn
      have hne : r ≠ 0 + 1 := by omega
      refine ⟨by simpa [set1, hne] using he, ?_⟩
      rcases hra with ⟨hd, hc⟩ | hz | ⟨hd1, hd2⟩
      · exact Or.inl ⟨by simpa [set1, hne] using hd, hc⟩
      · exact Or.inr (Or.inl hz)
      · exact Or.inr (Or.inr ⟨by simpa [set1, hne] using hd1, by simpa [set1, hne] using hd2⟩)
  · have hc := householder_congr sqrt s.a t.a i (fun p q hq hp => hlow p q hq (by omega))
    obtain ⟨c1, c2, c3, c4, c5⟩ := hc
    by_cases hs : hScale s.a i = 0
    · have ht : hScale t.a i = 0 := by rw [← c1]; exact hs
      rw [reduceRow_skip sqrt i s hpos hs, reduceRow_skip sqrt i t hpos ht]
      refine ⟨hlow, ?_⟩
      intro r hr hrn
      rcases Nat.eq_or_lt_of_le (Nat.succ_le_of_lt hr) with h1 | h1
      · subst h1
        refine ⟨?_, Or.inr (Or.inl (fun k hk => row_zero_of_hScale s.a i hs k hk))⟩
        simp only [set1, if_true]
        exact hlow _ _ (by omega) hrn
      · obtain ⟨he, hra⟩ := hrows r h1 hrn
        have hne : r ≠ i + 1 := by omega
        exact ⟨by simpa [set1, hne] using he, hra⟩
    · have ht : hScale t.a i ≠ 0 := by rw [← c1]; exact hs
      rw [reduceRow_householder sqrt s i hpos hs, reduceRow_householder sqrt t i hpos ht]
      refine ⟨?_, ?_⟩
      · intro p q hq hp
        simp only []
        by_cases hp1 : p < i + 1
        · have hq1 : q ≤ i := by omega
          simp only [hp1, hq, and_self, if_true]
          rw [hlow p q hq hp, c4 p (by omega), c4 q hq1, c5 p (by omega), c5 q hq1]
        · have hne : ¬ (q = i + 1 ∧ p < i + 1) := fun hh => hp1 hh.2
          have hn1 : ¬ (p < i + 1 ∧ q ≤ p) := fun hh => hp1 hh.1
          rw [if_neg hn1, if_neg hn1, if_neg hne, if_neg hne]
          unfold hA2
          by_cases hp2 : p = i + 1 ∧ q < i + 1
          · rw [if_pos hp2, if_pos hp2]
            exact c4 q (by omega)
          · rw [if_neg hp2, if_neg hp2]
            exact hlow p q hq hp
      · intro r hr hrn
        rcases Nat.eq_or_lt_of_le (Nat.succ_le_of_lt hr) with h1 | h1
        · subst h1
          refine ⟨?_, Or.inl ⟨?_, ?_⟩⟩
          · simp only [lt_irrefl, if_false, if_true]
            rw [c1, c2]
          · simp only [set1, if_true]
            exact c3
          · intro p hp
            have hnle : ¬ (i + 1 ≤ p) := by omega
            simp only [hp, hnle, and_false, if_false, true_and, and_self, if_true]
            rw [c4 p (by omega), c3]
        · obtain ⟨he, hra⟩ := hrows r h1 hrn
          have hne : r ≠ i + 1 := by omega
          have hnlt : ¬ r < i + 1 := by omega
          have hcol : ∀ (u : TredState K) (p : Nat), p < r →
              (if p < i + 1 ∧ r ≤ p then
                u.a p r - (hU sqrt u.a i p * hQ sqrt u.a i r + hQ sqrt u.a i p * hU sqrt u.a i r)
              else if r = i + 1 ∧ p < i + 1 then hU sqrt u.a i p / hH sqrt u.a i
              else hA2 sqrt u.a i p r) = u.a p r := by
            intro u p hp
            have h1' : ¬ (p < i + 1 ∧ r ≤ p) := by omega
            have h2' : ¬ (r = i + 1 ∧ p < i + 1) := by omega
            have h3' : ¬ (p = i + 1 ∧ r < i + 1) := by omega
            simp only [h1', h2', h3', if_false, hA2]
          have hrow : ∀ (u : TredState K) (k : Nat), k < r →
              (if r < i + 1 ∧ k ≤ r then
                u.a r k - (hU sqrt u.a i r * hQ sqrt u.a i k + hQ sqrt u.a i r * hU sqrt u.a i k)
              else if k = i + 1 ∧ r < i + 1 then hU sqrt u.a i r / hH sqrt u.a i
              else hA2 sqrt u.a i r k) = u.a r k := by
            intro u k hk
            have h1' : ¬ (r < i + 1 ∧ k ≤ r) := by omega
            have h2' : ¬ (k = i + 1 ∧ r < i + 1) := by omega
            have h3' : ¬ (r = i + 1 ∧ k < i + 1) := by omega
            simp only [h1', h2', h3', if_false, hA2]
          refine ⟨by simpa [hnlt, hne] using he, ?_⟩
          rcases hra with ⟨hd, hc⟩ | hz | ⟨hd1, hd2⟩
          · refine Or.inl ⟨by simpa [set1, hne] using hd, ?_⟩
            intro p hp
            simp only []
            rw [hcol s p hp, hcol t p hp]
            exact hc p hp
          · refine Or.inr (Or.inl ?_)
            intro k hk
            simp only []
            rw [hrow s k hk]
            exact hz k hk
          · exact Or.inr (Or.inr ⟨by simpa [set1, hne] using hd1, by simpa [set1, hne] using hd2⟩)

theorem forDown_reduceRow_agree (sqrt : K → K) (n : Nat) :
    ∀ (c : Nat) (s t : TredState K), c < n → ReduceAgree n c s t →
      ReduceAgree n 0 (forDown (reduceRow sqrt) c s) (forDown (reduceRow sqrt) c t) := by
  intro c
  induction c with
  | zero => intro s t _ h; exact h
  | succ c ih =>
    intro s t hc h
    rw [forDown, forDown]
    exact ih _ _ (by omega) (reduceRow_agree sqrt n c hc s t h)

theorem accUpd_out (a : Nat → Nat → K) (i p q : Nat) (h : ¬ (p < i ∧ q < i)) :
    accUpd a i p q = a p q := by
  unfold accUpd
  rw [if_neg h]

theorem accumRow_a_out (i : Nat) (s : TredState K) (p q : Nat) (h : i < p ∨ i < q) :
    (accumRow i s).a p q = s.a p q := by
  rw [accumRow_eq]
  have h1 : ¬ ((p = i ∧ q < i) ∨ (q = i ∧ p < i)) := by omega
  have h2 : ¬ (p = i ∧ q = i) := by omega
  have h3 : ¬ (p < i ∧ q < i) := by omega
  simp only []
  rw [if_neg h1, if_neg h2, accUpd_out _ _ _ _ h3]
  split_ifs <;> rfl

theorem accumRow_d (i : Nat) (s : TredState K) : (accumRow i s).d = set1 s.d i (s.a i i) := by
  rw [accumRow_eq]

theorem accumRow_e (i : Nat) (s : TredState K) : (accumRow i s).e = s.e := by
  rw [accumRow_eq]

theorem forLoop_accumRow_e (n : Nat) (s : TredState K) : (forLoop accumRow n s).e = s.e := by
  induction n with
  | zero => rfl
  | succ n ih => rw [forLoop_succ, accumRow_e, ih]

theorem accumRow_agree (n i : Nat) (hi : i < n) (s t : TredState K) (h : AccAgree n i s t) :
    AccAgree n (i + 1) (accumRow i s) (accumRow i t) := by
  obtain ⟨hblk, hrows, hd⟩ := h
  obtain ⟨hrow, hra⟩ := hrows i le_rfl hi
  have hval : ∀ p q, p < i → q < i →
      (if s.d i ≠ 0 then accUpd s.a i p q else s.a p q) =
        (if t.d i ≠ 0 then accUpd t.a i p q else t.a p q) := by
    intro p q hp hq
    have hG : accG s.a i q = accG t.a i q := by
      unfold accG
      apply sum_congr rfl
      intro k hk
      have hk' := mem_range.mp hk
      rw [hrow k (by omega), hblk k q hk' hq]
    rcases hra with ⟨hdd, hc⟩ | hz | ⟨hd1, hd2⟩
    · have e1 : accUpd s.a i p q = accUpd t.a i p q := by
        unfold accUpd
        rw [if_pos ⟨hp, hq⟩, if_pos ⟨hp, hq⟩, hG, hblk p q hp hq, hc p hp]
      rw [hdd, e1, hblk p q hp hq]
    · have hGs : accG s.a i q = 0 := by
        unfold accG
        apply sum_eq_zero
        intro k hk
        rw [hz k (mem_range.mp hk), zero_mul]
      have hGt : accG t.a i q = 0 := by rw [← hG]; exact hGs
      have e1 : accUpd s.a i p q = s.a p q := by
        unfold accUpd
        rw [if_pos ⟨hp, hq⟩, hGs, zero_mul, sub_zero]
      have e2 : accUpd t.a i p q = t.a p q := by
        unfold accUpd
        rw [if_pos ⟨hp, hq⟩, hGt, zero_mul, sub_zero]
      rw [e1, e2, ite_self, ite_self]
      exact hblk p q hp hq
    · rw [hd1, hd2]
      simp only [ne_eq, not_true_eq_false, if_false]
      exact hblk p q hp hq
  refine ⟨?_, ?_, ?_⟩
  · intro p q hp hq
    rw [accumRow_eq, accumRow_eq]
    simp only []
    by_cases h1 : (p = i ∧ q < i) ∨ (q = i ∧ p < i)
    · rw [if_pos h1, if_pos h1]
    · rw [if_neg h1, if_neg h1]
      by_cases h2 : p = i ∧ q = i
      · rw [if_pos h2, if_pos h2]
      · rw [if_neg h2, if_neg h2]
        exact hval p q (by omega) (by omega)
  · intro r hr hrn
    obtain ⟨hrow', hra'⟩ := hrows r (by omega) hrn
    refine ⟨?_, ?_⟩
    · intro q hq
      rw [accumRow_a_out i s r q (Or.inl hr), accumRow_a_out i t r q (Or.inl hr)]
      exact hrow' q hq
    · have hne : r ≠ i := by omega
      rcases hra' with ⟨hdd, hc⟩ | hz | ⟨hd1, hd2⟩
      · refine Or.inl ⟨?_, ?_⟩
        · rw [accumRow_d, accumRow_d]
          simpa [set1, hne] using hdd
        · intro p hp
          rw [accumRow_a_out i s p r (Or.inr hr), accumRow_a_out i t p r (Or.inr hr)]
          exact hc p hp
      · refine Or.inr (Or.inl ?_)
        intro k hk
        rw [accumRow_a_out i s r k (Or.inl hr)]
        exact hz k hk
      · refine Or.inr (Or.inr ⟨?_, ?_⟩)
        · rw [accumRow_d]
          simpa [set1, hne] using hd1
        · rw [accumRow_d]
          simpa [set1, hne] using hd2
  · intro r hr
    rw [accumRow_d, accumRow_d]
    by_cases hri : r = i
    · subst hri
      simp only [set1, if_true]
      exact hrow r le_rfl
    · simp only [set1, hri, if_false]
      exact hd r (by omega)

theorem forLoop_accumRow_agree (n : Nat) (s t : TredState K) :
    ∀ i, i ≤ n → AccAgree n 0 s t → AccAgree n i (forLoop accumRow i s) (forLoop accumRow i t) := by
  intro i
  induction i with
  | zero => intro _ h; exact h
  | succ i ih =>
    intro hi h
    rw [forLoop_succ, forLoop_succ]
    exact accumRow_agree n i (by omega) _ _ (ih (by omega) h)

theorem shift_loop (e : Nat → K) (m : Nat) :
    forLoop (fun i e => set1 e i (e (i + 1))) m e = fun j => if j < m then e (j + 1) else e j := by
  induction m with
  | zero => simp [forLoop]
  | succ m ih =>
    rw [forLoop_succ, ih]
    funext j
    simp only [set1]
    by_cases hj : j = m
    · subst hj
      simp
    · by_cases hj' : j < m
      · simp [hj, hj', Nat.lt_succ_of_lt hj']
      · have : ¬ j < m + 1 := by omega
        simp [hj, hj', this]

/-- The arrays `tred3` returns, in terms of the two loops. -/
theorem tred3_eq (sqrt : K → K) (s : TredState K) (n : Nat) :
    (tred3 sqrt s n).a =
      (forLoop accumRow n
        { forDown (reduceRow sqrt) (n - 1) s with
          d := set1 (forDown (reduceRow sqrt) (n - 1) s).d 0 0
          e := set1 (forDown (reduceRow sqrt) (n - 1) s).e 0 0 }).a ∧
    (tred3 sqrt s n).d =
      (forLoop accumRow n
        { forDown (reduceRow sqrt) (n - 1) s with
          d := set1 (forDown (reduceRow sqrt) (n - 1) s).d 0 0
          e := set1 (forDown (reduceRow sqrt) (n - 1) s).e 0 0 }).d ∧
    (tred3 sqrt s n).e = fun j =>
      if j = n - 1 then 0
      else if j < n - 1 then set1 (forDown (reduceRow sqrt) (n - 1) s).e 0 0 (j + 1)
      else set1 (forDown (reduceRow sqrt) (n - 1) s).e 0 0 j := by
  refine ⟨rfl, rfl, ?_⟩
  unfold tred3
  simp only []
  rw [shift_loop, forLoop_accumRow_e]
  funext j
  simp only [set1]

/-- Two runs of `tred3` on arrays with the same lower triangle (diagonal included) on the
indices below `n`, from any `d`, `e`, return the same `a`, `d` and `e` on these indices. -/
theorem tred3_agree (sqrt : K → K) (n : Nat) (s t : TredState K)
    (h : ∀ p q, q ≤ p → p < n → s.a p q = t.a p q) :
    (∀ p q, p < n → q < n → (tred3 sqrt s n).a p q = (tred3 sqrt t n).a p q) ∧
    (∀ i, i < n → (tred3 sqrt s n).d i = (tred3 sqrt t n).d i) ∧
    (∀ i, i < n → (tred3 sqrt s n).e i = (tred3 sqrt t n).e i) := by
  rcases Nat.eq_zero_or_pos n with h0 | hn
  · subst h0
    exact ⟨fun p q hp => absurd hp (Nat.not_lt_zero p), fun i hi => absurd hi (Nat.not_lt_zero i),
      fun i hi => absurd hi (Nat.not_lt_zero i)⟩
  · have hR : ReduceAgree n 0 (forDown (reduceRow sqrt) (n - 1) s)
        (forDown (reduceRow sqrt) (n - 1) t) := by
      apply forDown_reduceRow_agree sqrt n (n - 1) s t (by omega)
      exact ⟨h, fun r hr hrn => absurd hrn (by omega)⟩
    obtain ⟨hlow, hrows⟩ := hR
    have hA0 : AccAgree n 0
        { forDown (reduceRow sqrt) (n - 1) s with
          d := set1 (forDown (reduceRow sqrt) (n - 1) s).d 0 0
          e := set1 (forDown (reduceRow sqrt) (n - 1) s).e 0 0 }
        { forDown (reduceRow sqrt) (n - 1) t with
          d := set1 (forDown (reduceRow sqrt) (n - 1) t).d 0 0
          e := set1 (forDown (reduceRow sqrt) (n - 1) t).e 0 0 } := by
      refine ⟨fun p q hp => absurd hp (Nat.not_lt_zero p), ?_, fun r hr => absurd hr (Nat.not_lt_zero r)⟩
      intro r _ hrn
      refine ⟨fun q hq => hlow r q hq hrn, ?_⟩
      rcases Nat.eq_zero_or_pos r with hr0 | hrpos
      · subst hr0
        exact Or.inr (Or.inr ⟨by simp [set1], by simp [set1]⟩)
      · have hne : r ≠ 0 := by omega
        rcases (hrows r hrpos hrn).2 with ⟨hdd, hc⟩ | hz | ⟨hd1, hd2⟩
        · exact Or.inl ⟨by simpa [set1, hne] using hdd, hc⟩
        · exact Or.inr (Or.inl hz)
        · exact Or.inr (Or.inr ⟨by simpa [set1, hne] using hd1, by simpa [set1, hne] using hd2⟩)
    obtain ⟨hb, -, hd⟩ := forLoop_accumRow_agree n _ _ n le_rfl hA0
    obtain ⟨sa, sd, se⟩ := tred3_eq sqrt s n
    obtain ⟨ta, td, te⟩ := tred3_eq sqrt t n
    refine ⟨?_, ?_, ?_⟩
    · intro p q hp hq
      rw [sa, ta]
      exact hb p q hp hq
    · intro i hi
      rw [sd, td]
      exact hd i hi
    · intro i hi
      rw [se, te]
      simp only []
      by_cases h1 : i = n - 1
      · rw [if_pos h1, if_pos h1]
      · rw [if_neg h1, if_neg h1]
        have h2 : i < n - 1 := by omega
        rw [if_pos h2, if_pos h2]
        have hne : i + 1 ≠ 0 := by omega
        simp only [set1, hne, if_false]
        exact (hrows (i + 1) (by omega) (by omega)).1

/-! ## Diagonal input -/

theorem hScale_zero_of_row (a : Nat → Nat → K) (l : Nat) (h : ∀ k, k < l + 1 → a (l + 1) k = 0) :
    hScale a l = 0 := by
  rw [hScale_eq]
  apply sum_eq_zero
  intro k hk
  rw [h k (mem_range.mp hk), abs_zero]

theorem forDown_reduceRow_diag (sqrt : K → K) (n : Nat) :
    ∀ (c : Nat) (u : TredState K), c < n →
      (∀ p q, p < n → q < n → p ≠ q → u.a p q = 0) →
      (forDown (reduceRow sqrt) c u).a = u.a ∧
      (∀ r, 1 ≤ r → r ≤ c → (forDown (reduceRow sqrt) c u).e r = 0) ∧
      (∀ r, c < r → (forDown (reduceRow sqrt) c u).e r = u.e r) := by
  intro c
  induction c with
  | zero =>
    intro u _ _
    exact ⟨rfl, fun r h1 h2 => absurd h1 (by omega), fun r _ => rfl⟩
  | succ c ih =>
    intro u hc hdiag
    have hz : u.a (c + 1) c = 0 := hdiag _ _ hc (by omega) (by omega)
    have hstep : (reduceRow sqrt (c + 1) u).a = u.a ∧
        (reduceRow sqrt (c + 1) u).e = set1 u.e (c + 1) 0 := by
      rcases Nat.eq_zero_or_pos c with h0 | hpos
      · subst h0
        rw [reduceRow_low sqrt 1 u rfl]
        exact ⟨rfl, by rw [← hz]⟩
      · have hs : hScale u.a c = 0 :=
          hScale_zero_of_row u.a c (fun k hk => hdiag _ _ hc (by omega) (by omega))
        rw [reduceRow_skip sqrt c u hpos hs]
        exact ⟨rfl, by rw [← hz]⟩
    obtain ⟨i1, i2, i3⟩ := ih (reduceRow sqrt (c + 1) u) (by omega)
      (by rw [hstep.1]; exact hdiag)
    rw [forDown]
    refine ⟨by rw [i1, hstep.1], ?_, ?_⟩
    · intro r h1 h2
      rcases Nat.eq_or_lt_of_le h2 with h3 | h3
      · rw [i3 r (by omega), hstep.2, h3]
        simp [set1]
      · exact i2 r h1 (by omega)
    · intro r hr
      rw [i3 r (by omega), hstep.2]
      have : r ≠ c + 1 := by omega
      simp [set1, this]

theorem forLoop_accumRow_diag (n : Nat) (A : Nat → Nat → K)
    (hdiag : ∀ p q, p < n → q < n → p ≠ q → A p q = 0) :
    ∀ (i : Nat) (w : TredState K), i ≤ n → (∀ p q, p < n → q < n → w.a p q = A p q) →
      (∀ p q, p < n → q < n → (forLoop accumRow i w).a p q =
        if p = q then (if p < i then 1 else A p p) else 0) ∧
      (∀ r, r < i → (forLoop accumRow i w).d r = A r r) := by
  intro i
  induction i with
  | zero =>
    intro w _ hw
    refine ⟨?_, fun r hr => absurd hr (Nat.not_lt_zero r)⟩
    intro p q hp hq
    rw [forLoop_zero, hw p q hp hq]
    by_cases hpq : p = q
    · subst hpq
      simp
    · rw [if_neg hpq]
      exact hdiag p q hp hq hpq
  | succ i ih =>
    intro w hi hw
    obtain ⟨ia, id⟩ := ih w (by omega) hw
    rw [forLoop_succ]
    have hin : i < n := by omega
    have hG : ∀ q, accG (forLoop accumRow i w).a i q = 0 := by
      intro q
      unfold accG
      apply sum_eq_zero
      intro k hk
      have hk' := mem_range.mp hk
      have hne : ¬ i = k := by omega
      rw [ia i k hin (by omega), if_neg hne, zero_mul]
    have hU : ∀ p q, accUpd (forLoop accumRow i w).a i p q = (forLoop accumRow i w).a p q := by
      intro p q
      unfold accUpd
      rw [hG q, zero_mul, sub_zero, ite_self]
    refine ⟨?_, ?_⟩
    · intro p q hp hq
      rw [accumRow_eq]
      simp only []
      rw [hU p q, ite_self]
      by_cases h1 : (p = i ∧ q < i) ∨ (q = i ∧ p < i)
      · rw [if_pos h1]
        have hpq : ¬ p = q := by omega
        rw [if_neg hpq]
      · rw [if_neg h1]
        by_cases h2 : p = i ∧ q = i
        · rw [if_pos h2]
          have hpq : p = q := by omega
          have hlt : p < i + 1 := by omega
          rw [if_pos hpq, if_pos hlt]
        · rw [if_neg h2, ia p q hp hq]
          by_cases hpq : p = q
          · have hne : p ≠ i := by omega
            have hiff : p < i + 1 ↔ p < i := by omega
            simp only [hpq, if_true]
            subst hpq
            by_cases hlt : p < i
            · rw [if_pos hlt, if_pos (by omega)]
            · rw [if_neg hlt, if_neg (by omega)]
          · rw [if_neg hpq, if_neg hpq]
    · intro r hr
      rw [accumRow_d]
      by_cases hri : r = i
      · subst hri
        simp only [set1, if_true]
        rw [ia r r hin hin]
        simp
      · simp only [set1, hri, if_false]
        exact id r (by omega)

/-- C13. The result of `tred3` does not depend on the contents of `d` and `e` on entry: for
every `n`, every matrix `A` and any two initial pairs `(d1, e1)`, `(d2, e2)`, the two runs
return the same `a`, `d` and `e` on the indices below `n`, over any ordered field and with
any function for `sqrt` (so over the reals with the real square root). This covers the runs
in which a row `i ≥ 2` has zero scale and the `continue` skips `d(i) = h`. -/
theorem tred3_initial_d_e_irrelevant (sqrt : K → K) (n : Nat) (A : Nat → Nat → K)
    (d1 e1 d2 e2 : Nat → K) :
    (∀ p q, p < n → q < n →
      (tred3 sqrt { a := A, d := d1, e := e1, divs := [] } n).a p q =
        (tred3 sqrt { a := A, d := d2, e := e2, divs := [] } n).a p q) ∧
    (∀ i, i < n →
      (tred3 sqrt { a := A, d := d1, e := e1, divs := [] } n).d i =
        (tred3 sqrt { a := A, d := d2, e := e2, divs := [] } n).d i) ∧
    (∀ i, i < n →
      (tred3 sqrt { a := A, d := d1, e := e1, divs := [] } n).e i =
        (tred3 sqrt { a := A, d := d2, e := e2, divs := [] } n).e i) :=
  tred3_agree sqrt n _ _ (fun _ _ _ _ => rfl)

/-- C17. `tred3` reads only the lower triangle, diagonal included, of its input: for every
`n` and any two matrices `A`, `B` with `A(i,j) = B(i,j)` for all `j ≤ i < n`, the runs on
`A` and on `B` from the same `d`, `e` return the same `a`, `d` and `e` on the indices below
`n`, over any ordered field and with any function for `sqrt`. -/
theorem tred3_reads_lower_triangle (sqrt : K → K) (n : Nat) (A B : Nat → Nat → K)
    (d e : Nat → K) (h : ∀ i j, j ≤ i → i < n → A i j = B i j) :
    (∀ p q, p < n → q < n →
      (tred3 sqrt { a := A, d := d, e := e, divs := [] } n).a p q =
        (tred3 sqrt { a := B, d := d, e := e, divs := [] } n).a p q) ∧
    (∀ i, i < n →
      (tred3 sqrt { a := A, d := d, e := e, divs := [] } n).d i =
        (tred3 sqrt { a := B, d := d, e := e, divs := [] } n).d i) ∧
    (∀ i, i < n →
      (tred3 sqrt { a := A, d := d, e := e, divs := [] } n).e i =
        (tred3 sqrt { a := B, d := d, e := e, divs := [] } n).e i) :=
  tred3_agree sqrt n _ _ h

/-- C18. For every `n` and every matrix `A` that is diagonal on the indices below `n`, from
any `d`, `e`, `tred3` returns `a = Identity(n)`, `d(i) = A(i,i)` and `e(i) = 0` for all
`i < n`; and for every input with `n ≥ 1`, `e(n-1) = 0` on return. -/
theorem tred3_diagonal (sqrt : K → K) (n : Nat) (s : TredState K)
    (hdiag : ∀ p q, p < n → q < n → p ≠ q → s.a p q = 0) :
    (∀ p q, p < n → q < n → (tred3 sqrt s n).a p q = if p = q then 1 else 0) ∧
    (∀ i, i < n → (tred3 sqrt s n).d i = s.a i i) ∧
    (∀ i, i < n → (tred3 sqrt s n).e i = 0) ∧
    ∀ (t : TredState K) (k : Nat), 1 ≤ k → (tred3 sqrt t k).e (k - 1) = 0 := by
  have hlast : ∀ (t : TredState K) (k : Nat), 1 ≤ k → (tred3 sqrt t k).e (k - 1) = 0 := by
    intro t k _
    rw [(tred3_eq sqrt t k).2.2]
    simp
  rcases Nat.eq_zero_or_pos n with h0 | hn
  · subst h0
    exact ⟨fun p q hp => absurd hp (Nat.not_lt_zero p), fun i hi => absurd hi (Nat.not_lt_zero i),
      fun i hi => absurd hi (Nat.not_lt_zero i), hlast⟩
  · obtain ⟨r1, r2, -⟩ := forDown_reduceRow_diag sqrt n (n - 1) s (by omega) hdiag
    obtain ⟨sa, sd, se⟩ := tred3_eq sqrt s n
    obtain ⟨ia, id⟩ := forLoop_accumRow_diag n s.a hdiag n
      { forDown (reduceRow sqrt) (n - 1) s with
        d := set1 (forDown (reduceRow sqrt) (n - 1) s).d 0 0
        e := set1 (forDown (reduceRow sqrt) (n - 1) s).e 0 0 } le_rfl
      (fun p q _ _ => by rw [r1])
    refine ⟨?_, ?_, ?_, hlast⟩
    · intro p q hp hq
      rw [sa, ia p q hp hq]
      by_cases hpq : p = q
      · rw [if_pos hpq, if_pos hpq, if_pos hp]
      · rw [if_neg hpq, if_neg hpq]
    · intro i hi
      rw [sd]
      exact id i hi
    · intro i hi
      rw [se]
      simp only []
      by_cases h1 : i = n - 1
      · rw [if_pos h1]
      · have h2 : i < n - 1 := by omega
        have hne : i + 1 ≠ 0 := by omega
        rw [if_neg h1, if_pos h2]
        simp only [set1, hne, if_false]
        exact r2 (i + 1) (by omega) (by omega)

theorem tred3_initial_d_e_irrelevant_witness :
    rowScale (fun p q => if p = q then (2 : ℚ) else if p + q = 1 then 1 else 0) 2 1 = 0 ∧
    (7 : ℚ) ≠ 0 ∧
    (tred3 (fun x => x)
      { a := fun p q => if p = q then (2 : ℚ) else if p + q = 1 then 1 else 0,
        d := fun _ => 7, e := fun _ => 7, divs := [] } 3).d 2 =
    (tred3 (fun x => x)
      { a := fun p q => if p = q then (2 : ℚ) else if p + q = 1 then 1 else 0,
        d := fun _ => 0, e := fun _ => 0, divs := [] } 3).d 2 :=
  ⟨by simp [rowScale, forLoop], by norm_num,
    (tred3_initial_d_e_irrelevant (fun x => x) 3 _ _ _ _ _).2.1 2 (by decide)⟩

theorem tred3_reads_lower_triangle_witness :
    (∀ i j, j ≤ i → i < 3 →
      (fun p q => if q ≤ p then ((p + q + 1 : Nat) : ℚ) else 7) i j =
        (fun p q => if q ≤ p then ((p + q + 1 : Nat) : ℚ) else 9) i j) ∧
    (fun p q => if q ≤ p then ((p + q + 1 : Nat) : ℚ) else 7) 0 1 ≠
      (fun p q => if q ≤ p then ((p + q + 1 : Nat) : ℚ) else 9) 0 1 ∧
    (tred3 (fun x => x)
      { a := fun p q => if q ≤ p then ((p + q + 1 : Nat) : ℚ) else 7,
        d := fun _ => 0, e := fun _ => 0, divs := [] } 3).a 0 1 =
    (tred3 (fun x => x)
      { a := fun p q => if q ≤ p then ((p + q + 1 : Nat) : ℚ) else 9,
        d := fun _ => 0, e := fun _ => 0, divs := [] } 3).a 0 1 :=
  ⟨fun i j hj _ => by simp [hj], by norm_num,
    (tred3_reads_lower_triangle (fun x => x) 3 _ _ _ _
      (fun i j hj _ => by simp [hj])).1 0 1 (by decide) (by decide)⟩

theorem tred3_diagonal_witness :
    (∀ p q, p < 3 → q < 3 → p ≠ q →
      (fun p q => if p = q then ((p + 2 : Nat) : ℚ) else 0) p q = 0) ∧
    (tred3 (fun x => x)
      { a := fun p q => if p = q then ((p + 2 : Nat) : ℚ) else 0,
        d := fun _ => 5, e := fun _ => 3, divs := [] } 3).d 2 = ((2 + 2 : Nat) : ℚ) ∧
    (tred3 (fun x => x)
      { a := fun p q => if p = q then ((p + 2 : Nat) : ℚ) else 0,
        d := fun _ => 5, e := fun _ => 3, divs := [] } 3).a 2 1 = 0 ∧
    (tred3 (fun x => x)
      { a := fun p q => if p = q then ((p + 2 : Nat) : ℚ) else 0,
        d := fun _ => 5, e := fun _ => 3, divs := [] } 3).e 1 = 0 :=
  ⟨fun p q _ _ h => by simp [h],
    (tred3_diagonal (fun x => x) 3 _ (fun p q _ _ h => by simp [h])).2.1 2 (by decide),
    (tred3_diagonal (fun x => x) 3 _ (fun p q _ _ h => by simp [h])).1 2 1 (by decide) (by decide),
    (tred3_diagonal (fun x => x) 3 _ (fun p q _ _ h => by simp [h])).2.2.1 1 (by decide)⟩

/-! ## Reflectors -/

theorem rankOne_transpose {n : Nat} (c r : Fin n → K) :
    (rankOne c r).transpose = rankOne r c := by
  ext p q
  simp [rankOne, Matrix.vecMulVec_apply, Matrix.one_apply, mul_comm, eq_comm]

theorem rankOne_conj {n : Nat} (M : Matrix (Fin n) (Fin n) K) (c r : Fin n → K) (p q : Fin n) :
    ((rankOne c r).transpose * M * rankOne c r) p q =
      M p q - r p * (∑ a, c a * M a q) - (∑ b, M p b * c b) * r q
        + r p * (∑ a, ∑ b, c a * M a b * c b) * r q := by
  rw [rankOne_transpose]
  unfold rankOne
  have hx : (1 - Matrix.vecMulVec r c) * M * (1 - Matrix.vecMulVec c r) =
      M - Matrix.vecMulVec r c * M - M * Matrix.vecMulVec c r
        + Matrix.vecMulVec r c * M * Matrix.vecMulVec c r := by
    noncomm_ring
  rw [hx]
  simp only [Matrix.sub_apply, Matrix.add_apply, Matrix.mul_apply, Matrix.vecMulVec_apply]
  have e1 : ∑ x, r p * c x * M x q = r p * ∑ a, c a * M a q := by
    rw [mul_sum]; exact sum_congr rfl (fun x _ => by ring)
  have e2 : ∑ x, M p x * (c x * r q) = (∑ b, M p b * c b) * r q := by
    rw [sum_mul]; exact sum_congr rfl (fun x _ => by ring)
  have e3 : ∑ x, (∑ y, r p * c y * M y x) * (c x * r q) =
      r p * (∑ a, ∑ b, c a * M a b * c b) * r q := by
    simp only [sum_mul, mul_sum]
    rw [sum_comm]
    exact sum_congr rfl (fun x _ => sum_congr rfl (fun y _ => by ring))
  rw [e1, e2, e3]

theorem rankOne_mul_self {n : Nat} (c r : Fin n → K) (h : ∑ a, r a * c a = 2) :
    rankOne c r * rankOne c r = 1 := by
  unfold rankOne
  rw [Matrix.sub_mul, Matrix.mul_sub, Matrix.mul_sub, Matrix.one_mul, Matrix.mul_one,
    Matrix.one_mul]
  have : Matrix.vecMulVec c r * Matrix.vecMulVec c r = (2 : K) • Matrix.vecMulVec c r := by
    ext p q
    simp only [Matrix.mul_apply, Matrix.vecMulVec_apply, Matrix.smul_apply, smul_eq_mul]
    rw [← h, sum_mul]
    exact sum_congr rfl (fun x _ => by ring)
  rw [this]
  ext p q
  simp only [Matrix.sub_apply, Matrix.smul_apply, smul_eq_mul]
  ring

theorem rankOne_zero_row {n : Nat} (c : Fin n → K) : rankOne c (fun _ => 0) = 1 := by
  ext p q
  simp [rankOne, Matrix.vecMulVec_apply]

theorem curM_symm (a : Nat → Nat → K) (e : Nat → K) (i p q : Nat) :
    curM a e i p q = curM a e i q p := by
  unfold curM
  by_cases h1 : p ≤ i ∧ q ≤ i
  · have h2 : q ≤ i ∧ p ≤ i := ⟨h1.2, h1.1⟩
    simp only [h1, h2, and_self, if_true, max_comm, min_comm]
  · have h2 : ¬ (q ≤ i ∧ p ≤ i) := fun h => h1 ⟨h.2, h.1⟩
    simp only [h1, h2, if_false]
    by_cases h3 : p = q
    · subst h3; rfl
    · have h3' : ¬ q = p := fun h => h3 h.symm
      simp only [h3, h3', if_false]
      by_cases h4 : p = q + 1
      · have h5 : ¬ q = p + 1 := by omega
        rw [if_pos h4, if_neg h5, if_pos h4]
      · by_cases h5 : q = p + 1
        · rw [if_neg h4, if_pos h5, if_pos h5]
        · rw [if_neg h4, if_neg h5, if_neg h5, if_neg h4]

theorem sum_fin_ite (n i : Nat) (hi : i ≤ n) (G : Nat → K) :
    ∑ a : Fin n, (if (a : Nat) < i then G a else 0) = ∑ a in range i, G a := by
  rw [Fin.sum_univ_eq_sum_range (fun a => if a < i then G a else 0) n]
  symm
  rw [← sum_subset (range_subset.2 hi) (f := fun a => if a < i then G a else 0)]
  · apply sum_congr rfl
    intro a ha
    simp [mem_range.mp ha]
  · intro a _ ha
    have : ¬ a < i := fun h => ha (mem_range.mpr h)
    simp [this]

/-- The conjugation of a symmetric matrix `M` by the reflector `1 - (u/H)·uᵗ` supported on
the indices up to `l`, entry by entry, in terms of `w = M·u/H` and `κ = uᵗ·M·u/H²`. -/
theorem householder_conj (n l : Nat) (hl : l + 1 ≤ n) (M : Nat → Nat → K)
    (hM : ∀ p q, M p q = M q p) (u w : Nat → K) (H κ : K)
    (hw : ∀ q, q < n → ∑ x in range (l + 1), u x / H * M x q = w q)
    (hκ : ∑ x in range (l + 1), u x / H * w x = κ) (p q : Fin n) :
    ((rankOne (fun k : Fin n => if (k : Nat) < l + 1 then u k / H else 0)
        (fun k : Fin n => if (k : Nat) < l + 1 then u k else 0)).transpose * toMat n M *
      rankOne (fun k : Fin n => if (k : Nat) < l + 1 then u k / H else 0)
        (fun k : Fin n => if (k : Nat) < l + 1 then u k else 0)) p q =
    M p q - (if (p : Nat) < l + 1 then u p else 0) * w q
      - w p * (if (q : Nat) < l + 1 then u q else 0)
      + (if (p : Nat) < l + 1 then u p else 0) * κ * (if (q : Nat) < l + 1 then u q else 0) := by
  rw [rankOne_conj]
  have e1 : ∀ t : Fin n, ∑ x : Fin n, (if (x : Nat) < l + 1 then u x / H else 0) * toMat n M x t
      = w t := by
    intro t
    have : ∀ x : Fin n, (if (x : Nat) < l + 1 then u x / H else 0) * toMat n M x t =
        if (x : Nat) < l + 1 then u x / H * M x t else 0 := by
      intro x
      unfold toMat
      split_ifs <;> simp
    rw [sum_congr rfl (fun x _ => this x), sum_fin_ite n (l + 1) hl (fun x => u x / H * M x t)]
    exact hw t t.isLt
  have e2 : ∀ t : Fin n, ∑ x : Fin n, toMat n M t x * (if (x : Nat) < l + 1 then u x / H else 0)
      = w t := by
    intro t
    rw [← e1 t]
    apply sum_congr rfl
    intro x _
    unfold toMat
    rw [hM t x, mul_comm]
  have e3 : ∑ x : Fin n, ∑ y : Fin n, (if (x : Nat) < l + 1 then u x / H else 0) * toMat n M x y *
      (if (y : Nat) < l + 1 then u y / H else 0) = κ := by
    have : ∀ x : Fin n, ∑ y : Fin n, (if (x : Nat) < l + 1 then u x / H else 0) * toMat n M x y *
        (if (y : Nat) < l + 1 then u y / H else 0) =
        if (x : Nat) < l + 1 then u x / H * w x else 0 := by
      intro x
      have h1 : ∑ y : Fin n, (if (x : Nat) < l + 1 then u x / H else 0) * toMat n M x y *
          (if (y : Nat) < l + 1 then u y / H else 0) =
          (if (x : Nat) < l + 1 then u x / H else 0) *
            ∑ y : Fin n, toMat n M x y * (if (y : Nat) < l + 1 then u y / H else 0) := by
        rw [mul_sum]
        exact sum_congr rfl (fun y _ => by ring)
      rw [h1, e2 x]
      split_ifs <;> simp
    rw [sum_congr rfl (fun x _ => this x), sum_fin_ite n (l + 1) hl (fun x => u x / H * w x)]
    exact hκ
  rw [e1 q, e2 p, e3]
  rfl

/-- The sum `g` of lines 57-58 is the product of the row `j` of the symmetric matrix stored
in the lower triangle with the vector `u`. -/
theorem gsum_eq (sqrt : K → K) (a : Nat → Nat → K) (l j : Nat) (hj : j ≤ l) :
    gsum (hA2 sqrt a l) (l + 1) l j =
      ∑ x in range (l + 1), hU sqrt a l x * a (max x j) (min x j) := by
  have hA2row : ∀ k, k < l + 1 → hA2 sqrt a l (l + 1) k = hU sqrt a l k := by
    intro k hk
    simp [hA2, hk]
  have hA2low : ∀ p q, p < l + 1 → hA2 sqrt a l p q = a p q := by
    intro p q hp
    have : p ≠ l + 1 := by omega
    simp [hA2, this]
  unfold gsum
  have hsplit : (j + 1) + (l - j) = l + 1 := by omega
  have hsum := sum_range_add (fun x => hU sqrt a l x * a (max x j) (min x j)) (j + 1) (l - j)
  rw [hsplit] at hsum
  rw [hsum]
  congr 1
  · apply sum_congr rfl
    intro k hk
    have hk' := mem_range.mp hk
    rw [hA2low j k (by omega), hA2row k (by omega), max_eq_right (by omega : k ≤ j),
      min_eq_left (by omega : k ≤ j), mul_comm]
  · apply sum_congr rfl
    intro t ht
    have ht' := mem_range.mp ht
    rw [hA2low (j + 1 + t) j (by omega), hA2row (j + 1 + t) (by omega),
      max_eq_left (by omega : j ≤ j + 1 + t), min_eq_right (by omega : j ≤ j + 1 + t), mul_comm]

theorem hW_sum (sqrt : K → K) (hnn : ∀ x, 0 ≤ sqrt x) (a : Nat → Nat → K) (e : Nat → K)
    (l : Nat) (hs : hScale a l ≠ 0) (q : Nat) :
    ∑ x in range (l + 1), hU sqrt a l x / hH sqrt a l * curM a e (l + 1) x q = hW sqrt a l q := by
  have hH0 : hH sqrt a l ≠ 0 := ne_of_gt (hH_pos sqrt hnn a l hs)
  unfold hW
  by_cases h1 : q < l + 1
  · rw [if_pos h1]
    unfold hP
    rw [gsum_eq sqrt a l q (by omega), sum_div]
    apply sum_congr rfl
    intro x hx
    have hx' := mem_range.mp hx
    have hc : x ≤ l + 1 ∧ q ≤ l + 1 := ⟨by omega, by omega⟩
    unfold curM
    rw [if_pos hc]
    ring
  · rw [if_neg h1]
    by_cases h2 : q = l + 1
    · rw [if_pos h2]
      subst h2
      have hterm : ∀ x ∈ range (l + 1), hU sqrt a l x / hH sqrt a l * curM a e (l + 1) x (l + 1) =
          hScale a l / hH sqrt a l * (hX a l x * hU sqrt a l x) := by
        intro x hx
        have hx' := mem_range.mp hx
        have hc : x ≤ l + 1 ∧ l + 1 ≤ l + 1 := ⟨by omega, le_rfl⟩
        unfold curM
        rw [if_pos hc, max_eq_right (by omega : x ≤ l + 1), min_eq_left (by omega : x ≤ l + 1),
          ← hX_mul a l x hs]
        ring
      rw [sum_congr rfl hterm, ← mul_sum, hX_hU_sum]
      field_simp
    · rw [if_neg h2]
      apply sum_eq_zero
      intro x hx
      have hx' := mem_range.mp hx
      have c1 : ¬ (x ≤ l + 1 ∧ q ≤ l + 1) := by omega
      have c2 : ¬ x = q := by omega
      have c3 : ¬ x = q + 1 := by omega
      have c4 : ¬ q = x + 1 := by omega
      unfold curM
      rw [if_neg c1, if_neg c2, if_neg c3, if_neg c4, mul_zero]

theorem hW_kappa (sqrt : K → K) (hnn : ∀ x, 0 ≤ sqrt x) (a : Nat → Nat → K) (l : Nat)
    (hs : hScale a l ≠ 0) :
    ∑ x in range (l + 1), hU sqrt a l x / hH sqrt a l * hW sqrt a l x = 2 * hHH sqrt a l := by
  have hH0 : hH sqrt a l ≠ 0 := ne_of_gt (hH_pos sqrt hnn a l hs)
  have h1 : ∑ x in range (l + 1), hU sqrt a l x / hH sqrt a l * hW sqrt a l x =
      (∑ x in range (l + 1), hP sqrt a l x * hU sqrt a l x) / hH sqrt a l := by
    rw [sum_div]
    apply sum_congr rfl
    intro x hx
    have hx' := mem_range.mp hx
    unfold hW
    rw [if_pos hx']
    ring
  rw [h1]
  have h2 : hHH sqrt a l = (∑ x in range (l + 1), hP sqrt a l x * hU sqrt a l x) /
      (hH sqrt a l + hH sqrt a l) := rfl
  rw [h2]
  generalize (∑ x in range (l + 1), hP sqrt a l x * hU sqrt a l x) = S
  generalize hH sqrt a l = Hh at hH0
  rw [← two_mul, mul_div_assoc', mul_div_mul_left S Hh two_ne_zero]

/-- The entries of the arrays after a Householder step on the row `l+1`. -/
theorem householder_entries (sqrt : K → K) (s : TredState K) (l : Nat) (hl : 0 < l)
    (hs : hScale s.a l ≠ 0) :
    (∀ p q, q ≤ p → p < l + 1 → (reduceRow sqrt (l + 1) s).a p q =
      s.a p q - (hU sqrt s.a l p * hQ sqrt s.a l q + hQ sqrt s.a l p * hU sqrt s.a l q)) ∧
    (∀ k, k < l + 1 → (reduceRow sqrt (l + 1) s).a k (l + 1) = hU sqrt s.a l k / hH sqrt s.a l) ∧
    (∀ k, k < l + 1 → (reduceRow sqrt (l + 1) s).a (l + 1) k = hU sqrt s.a l k) ∧
    (∀ p q, l + 1 ≤ p → l + 1 ≤ q → (reduceRow sqrt (l + 1) s).a p q = s.a p q) ∧
    (∀ r k, l + 1 < r → (reduceRow sqrt (l + 1) s).a r k = s.a r k ∧
      (reduceRow sqrt (l + 1) s).a k r = s.a k r) ∧
    (reduceRow sqrt (l + 1) s).d = set1 s.d (l + 1) (hH sqrt s.a l) ∧
    (reduceRow sqrt (l + 1) s).e (l + 1) = hScale s.a l * hG sqrt s.a l ∧
    (∀ j, l + 1 < j → (reduceRow sqrt (l + 1) s).e j = s.e j) := by
  rw [reduceRow_householder sqrt s l hl hs]
  refine ⟨?_, ?_, ?_, ?_, ?_, rfl, ?_, ?_⟩
  · intro p q hq hp
    simp only [hA2]
    split_ifs <;> first | rfl | (exfalso; omega)
  · intro k hk
    simp only [hA2]
    split_ifs <;> first | rfl | (exfalso; omega) | simp_all
  · intro k hk
    simp only [hA2]
    split_ifs <;> first | rfl | (exfalso; omega) | simp_all
  · intro p q hp hq
    simp only [hA2]
    split_ifs <;> first | rfl | (exfalso; omega)
  · intro r k hr
    constructor
    · simp only [hA2]
      split_ifs <;> first | rfl | (exfalso; omega)
    · simp only [hA2]
      split_ifs <;> first | rfl | (exfalso; omega)
  · simp only []
    split_ifs <;> first | rfl | (exfalso; omega)
  · intro j hj
    simp only []
    split_ifs <;> first | rfl | (exfalso; omega)

/-- After a Householder step on the row `l+1`, the transformation stored for that row is
the reflector `1 - (u/H)·uᵗ`. -/
theorem Rfl_householder (sqrt : K → K) (hnn : ∀ x, 0 ≤ sqrt x) (n : Nat) (s : TredState K)
    (l : Nat) (hl : 0 < l) (hs : hScale s.a l ≠ 0) :
    Rfl n (reduceRow sqrt (l + 1) s) (l + 1) =
      rankOne (fun k : Fin n => if (k : Nat) < l + 1 then hU sqrt s.a l k / hH sqrt s.a l else 0)
        (fun k : Fin n => if (k : Nat) < l + 1 then hU sqrt s.a l k else 0) := by
  obtain ⟨-, e2, e3, -, -, e6, -, -⟩ := householder_entries sqrt s l hl hs
  have hH0 : hH sqrt s.a l ≠ 0 := ne_of_gt (hH_pos sqrt hnn s.a l hs)
  have hd : (reduceRow sqrt (l + 1) s).d (l + 1) ≠ 0 := by
    rw [e6]
    simpa [set1] using hH0
  have hc : (fun k : Fin n => reflC (reduceRow sqrt (l + 1) s).a (l + 1) k) =
      fun k : Fin n => if (k : Nat) < l + 1 then hU sqrt s.a l k / hH sqrt s.a l else 0 := by
    funext k
    unfold reflC
    by_cases hk : (k : Nat) < l + 1
    · rw [if_pos hk, if_pos hk, e2 k hk]
    · rw [if_neg hk, if_neg hk]
  have hr : (fun k : Fin n => reflR (reduceRow sqrt (l + 1) s).a (l + 1) k) =
      fun k : Fin n => if (k : Nat) < l + 1 then hU sqrt s.a l k else 0 := by
    funext k
    unfold reflR
    by_cases hk : (k : Nat) < l + 1
    · rw [if_pos hk, if_pos hk, e3 k hk]
    · rw [if_neg hk, if_neg hk]
  unfold Rfl
  rw [if_pos hd, hc, hr]

theorem reflector_symm_orth (sqrt : K → K) (hsq : ∀ x, 0 ≤ x → sqrt x * sqrt x = x)
    (hnn : ∀ x, 0 ≤ sqrt x) (n : Nat) (a : Nat → Nat → K) (l : Nat) (hln : l + 1 ≤ n)
    (hs : hScale a l ≠ 0) :
    (rankOne (fun k : Fin n => if (k : Nat) < l + 1 then hU sqrt a l k / hH sqrt a l else 0)
        (fun k : Fin n => if (k : Nat) < l + 1 then hU sqrt a l k else 0)).transpose =
      rankOne (fun k : Fin n => if (k : Nat) < l + 1 then hU sqrt a l k / hH sqrt a l else 0)
        (fun k : Fin n => if (k : Nat) < l + 1 then hU sqrt a l k else 0) ∧
    rankOne (fun k : Fin n => if (k : Nat) < l + 1 then hU sqrt a l k / hH sqrt a l else 0)
        (fun k : Fin n => if (k : Nat) < l + 1 then hU sqrt a l k else 0) *
      rankOne (fun k : Fin n => if (k : Nat) < l + 1 then hU sqrt a l k / hH sqrt a l else 0)
        (fun k : Fin n => if (k : Nat) < l + 1 then hU sqrt a l k else 0) = 1 := by
  have hH0 : hH sqrt a l ≠ 0 := ne_of_gt (hH_pos sqrt hnn a l hs)
  constructor
  · rw [rankOne_transpose]
    ext p q
    simp only [rankOne, Matrix.sub_apply, Matrix.vecMulVec_apply]
    congr 1
    split_ifs <;> ring
  · apply rankOne_mul_self
    have : ∀ x : Fin n, (if (x : Nat) < l + 1 then hU sqrt a l x else 0) *
        (if (x : Nat) < l + 1 then hU sqrt a l x / hH sqrt a l else 0) =
        if (x : Nat) < l + 1 then hU sqrt a l x * hU sqrt a l x / hH sqrt a l else 0 := by
      intro x
      split_ifs
      · ring
      · simp
    rw [sum_congr rfl (fun x _ => this x),
      sum_fin_ite n (l + 1) hln (fun x => hU sqrt a l x * hU sqrt a l x / hH sqrt a l),
      ← sum_div, hU_sq_sum sqrt hsq a l]
    field_simp

theorem curM_in (a : Nat → Nat → K) (e : Nat → K) (i p q : Nat) (hp : p ≤ i) (hq : q ≤ i) :
    curM a e i p q = a (max p q) (min p q) := by
  unfold curM
  rw [if_pos ⟨hp, hq⟩]

theorem curM_diag (a : Nat → Nat → K) (e : Nat → K) (i p : Nat) : curM a e i p p = a p p := by
  unfold curM
  by_cases h : p ≤ i ∧ p ≤ i
  · rw [if_pos h, max_self, min_self]
  · rw [if_neg h, if_pos rfl]

theorem curM_sub (a : Nat → Nat → K) (e : Nat → K) (i q : Nat) (h : i < q + 1) :
    curM a e i (q + 1) q = e (q + 1) := by
  unfold curM
  rw [if_neg (by omega), if_neg (by omega), if_pos rfl]

theorem curM_far (a : Nat → Nat → K) (e : Nat → K) (i p q : Nat) (h : i < p ∨ i < q)
    (h1 : p ≠ q) (h2 : p ≠ q + 1) (h3 : q ≠ p + 1) : curM a e i p q = 0 := by
  unfold curM
  rw [if_neg (by omega), if_neg h1, if_neg h2, if_neg h3]

theorem hW_lt (sqrt : K → K) (a : Nat → Nat → K) (l q : Nat) (h : q < l + 1) :
    hW sqrt a l q = hP sqrt a l q := by
  unfold hW
  rw [if_pos h]

theorem hW_eq (sqrt : K → K) (a : Nat → Nat → K) (l : Nat) :
    hW sqrt a l (l + 1) = hScale a l := by
  unfold hW
  rw [if_neg (lt_irrefl _), if_pos rfl]

theorem hW_gt (sqrt : K → K) (a : Nat → Nat → K) (l q : Nat) (h : l + 1 < q) :
    hW sqrt a l q = 0 := by
  unfold hW
  rw [if_neg (by omega), if_neg (by omega)]

/-- The entry `(l+1, Q)` of the matrix after a Householder step on the row `l+1`:
the reflected row is `scale·g` at `l` and zero before. -/
theorem householder_row (sqrt : K → K) (a : Nat → Nat → K) (l Q : Nat)
    (hs : hScale a l ≠ 0) :
    a (l + 1) Q - hScale a l * hU sqrt a l Q =
      if Q = l then hScale a l * hG sqrt a l else 0 := by
  rw [← hX_mul a l Q hs]
  unfold hU
  by_cases hQl : Q = l
  · rw [if_pos hQl, if_pos hQl, hQl]
    ring
  · rw [if_neg hQl, if_neg hQl]
    ring

/-- A Householder step on the row `l+1` conjugates the current symmetric matrix by the
reflector it stores. -/
theorem reduceRow_conj (sqrt : K → K) (hnn : ∀ x, 0 ≤ sqrt x) (n : Nat) (s : TredState K)
    (l : Nat) (hl : 0 < l) (hln : l + 1 < n) (hs : hScale s.a l ≠ 0) :
    (Rfl n (reduceRow sqrt (l + 1) s) (l + 1)).transpose * toMat n (curM s.a s.e (l + 1)) *
      Rfl n (reduceRow sqrt (l + 1) s) (l + 1) =
    toMat n (curM (reduceRow sqrt (l + 1) s).a (reduceRow sqrt (l + 1) s).e l) := by
  obtain ⟨e1, -, -, e4, e5, -, e7, e8⟩ := householder_entries sqrt s l hl hs
  rw [Rfl_householder sqrt hnn n s l hl hs]
  ext p q
  rw [householder_conj n l (by omega) (curM s.a s.e (l + 1)) (curM_symm s.a s.e (l + 1))
    (hU sqrt s.a l) (hW sqrt s.a l) (hH sqrt s.a l) (2 * hHH sqrt s.a l)
    (fun t _ => hW_sum sqrt hnn s.a s.e l hs t) (hW_kappa sqrt hnn s.a l hs) p q]
  show _ = curM (reduceRow sqrt (l + 1) s).a (reduceRow sqrt (l + 1) s).e l p q
  generalize (p : Nat) = P
  generalize (q : Nat) = Q
  rcases Nat.lt_trichotomy P (l + 1) with hp | hp | hp
  · rcases Nat.lt_trichotomy Q (l + 1) with hq | hq | hq
    · -- both inside the block
      rw [curM_in _ _ _ P Q (by omega) (by omega), curM_in _ _ _ P Q (by omega) (by omega),
        if_pos hp, if_pos hq, hW_lt _ _ _ P hp, hW_lt _ _ _ Q hq,
        e1 (max P Q) (min P Q) (min_le_max) (max_lt hp hq)]
      unfold hQ
      rcases le_total P Q with h | h
      · rw [max_eq_right h, min_eq_left h]
        ring
      · rw [max_eq_left h, min_eq_right h]
        ring
    · -- the column l+1
      subst hq
      rw [curM_in _ _ _ P (l + 1) (by omega) le_rfl, if_pos hp, if_neg (lt_irrefl _), hW_eq,
        max_eq_right (by omega : P ≤ l + 1), min_eq_left (by omega : P ≤ l + 1),
        curM_symm _ _ l P (l + 1)]
      have hrow := householder_row sqrt s.a l P hs
      by_cases hPl : P = l
      · subst hPl
        rw [curM_sub _ _ _ _ (by omega), e7]
        rw [if_pos rfl] at hrow
        linear_combination hrow
      · rw [curM_far _ _ l (l + 1) P (by omega) (by omega) (by omega) (by omega)]
        rw [if_neg hPl] at hrow
        linear_combination hrow
    · rw [curM_far _ _ (l + 1) P Q (by omega) (by omega) (by omega) (by omega),
        curM_far _ _ l P Q (by omega) (by omega) (by omega) (by omega), if_pos hp,
        if_neg (by omega : ¬ Q < l + 1), hW_gt _ _ _ Q hq]
      ring
  · subst hp
    rcases Nat.lt_trichotomy Q (l + 1) with hq | hq | hq
    · -- the row l+1
      rw [curM_in _ _ _ (l + 1) Q le_rfl (by omega), if_neg (lt_irrefl _), if_pos hq, hW_eq,
        max_eq_left (by omega : Q ≤ l + 1), min_eq_right (by omega : Q ≤ l + 1)]
      have hrow := householder_row sqrt s.a l Q hs
      by_cases hQl : Q = l
      · subst hQl
        rw [curM_sub _ _ _ _ (by omega), e7]
        rw [if_pos rfl] at hrow
        linear_combination hrow
      · rw [curM_far _ _ l (l + 1) Q (by omega) (by omega) (by omega) (by omega)]
        rw [if_neg hQl] at hrow
        linear_combination hrow
    · subst hq
      rw [curM_diag, curM_diag, if_neg (lt_irrefl _), e4 (l + 1) (l + 1) le_rfl le_rfl]
      ring
    · rw [if_neg (lt_irrefl _), if_neg (by omega : ¬ Q < l + 1), hW_gt _ _ _ Q hq]
      by_cases h7 : Q = l + 1 + 1
      · subst h7
        rw [curM_symm _ _ (l + 1) (l + 1) (l + 1 + 1), curM_symm _ _ l (l + 1) (l + 1 + 1),
          curM_sub _ _ _ _ (by omega), curM_sub _ _ _ _ (by omega), e8 _ (by omega)]
        ring
      · rw [curM_far _ _ (l + 1) (l + 1) Q (by omega) (by omega) (by omega) (by omega),
          curM_far _ _ l (l + 1) Q (by omega) (by omega) (by omega) (by omega)]
        ring
  · rw [if_neg (by omega : ¬ P < l + 1), hW_gt _ _ _ P hp]
    have hgoal : curM s.a s.e (l + 1) P Q =
        curM (reduceRow sqrt (l + 1) s).a (reduceRow sqrt (l + 1) s).e l P Q := by
      by_cases h5 : P = Q
      · subst h5
        rw [curM_diag, curM_diag, e4 P P (by omega) (by omega)]
      · by_cases h6 : P = Q + 1
        · subst h6
          rw [curM_sub _ _ _ _ (by omega), curM_sub _ _ _ _ (by omega), e8 _ hp]
        · by_cases h7 : Q = P + 1
          · subst h7
            rw [curM_symm _ _ (l + 1) P (P + 1), curM_symm _ _ l P (P + 1),
              curM_sub _ _ _ _ (by omega), curM_sub _ _ _ _ (by omega), e8 _ (by omega)]
          · rw [curM_far _ _ (l + 1) P Q (by omega) h5 h6 h7,
              curM_far _ _ l P Q (by omega) h5 h6 h7]
    rw [← hgoal]
    ring

/-! ## The reduction loop as a chain of conjugations -/

theorem Rfl_congr (n : Nat) (s t : TredState K) (r : Nat) (hd : t.d r = s.d r)
    (hrow : ∀ k, k < r → t.a r k = s.a r k) (hcol : ∀ k, k < r → t.a k r = s.a k r) :
    Rfl n t r = Rfl n s r := by
  have hc : (fun k : Fin n => reflC t.a r k) = fun k : Fin n => reflC s.a r k := by
    funext k
    unfold reflC
    by_cases hk : (k : Nat) < r
    · rw [if_pos hk, if_pos hk, hcol k hk]
    · rw [if_neg hk, if_neg hk]
  have hr : (fun k : Fin n => reflR t.a r k) = fun k : Fin n => reflR s.a r k := by
    funext k
    unfold reflR
    by_cases hk : (k : Nat) < r
    · rw [if_pos hk, if_pos hk, hrow k hk]
    · rw [if_neg hk, if_neg hk]
  unfold Rfl
  rw [hd, hc, hr]

theorem Rfl_zero_row (n : Nat) (s : TredState K) (r : Nat) (h : ∀ k, k < r → s.a r k = 0) :
    Rfl n s r = 1 := by
  unfold Rfl
  have hr : (fun k : Fin n => reflR s.a r k) = fun _ => 0 := by
    funext k
    unfold reflR
    by_cases hk : (k : Nat) < r
    · rw [if_pos hk, h k hk]
    · rw [if_neg hk]
  rw [hr, rankOne_zero_row, ite_self]

theorem Rfl_zero_d (n : Nat) (s : TredState K) (r : Nat) (h : s.d r = 0) : Rfl n s r = 1 := by
  unfold Rfl
  rw [if_neg (by simpa using h)]

/-- What a step of the reduction loop on the row `i` leaves untouched: the rows and the
columns beyond `i`, and `d`, `e` beyond `i`. -/
theorem reduceRow_keeps (sqrt : K → K) (i : Nat) (s : TredState K) (r : Nat) (hr : i < r) :
    (reduceRow sqrt i s).d r = s.d r ∧ (reduceRow sqrt i s).e r = s.e r ∧
    (∀ k, (reduceRow sqrt i s).a r k = s.a r k) ∧ (∀ k, (reduceRow sqrt i s).a k r = s.a k r) := by
  rcases Nat.eq_zero_or_pos (i - 1) with h0 | hpos
  · rw [reduceRow_low sqrt i s h0]
    have hne : r ≠ i := by omega
    exact ⟨by simp [set1, hne], by simp [set1, hne], fun _ => rfl, fun _ => rfl⟩
  · obtain ⟨l, rfl⟩ : ∃ l, i = l + 1 := ⟨i - 1, by omega⟩
    have hl : 0 < l := by simpa using hpos
    have hne : r ≠ l + 1 := by omega
    by_cases hs : hScale s.a l = 0
    · rw [reduceRow_skip sqrt l s hl hs]
      exact ⟨rfl, by simp [set1, hne], fun _ => rfl, fun _ => rfl⟩
    · obtain ⟨-, -, -, -, e5, e6, -, e8⟩ := householder_entries sqrt s l hl hs
      refine ⟨?_, e8 r hr, fun k => (e5 r k hr).1, fun k => (e5 r k hr).2⟩
      rw [e6]
      simp [set1, hne]

theorem segUp_congr (n : Nat) (s t : TredState K) (lo : Nat)
    (h : ∀ r, lo ≤ r → Rfl n t r = Rfl n s r) : ∀ k, segUp n t lo k = segUp n s lo k := by
  intro k
  induction k with
  | zero => rfl
  | succ k ih => rw [segUp, segUp, ih, h (lo + k) (by omega)]

theorem segUp_shift (n : Nat) (s : TredState K) (lo : Nat) :
    ∀ k, segUp n s lo (k + 1) = segUp n s (lo + 1) k * Rfl n s lo := by
  intro k
  induction k with
  | zero => simp [segUp]
  | succ k ih =>
    rw [segUp, ih, segUp, Matrix.mul_assoc]
    have : lo + 1 + k = lo + (k + 1) := by omega
    rw [this]

/-- A step of the reduction loop on the row `i ≥ 1` conjugates the current symmetric
matrix by the transformation it stores for that row, which is symmetric and an
involution. -/
theorem reduceRow_step (sqrt : K → K) (hsq : ∀ x, 0 ≤ x → sqrt x * sqrt x = x)
    (hnn : ∀ x, 0 ≤ sqrt x) (n i : Nat) (hi : i + 1 < n) (s : TredState K) :
    (Rfl n (reduceRow sqrt (i + 1) s) (i + 1)).transpose * toMat n (curM s.a s.e (i + 1)) *
        Rfl n (reduceRow sqrt (i + 1) s) (i + 1) =
      toMat n (curM (reduceRow sqrt (i + 1) s).a (reduceRow sqrt (i + 1) s).e i) ∧
    (Rfl n (reduceRow sqrt (i + 1) s) (i + 1)).transpose =
      Rfl n (reduceRow sqrt (i + 1) s) (i + 1) ∧
    Rfl n (reduceRow sqrt (i + 1) s) (i + 1) * Rfl n (reduceRow sqrt (i + 1) s) (i + 1) = 1 := by
  have hone : ∀ (t : TredState K), Rfl n t (i + 1) = 1 →
      toMat n (curM s.a s.e (i + 1)) = toMat n (curM t.a t.e i) →
      (Rfl n t (i + 1)).transpose * toMat n (curM s.a s.e (i + 1)) * Rfl n t (i + 1) =
        toMat n (curM t.a t.e i) ∧
      (Rfl n t (i + 1)).transpose = Rfl n t (i + 1) ∧ Rfl n t (i + 1) * Rfl n t (i + 1) = 1 := by
    intro t h1 h2
    rw [h1, Matrix.transpose_one, Matrix.one_mul, Matrix.mul_one]
    exact ⟨h2, rfl, Matrix.one_mul 1⟩
  rcases Nat.eq_zero_or_pos i with h0 | hpos
  · subst h0
    apply hone
    · apply Rfl_zero_d
      rw [reduceRow_low sqrt 1 s rfl]
      simp [set1]
    · rw [reduceRow_low sqrt 1 s rfl]
      ext p q
      show curM s.a s.e 1 p q = curM s.a (set1 s.e 1 (s.a 1 0)) 0 p q
      generalize (p : Nat) = P
      generalize (q : Nat) = Q
      by_cases h5 : P = Q
      · subst h5
        rw [curM_diag, curM_diag]
      · by_cases h6 : P = Q + 1
        · subst h6
          rw [curM_sub _ _ 0 Q (by omega)]
          rcases Nat.eq_zero_or_pos Q with hq | hq
          · subst hq
            rw [curM_in _ _ 1 1 0 le_rfl (by omega)]
            simp [set1]
          · rw [curM_sub _ _ 1 Q (by omega)]
            have : Q + 1 ≠ 1 := by omega
            simp [set1, this]
        · by_cases h7 : Q = P + 1
          · subst h7
            rw [curM_symm _ _ 1 P (P + 1), curM_symm _ _ 0 P (P + 1),
              curM_sub _ _ 0 P (by omega)]
            rcases Nat.eq_zero_or_pos P with hq | hq
            · subst hq
              rw [curM_in _ _ 1 1 0 le_rfl (by omega)]
              simp [set1]
            · rw [curM_sub _ _ 1 P (by omega)]
              have : P + 1 ≠ 1 := by omega
              simp [set1, this]
          · have hf : 1 < P ∨ 1 < Q := by omega
            rw [curM_far _ _ 1 P Q hf h5 h6 h7, curM_far _ _ 0 P Q (by omega) h5 h6 h7]
  · by_cases hs : hScale s.a i = 0
    · have hz := row_zero_of_hScale s.a i hs
      apply hone
      · apply Rfl_zero_row
        intro k hk
        rw [reduceRow_skip sqrt i s hpos hs]
        exact hz k hk
      · rw [reduceRow_skip sqrt i s hpos hs]
        ext p q
        show curM s.a s.e (i + 1) p q = curM s.a (set1 s.e (i + 1) (s.a (i + 1) i)) i p q
        generalize (p : Nat) = P
        generalize (q : Nat) = Q
        by_cases h5 : P = Q
        · subst h5
          rw [curM_diag, curM_diag]
        · by_cases hin : P ≤ i ∧ Q ≤ i
          · rw [curM_in _ _ (i + 1) P Q (by omega) (by omega), curM_in _ _ i P Q hin.1 hin.2]
          · by_cases h6 : P = Q + 1
            · subst h6
              rw [curM_sub _ _ i Q (by omega)]
              by_cases hq : Q = i
              · subst hq
                rw [curM_in _ _ (Q + 1) (Q + 1) Q le_rfl (by omega)]
                simp [set1]
              · rw [curM_sub _ _ (i + 1) Q (by omega)]
                have : Q + 1 ≠ i + 1 := by omega
                simp [set1, this]
            · by_cases h7 : Q = P + 1
              · subst h7
                rw [curM_symm _ _ (i + 1) P (P + 1), curM_symm _ _ i P (P + 1),
                  curM_sub _ _ i P (by omega)]
                by_cases hq : P = i
                · subst hq
                  rw [curM_in _ _ (P + 1) (P + 1) P le_rfl (by omega)]
                  simp [set1]
                · rw [curM_sub _ _ (i + 1) P (by omega)]
                  have : P + 1 ≠ i + 1 := by omega
                  simp [set1, this]
              · rw [curM_far _ _ i P Q (by omega) h5 h6 h7]
                by_cases hf : i + 1 < P ∨ i + 1 < Q
                · rw [curM_far _ _ (i + 1) P Q hf h5 h6 h7]
                · rw [curM_in _ _ (i + 1) P Q (by omega) (by omega)]
                  rcases le_total P Q with hPQ | hPQ
                  · rw [max_eq_right hPQ, min_eq_left hPQ]
                    have hQ : Q = i + 1 := by omega
                    subst hQ
                    exact hz P (by omega)
                  · rw [max_eq_left hPQ, min_eq_right hPQ]
                    have hP : P = i + 1 := by omega
                    subst hP
                    exact hz Q (by omega)
    · refine ⟨reduceRow_conj sqrt hnn n s i hpos hi hs, ?_, ?_⟩
      · rw [Rfl_householder sqrt hnn n s i hpos hs]
        exact (reflector_symm_orth sqrt hsq hnn n s.a i (by omega) hs).1
      · rw [Rfl_householder sqrt hnn n s i hpos hs]
        exact (reflector_symm_orth sqrt hsq hnn n s.a i (by omega) hs).2

theorem redInv_step (sqrt : K → K) (hsq : ∀ x, 0 ≤ x → sqrt x * sqrt x = x)
    (hnn : ∀ x, 0 ≤ sqrt x) (n : Nat) (A : Nat → Nat → K) (i : Nat) (hi : i + 1 < n)
    (s : TredState K) (h : RedInv n A (i + 1) s) :
    RedInv n A i (reduceRow sqrt (i + 1) s) := by
  obtain ⟨h1, h2⟩ := h
  obtain ⟨c1, c2, c3⟩ := reduceRow_step sqrt hsq hnn n i hi s
  have hk : n - 1 - i = (n - 1 - (i + 1)) + 1 := by omega
  have hX : segUp n (reduceRow sqrt (i + 1) s) (i + 1) (n - 1 - i) =
      segUp n s (i + 1 + 1) (n - 1 - (i + 1)) * Rfl n (reduceRow sqrt (i + 1) s) (i + 1) := by
    rw [hk, segUp_shift]
    congr 1
    apply segUp_congr
    intro r hr
    obtain ⟨k1, -, k3, k4⟩ := reduceRow_keeps sqrt (i + 1) s r (by omega)
    exact Rfl_congr n s _ r k1 (fun k _ => k3 k) (fun k _ => k4 k)
  unfold RedInv
  rw [hX, ← c1, h1]
  constructor
  · rw [Matrix.transpose_mul]
    simp only [Matrix.mul_assoc]
  · rw [Matrix.transpose_mul, Matrix.mul_assoc,
      ← Matrix.mul_assoc (segUp n s (i + 1 + 1) (n - 1 - (i + 1))).transpose, h2,
      Matrix.one_mul, c2, c3]

theorem redInv_forDown (sqrt : K → K) (hsq : ∀ x, 0 ≤ x → sqrt x * sqrt x = x)
    (hnn : ∀ x, 0 ≤ sqrt x) (n : Nat) (A : Nat → Nat → K) :
    ∀ (c : Nat) (s : TredState K), c < n → RedInv n A c s →
      RedInv n A 0 (forDown (reduceRow sqrt) c s) := by
  intro c
  induction c with
  | zero => intro s _ h; exact h
  | succ c ih =>
    intro s hc h
    rw [forDown]
    exact ih _ (by omega) (redInv_step sqrt hsq hnn n A c hc s h)

theorem redInv_init (n : Nat) (A : Nat → Nat → K) (hA : ∀ p q, p < n → q < n → A p q = A q p)
    (s : TredState K) (hs : s.a = A) : RedInv n A (n - 1) s := by
  have h0 : n - 1 - (n - 1) = 0 := by omega
  unfold RedInv
  rw [h0]
  simp only [segUp, Matrix.transpose_one, Matrix.one_mul, Matrix.mul_one, and_true]
  ext p q
  show curM s.a s.e (n - 1) p q = A p q
  have hp := p.isLt
  have hq := q.isLt
  rw [curM_in _ _ _ _ _ (by omega) (by omega), hs]
  rcases le_total (p : Nat) q with h | h
  · rw [max_eq_right h, min_eq_left h]
    exact hA q p hq hp
  · rw [max_eq_left h, min_eq_right h]

/-! ## The accumulation loop as a product -/

theorem accumRow_a (i : Nat) (w : TredState K) (p q : Nat) :
    (accumRow i w).a p q =
      if (p = i ∧ q < i) ∨ (q = i ∧ p < i) then 0
      else if p = i ∧ q = i then 1
      else if w.d i ≠ 0 then accUpd w.a i p q else w.a p q := by
  rw [accumRow_eq]

/-- The body of the accumulation loop for the row `i` multiplies the leading block,
completed by the identity, by the transformation stored for that row. -/
theorem accumRow_blockId (n i : Nat) (hi : i < n) (w : TredState K) :
    toMat n (blockId (accumRow i w).a (i + 1)) = Rfl n w i * toMat n (blockId w.a i) := by
  have hsum : ∀ q : Fin n, ∑ k : Fin n, reflR w.a i k * blockId w.a i k q =
      if (q : Nat) < i then accG w.a i q else 0 := by
    intro q
    have h1 : ∀ k : Fin n, reflR w.a i k * blockId w.a i k q =
        if (k : Nat) < i then (if (q : Nat) < i then w.a i k * w.a k q else 0) else 0 := by
      intro k
      unfold reflR blockId
      by_cases hk : (k : Nat) < i
      · by_cases hq : (q : Nat) < i
        · rw [if_pos hk, if_pos ⟨hk, hq⟩, if_pos hk, if_pos hq]
        · have hne : ¬ (k : Nat) = q := by omega
          rw [if_pos hk, if_neg (fun h => hq h.2), if_neg hne, if_pos hk, if_neg hq, mul_zero]
      · rw [if_neg hk, if_neg hk, zero_mul]
    rw [sum_congr rfl (fun k _ => h1 k),
      sum_fin_ite n i (by omega) (fun k => if (q : Nat) < i then w.a i k * w.a k q else 0)]
    by_cases hq : (q : Nat) < i
    · simp only [hq, if_true]
      rfl
    · simp only [hq, if_false]
      exact sum_const_zero
  ext p q
  have hL : toMat n (blockId (accumRow i w).a (i + 1)) p q =
      blockId (accumRow i w).a (i + 1) p q := rfl
  have hB : toMat n (blockId w.a i) p q = blockId w.a i p q := rfl
  have hR : (Rfl n w i * toMat n (blockId w.a i)) p q =
      blockId w.a i p q -
        (if w.d i ≠ 0 then
          (if (p : Nat) < i then w.a p i else 0) * (if (q : Nat) < i then accG w.a i q else 0)
        else 0) := by
    unfold Rfl
    by_cases hd : w.d i ≠ 0
    · rw [if_pos hd, if_pos hd]
      unfold rankOne
      rw [Matrix.sub_mul, Matrix.one_mul, Matrix.sub_apply, hB, Matrix.mul_apply]
      congr 1
      simp only [Matrix.vecMulVec_apply]
      have : ∀ k : Fin n, reflC w.a i p * reflR w.a i k * toMat n (blockId w.a i) k q =
          reflC w.a i p * (reflR w.a i k * blockId w.a i k q) := by
        intro k
        rw [mul_assoc]
        rfl
      rw [sum_congr rfl (fun k _ => this k), ← mul_sum, hsum q]
      rfl
    · rw [if_neg hd, if_neg hd, Matrix.one_mul, sub_zero, hB]
  rw [hL, hR]
  generalize (p : Nat) = P
  generalize (q : Nat) = Q
  unfold blockId
  by_cases hp : P < i
  · by_cases hq : Q < i
    · have c1 : ¬ ((P = i ∧ Q < i) ∨ (Q = i ∧ P < i)) := by omega
      have c2 : ¬ (P = i ∧ Q = i) := by omega
      have hb : P < i ∧ Q < i := ⟨hp, hq⟩
      have hb1 : P < i + 1 ∧ Q < i + 1 := ⟨by omega, by omega⟩
      rw [if_pos hb1, accumRow_a, if_neg c1, if_neg c2, if_pos hb, if_pos hp, if_pos hq]
      unfold accUpd
      rw [if_pos hb]
      by_cases hd : w.d i ≠ 0
      · rw [if_pos hd, if_pos hd]
        ring
      · rw [if_neg hd, if_neg hd, sub_zero]
    · have c3 : ¬ (P < i ∧ Q < i) := fun h => hq h.2
      rw [if_neg c3, if_pos hp, if_neg hq, mul_zero, ite_self, sub_zero]
      by_cases hQi : Q = i
      · have c1 : (P = i ∧ Q < i) ∨ (Q = i ∧ P < i) := Or.inr ⟨hQi, hp⟩
        have hne : ¬ P = Q := by omega
        have hb1 : P < i + 1 ∧ Q < i + 1 := ⟨by omega, by omega⟩
        rw [if_pos hb1, accumRow_a, if_pos c1, if_neg hne]
      · have c0 : ¬ (P < i + 1 ∧ Q < i + 1) := by omega
        rw [if_neg c0]
  · have c3 : ¬ (P < i ∧ Q < i) := fun h => hp h.1
    rw [if_neg c3, if_neg hp, zero_mul, ite_self, sub_zero]
    by_cases hPi : P = i
    · by_cases hq : Q < i
      · have c1 : (P = i ∧ Q < i) ∨ (Q = i ∧ P < i) := Or.inl ⟨hPi, hq⟩
        have hne : ¬ P = Q := by omega
        have hb1 : P < i + 1 ∧ Q < i + 1 := ⟨by omega, by omega⟩
        rw [if_pos hb1, accumRow_a, if_pos c1, if_neg hne]
      · by_cases hQi : Q = i
        · have c1 : ¬ ((P = i ∧ Q < i) ∨ (Q = i ∧ P < i)) := by omega
          have hPQ : P = Q := by omega
          have hb1 : P < i + 1 ∧ Q < i + 1 := ⟨by omega, by omega⟩
          have hb2 : P = i ∧ Q = i := ⟨hPi, hQi⟩
          rw [if_pos hb1, accumRow_a, if_neg c1, if_pos hb2, if_pos hPQ]
        · have c0 : ¬ (P < i + 1 ∧ Q < i + 1) := by omega
          rw [if_neg c0]
    · have c0 : ¬ (P < i + 1 ∧ Q < i + 1) := by omega
      rw [if_neg c0]

theorem segUp_shift_eq (n : Nat) (s : TredState K) (lo k m : Nat) (h : m = k + 1) :
    segUp n s lo m = segUp n s (lo + 1) k * Rfl n s lo := by
  subst h
  exact segUp_shift n s lo k

/-- What the accumulation loop has done when the rows below `i` are processed. -/
theorem forLoop_accumRow_prod (n : Nat) (s : TredState K) :
    ∀ i, i ≤ n →
      toMat n (blockId (forLoop accumRow i s).a i) = segUp n s 0 i ∧
      (∀ p q, i ≤ p ∨ i ≤ q → (forLoop accumRow i s).a p q = s.a p q) ∧
      (∀ r, i ≤ r → (forLoop accumRow i s).d r = s.d r) ∧
      (∀ r, r < i → (forLoop accumRow i s).d r = s.a r r) := by
  intro i
  induction i with
  | zero =>
    intro _
    refine ⟨?_, fun _ _ _ => rfl, fun _ _ => rfl, fun r hr => absurd hr (Nat.not_lt_zero r)⟩
    ext p q
    show blockId s.a 0 p q = (1 : Matrix (Fin n) (Fin n) K) p q
    unfold blockId
    rw [if_neg (by omega), Matrix.one_apply]
    by_cases h : p = q
    · rw [if_pos h, if_pos (congrArg Fin.val h)]
    · rw [if_neg h, if_neg (fun hh => h (Fin.ext hh))]
  | succ i ih =>
    intro hi
    obtain ⟨i1, i2, i3, i4⟩ := ih (by omega)
    rw [forLoop_succ]
    refine ⟨?_, ?_, ?_, ?_⟩
    · rw [accumRow_blockId n i (by omega), i1, segUp, Nat.zero_add]
      congr 1
      exact Rfl_congr n s _ i (i3 i le_rfl) (fun k _ => i2 i k (Or.inl le_rfl))
        (fun k _ => i2 k i (Or.inr le_rfl))
    · intro p q hpq
      rw [accumRow_a_out i _ p q (by omega)]
      exact i2 p q (by omega)
    · intro r hr
      rw [accumRow_d]
      have hne : r ≠ i := by omega
      simp only [set1, hne, if_false]
      exact i3 r (by omega)
    · intro r hr
      rw [accumRow_d]
      by_cases hri : r = i
      · subst hri
        simp only [set1, if_true]
        exact i2 r r (Or.inl le_rfl)
      · simp only [set1, hri, if_false]
        exact i4 r (by omega)

/-- The result of `tred3` on a symmetric input, for a function `sqrt` that is a square
root on the nonnegative elements: the array returned is an orthogonal matrix `Q`, and
`Qᵗ·A·Q` is the tridiagonal matrix of the `d` and `e` returned. -/
theorem tred3_correct (sqrt : K → K) (hsq : ∀ x, 0 ≤ x → sqrt x * sqrt x = x)
    (hnn : ∀ x, 0 ≤ sqrt x) (n : Nat) (s : TredState K)
    (hA : ∀ p q, p < n → q < n → s.a p q = s.a q p) :
    (toMat n (tred3 sqrt s n).a).transpose * toMat n s.a * toMat n (tred3 sqrt s n).a =
      toMat n (tridiag (tred3 sqrt s n).d (tred3 sqrt s n).e) ∧
    (toMat n (tred3 sqrt s n).a).transpose * toMat n (tred3 sqrt s n).a = 1 := by
  rcases Nat.eq_zero_or_pos n with h0 | hn
  · subst h0
    constructor
    · ext p
      exact absurd p.isLt (Nat.not_lt_zero _)
    · ext p
      exact absurd p.isLt (Nat.not_lt_zero _)
  · obtain ⟨r1, r2⟩ := redInv_forDown sqrt hsq hnn n s.a (n - 1) s (by omega)
      (redInv_init n s.a hA s rfl)
    obtain ⟨sa, sd, se⟩ := tred3_eq sqrt s n
    obtain ⟨p1, -, -, p4⟩ := forLoop_accumRow_prod n
      { forDown (reduceRow sqrt) (n - 1) s with
        d := set1 (forDown (reduceRow sqrt) (n - 1) s).d 0 0
        e := set1 (forDown (reduceRow sqrt) (n - 1) s).e 0 0 } n le_rfl
    have hQ : toMat n (tred3 sqrt s n).a =
        segUp n (forDown (reduceRow sqrt) (n - 1) s) (0 + 1) (n - 1 - 0) := by
      have hb : toMat n (tred3 sqrt s n).a = toMat n (blockId (tred3 sqrt s n).a n) := by
        ext p q
        show _ = blockId (tred3 sqrt s n).a n p q
        unfold blockId
        rw [if_pos ⟨p.isLt, q.isLt⟩]
        rfl
      have hk : n = (n - 1 - 0) + 1 := by omega
      rw [hb, sa, p1, segUp_shift_eq n _ 0 (n - 1 - 0) n hk,
        Rfl_zero_d n _ 0 (by simp [set1]), Matrix.mul_one]
      apply segUp_congr
      intro r hr
      have hne : r ≠ 0 := by omega
      exact Rfl_congr n _ _ r (by simp [set1, hne]) (fun _ _ => rfl) (fun _ _ => rfl)
    rw [hQ]
    refine ⟨?_, r2⟩
    rw [← r1]
    ext p q
    show curM _ _ 0 p q = tridiag (tred3 sqrt s n).d (tred3 sqrt s n).e p q
    have hp := p.isLt
    have hq := q.isLt
    have hd : ∀ r, r < n → (tred3 sqrt s n).d r = (forDown (reduceRow sqrt) (n - 1) s).a r r := by
      intro r hr
      rw [sd]
      exact p4 r hr
    have he : ∀ r, r + 1 < n →
        (tred3 sqrt s n).e r = (forDown (reduceRow sqrt) (n - 1) s).e (r + 1) := by
      intro r hr
      rw [se]
      have h1 : ¬ r = n - 1 := by omega
      have h2 : r < n - 1 := by omega
      have hne : r + 1 ≠ 0 := by omega
      simp only [h1, h2, if_true, if_false, set1, hne]
    generalize (p : Nat) = P at hp
    generalize (q : Nat) = Q at hq
    unfold tridiag
    by_cases h5 : P = Q
    · subst h5
      rw [curM_diag, if_pos rfl, hd P hp]
    · rw [if_neg h5]
      by_cases h6 : P = Q + 1
      · subst h6
        rw [curM_sub _ _ 0 Q (by omega), if_pos rfl, he Q hp]
      · rw [if_neg h6]
        by_cases h7 : Q = P + 1
        · subst h7
          rw [curM_symm, curM_sub _ _ 0 P (by omega), if_pos rfl, he P hq]
        · rw [if_neg h7, curM_far _ _ 0 P Q (by omega) h5 h6 h7]

/-- C1. For every `n` and every real symmetric `n × n` matrix `A`, from any `d`, `e`,
`tred3` in exact real arithmetic leaves in `a` a matrix `Q` and in `d`, `e` vectors such
that `Qᵗ·A·Q = T`, the symmetric tridiagonal matrix with `T(i,i) = d(i)` and
`T(i+1,i) = T(i,i+1) = e(i)`, all other entries zero. -/
theorem tred3_tridiagonalises (n : Nat) (A : Nat → Nat → ℝ) (d e : Nat → ℝ)
    (hA : ∀ p q, p < n → q < n → A p q = A q p) :
    (toMat n (tred3 Real.sqrt { a := A, d := d, e := e, divs := [] } n).a).transpose *
        toMat n A * toMat n (tred3 Real.sqrt { a := A, d := d, e := e, divs := [] } n).a =
      toMat n (tridiag (tred3 Real.sqrt { a := A, d := d, e := e, divs := [] } n).d
        (tred3 Real.sqrt { a := A, d := d, e := e, divs := [] } n).e) :=
  (tred3_correct Real.sqrt (fun _ hx => Real.mul_self_sqrt hx) Real.sqrt_nonneg n
    { a := A, d := d, e := e, divs := [] } hA).1

theorem tred3_tridiagonalises_witness :
    (∀ p q, p < 3 → q < 3 →
      (fun p q : Nat => ((p + q + 1 : Nat) : ℝ)) p q = (fun p q : Nat => ((p + q + 1 : Nat) : ℝ)) q p) ∧
    (toMat 3 (tred3 Real.sqrt
        { a := fun p q => ((p + q + 1 : Nat) : ℝ), d := fun _ => 0, e := fun _ => 0,
          divs := [] } 3).a).transpose *
        toMat 3 (fun p q => ((p + q + 1 : Nat) : ℝ)) *
        toMat 3 (tred3 Real.sqrt
          { a := fun p q => ((p + q + 1 : Nat) : ℝ), d := fun _ => 0, e := fun _ => 0,
            divs := [] } 3).a =
      toMat 3 (tridiag
        (tred3 Real.sqrt
          { a := fun p q => ((p + q + 1 : Nat) : ℝ), d := fun _ => 0, e := fun _ => 0,
            divs := [] } 3).d
        (tred3 Real.sqrt
          { a := fun p q => ((p + q + 1 : Nat) : ℝ), d := fun _ => 0, e := fun _ => 0,
            divs := [] } 3).e) :=
  ⟨fun p q _ _ => by simp [add_comm],
    tred3_tridiagonalises 3 _ _ _ (fun p q _ _ => by simp [add_comm])⟩

/-- C2. For every `n` and every real symmetric `n × n` matrix `A`, from any `d`, `e`, the
matrix `Q` that `tred3` (with the eigenvector accumulation) leaves in `a` is orthogonal:
`Qᵗ·Q = Identity(n)`, in exact real arithmetic. -/
theorem tred3_orthogonal (n : Nat) (A : Nat → Nat → ℝ) (d e : Nat → ℝ)
    (hA : ∀ p q, p < n → q < n → A p q = A q p) :
    (toMat n (tred3 Real.sqrt { a := A, d := d, e := e, divs := [] } n).a).transpose *
      toMat n (tred3 Real.sqrt { a := A, d := d, e := e, divs := [] } n).a = 1 :=
  (tred3_correct Real.sqrt (fun _ hx => Real.mul_self_sqrt hx) Real.sqrt_nonneg n
    { a := A, d := d, e := e, divs := [] } hA).2

theorem tred3_orthogonal_witness :
    (∀ p q, p < 3 → q < 3 →
      (fun p q : Nat => ((p * q : Nat) : ℝ)) p q = (fun p q : Nat => ((p * q : Nat) : ℝ)) q p) ∧
    (toMat 3 (tred3 Real.sqrt
        { a := fun p q => ((p * q : Nat) : ℝ), d := fun _ => 0, e := fun _ => 0,
          divs := [] } 3).a).transpose *
      toMat 3 (tred3 Real.sqrt
        { a := fun p q => ((p * q : Nat) : ℝ), d := fun _ => 0, e := fun _ => 0,
          divs := [] } 3).a = 1 :=
  ⟨fun p q _ _ => by simp [mul_comm],
    tred3_orthogonal 3 _ _ _ (fun p q _ _ => by simp [mul_comm])⟩

end Tred3Theorems

/-! # Theorems in double precision -/

section DoubleTheorems

set_option maxRecDepth 100000

set_option exponentiation.threshold 4000

/-- C15, the claim as stated fails in the arithmetic of the program. In the first growth
iteration the blocks are the initial `H12`, `Sz⊗I`, `Sp⊗I`, `Sm⊗I`, which are symmetric,
respectively transposes of each other, also as doubles. With the truncation matrix `OO` of
rows `(0, 0.6, 0.8, 0)` and `(0, -0.8, 0.6, 0)`, the transformed block `HAp = OO·(H12·OT)`
computed in double has `HAp(0,1) = -0.14000000000000007` and `HAp(1,0) = -0.14`, and the
enlarged block Hamiltonian written back has `HAB(0,2) = -0.38000000000000006` and
`HAB(2,0) = -0.38`: it is not symmetric. -/
theorem written_block_not_symmetric_in_double :
    (∀ a < 4, ∀ b < 4, H12D.v a b = H12D.v b a ∧
      (firstSiteOpD SzD).v a b = (firstSiteOpD SzD).v b a ∧
      (firstSiteOpD SpD).v a b = (firstSiteOpD SmD).v b a) ∧
    transformD { n1 := 2, n2 := 4, v := sampleOOD }
      { n1 := 4, n2 := 2, v := fun i1 i2 => sampleOOD i2 i1 } H12D 0 1 =
        Dbl.fin (-5044031582654958) (-55) ∧
    transformD { n1 := 2, n2 := 4, v := sampleOOD }
      { n1 := 4, n2 := 2, v := fun i1 i2 => sampleOOD i2 i1 } H12D 1 0 =
        Dbl.fin (-5044031582654956) (-55) ∧
    (firstBlockD 2 sampleOOD).v 0 2 = Dbl.fin (-6845471433603155) (-54) ∧
    (firstBlockD 2 sampleOOD).v 2 0 = Dbl.fin (-6845471433603154) (-54) ∧
    (firstBlockD 2 sampleOOD).v 0 2 ≠ (firstBlockD 2 sampleOOD).v 2 0 :=
  ⟨by decide, by decide, by decide, by decide, by decide, by decide⟩

/-- C16, the claim as stated fails in the arithmetic of the program. For the symmetric
3 × 3 matrix with the finite entries `a(2,0) = a(2,1) = 2^1023`, the row `i = 2` is the
first one processed: the sum `scale` of the absolute values overflows to `+∞`, so the test
`scale == 0.0` fails, the scaled entries `a(i,k)/scale` are 0, and `h = 0`: the divisions
by `h` and by `h + h` of that row divide by zero (`a(j,i) = a(i,j)/h` is `0/0`, a NaN). -/
theorem tred3_divides_by_zero_in_double :
    hugeRowD 2 0 = Dbl.fin (2 ^ 52) 971 ∧ hugeRowD 2 1 = Dbl.fin (2 ^ 52) 971 ∧
    rowScaleD hugeRowD 2 1 = Dbl.inf false ∧
    (rowScaleD hugeRowD 2 1).isZero = false ∧
    (forDown reduceRowD (3 - 1)
      { a := hugeRowD, d := fun _ => Dbl.lit 0 1, e := fun _ => Dbl.lit 0 1, divs := [] }).divs =
      [Dbl.inf false, Dbl.fin 0 0, Dbl.fin 0 0] ∧
    (reduceRowD 2
      { a := hugeRowD, d := fun _ => Dbl.lit 0 1, e := fun _ => Dbl.lit 0 1, divs := [] }).a 0 2 =
      Dbl.nan :=
  ⟨by decide, by decide, by decide, by decide, by decide, by decide⟩

end DoubleTheorems


end TinyDMRG
